import Mathlib

/-!
Verification of the text-cleaning pipeline of `obsidian_to_speech.py`.

The program's core is `clean_markdown_text`, a sequence of Python
`re.sub` substitutions followed by a line-by-line reflow loop and a
final cleanup.  We embed it shallowly over `List Char`:

* each `re.sub(pattern, repl, text)` becomes a scan that, at every
  position of the original string, attempts the (fixed, concrete)
  pattern with Python's leftmost / greedy-with-backtracking semantics,
  replaces the matched span and continues after it;
* `re.MULTILINE` anchoring of `^` is threaded through the scan as an
  "at line start" flag (true at position 0 and right after a `'\n'`);
* `$` under `re.MULTILINE` matches at the end of the string or right
  before a `'\n'`;
* character classes `\s`, `\d`, `[a-zA-Z]`, `[A-Z]`, `[a-z]`,
  `[a-zA-Z0-9-]` are the ASCII classes.

The file-system part (`convert_directory`) is embedded as a pure
function over a list of discovered files.
-/

/-- Python `\s` (ASCII): space, tab, newline, carriage return,
vertical tab, form feed. -/
def isPyWs (c : Char) : Bool :=
  c == ' ' || c == '\t' || c == '\n' || c == '\r' ||
  c == Char.ofNat 11 || c == Char.ofNat 12

/-- Character class `[a-zA-Z0-9-]` used for tags and block references. -/
def isTagChar (c : Char) : Bool :=
  c.isAlpha || c.isDigit || c == '-'

/-- Length of the maximal `\s*` run at the front of `s`. -/
def wsRun (s : List Char) : Nat := (s.takeWhile isPyWs).length

/-- Length of the maximal `\d*` run at the front of `s`. -/
def digRun (s : List Char) : Nat := (s.takeWhile Char.isDigit).length

/-- A matcher receives the "at line start" flag (for `^` under
`re.MULTILINE`) and the remaining input, and returns the number of
characters the pattern consumes there together with the replacement
text, or `none` if the pattern does not match at this position. -/
def reSubFuel (m : Bool → List Char → Option (Nat × List Char)) :
    Nat → Bool → List Char → List Char
  | 0, _, s => s
  | _ + 1, _, [] => []
  | fuel + 1, atLS, c :: rest =>
    match m atLS (c :: rest) with
    | some (n, repl) =>
      if n = 0 then c :: reSubFuel m fuel (c == '\n') rest
      else repl ++
        reSubFuel m fuel (((c :: rest).getD (n - 1) ' ') == '\n')
          (List.drop n (c :: rest))
    | none => c :: reSubFuel m fuel (c == '\n') rest

/-- `re.sub` over the whole string: every match consumes at least one
character, so `s.length` steps of fuel suffice. -/
def reSub (m : Bool → List Char → Option (Nat × List Char))
    (s : List Char) : List Char :=
  reSubFuel m s.length true s

/-- Matcher for `#\s+` (line 12: remove heading markers). -/
def hashWsM (_ : Bool) (s : List Char) : Option (Nat × List Char) :=
  match s with
  | c :: rest =>
    if c = '#' then
      let k := wsRun rest
      if k = 0 then none else some (1 + k, [])
    else none
  | [] => none

/-- Matcher for `\*\*([^*]+)\*\*` (line 13: remove bold). -/
def boldM (_ : Bool) (s : List Char) : Option (Nat × List Char) :=
  match s with
  | c1 :: c2 :: rest =>
    if c1 = '*' ∧ c2 = '*' then
      let t := rest.takeWhile (fun c => !(c == '*'))
      if t.isEmpty then none
      else
        match rest.drop t.length with
        | '*' :: '*' :: _ => some (2 + t.length + 2, t)
        | _ => none
    else none
  | _ => none

/-- Matcher for `\*([^*]+)\*` (line 14: remove italics). -/
def italicM (_ : Bool) (s : List Char) : Option (Nat × List Char) :=
  match s with
  | c1 :: rest =>
    if c1 = '*' then
      let t := rest.takeWhile (fun c => !(c == '*'))
      if t.isEmpty then none
      else
        match rest.drop t.length with
        | '*' :: _ => some (1 + t.length + 1, t)
        | _ => none
    else none
  | [] => none

/-- The backquote character. -/
def backquote : Char := Char.ofNat 96

/-- Matcher for the inline-code pattern (line 15: remove code spans). -/
def codeM (_ : Bool) (s : List Char) : Option (Nat × List Char) :=
  match s with
  | c1 :: rest =>
    if c1 = backquote then
      let t := rest.takeWhile (fun c => !(c == backquote))
      if t.isEmpty then none
      else
        match rest.drop t.length with
        | c :: _ => if c = backquote then some (1 + t.length + 1, t) else none
        | _ => none
    else none
  | [] => none

/-- Matcher for `\[([^\]]+)\]\([^\)]+\)` (line 16: remove links). -/
def linkM (_ : Bool) (s : List Char) : Option (Nat × List Char) :=
  match s with
  | c1 :: rest =>
    if c1 = '[' then
      let t := rest.takeWhile (fun c => !(c == ']'))
      if t.isEmpty then none
      else
        match rest.drop t.length with
        | ']' :: '(' :: rest2 =>
          let u := rest2.takeWhile (fun c => !(c == ')'))
          if u.isEmpty then none
          else
            match rest2.drop u.length with
            | ')' :: _ => some (1 + t.length + 2 + u.length + 1, t)
            | _ => none
        | _ => none
    else none
  | [] => none

/-- Matcher for `\[\[([^\]]+)\]\]` (line 17: remove wiki links). -/
def wikiM (_ : Bool) (s : List Char) : Option (Nat × List Char) :=
  match s with
  | c1 :: c2 :: rest =>
    if c1 = '[' ∧ c2 = '[' then
      let t := rest.takeWhile (fun c => !(c == ']'))
      if t.isEmpty then none
      else
        match rest.drop t.length with
        | ']' :: ']' :: _ => some (2 + t.length + 2, t)
        | _ => none
    else none
  | _ => none

/-- Matcher for `\!\[\[([^\]]+)\]\]` (line 18: remove image links). -/
def imgM (_ : Bool) (s : List Char) : Option (Nat × List Char) :=
  match s with
  | c0 :: c1 :: c2 :: rest =>
    if c0 = '!' ∧ c1 = '[' ∧ c2 = '[' then
      let t := rest.takeWhile (fun c => !(c == ']'))
      if t.isEmpty then none
      else
        match rest.drop t.length with
        | ']' :: ']' :: _ => some (3 + t.length + 2, [])
        | _ => none
    else none
  | _ => none

/-- Matcher for `\^[a-zA-Z0-9-]+` (line 19: remove block references). -/
def blockRefM (_ : Bool) (s : List Char) : Option (Nat × List Char) :=
  match s with
  | c1 :: rest =>
    if c1 = '^' then
      let t := rest.takeWhile isTagChar
      if t.isEmpty then none else some (1 + t.length, [])
    else none
  | [] => none

/-- Matcher for `#([a-zA-Z0-9-]+)` (line 20: remove tags). -/
def tagM (_ : Bool) (s : List Char) : Option (Nat × List Char) :=
  match s with
  | c1 :: rest =>
    if c1 = '#' then
      let t := rest.takeWhile isTagChar
      if t.isEmpty then none else some (1 + t.length, [])
    else none
  | [] => none

/-- `\s*$` under `re.MULTILINE`, starting at `s`: the greedy trailing
whitespace run followed by end-of-string or a position right before a
`'\n'` (backtracking to the last `'\n'` inside the run when the run is
not followed by the end of the string).  Returns the number of
whitespace characters consumed. -/
def dollarWs (s : List Char) : Option Nat :=
  let r := s.takeWhile isPyWs
  if (s.drop r.length).isEmpty then some r.length
  else
    match r.reverse.findIdx? (fun c => c == '\n') with
    | some i => some (r.length - 1 - i)
    | none => none

/-- Matcher for `^\s*--+\s*$` with `re.MULTILINE`
(line 23: remove horizontal rules). -/
def hruleM (atLS : Bool) (s : List Char) : Option (Nat × List Char) :=
  if !atLS then none
  else
    let k1 := wsRun s
    let s1 := s.drop k1
    let d := (s1.takeWhile (fun c => c == '-')).length
    if d < 2 then none
    else
      match dollarWs (s1.drop d) with
      | some k2 => some (k1 + d + k2, [])
      | none => none

/-- Matcher for `^\s*\d+\.\d+\s*$` with `re.MULTILINE`
(line 24: remove standalone section numbers). -/
def numNNM (atLS : Bool) (s : List Char) : Option (Nat × List Char) :=
  if !atLS then none
  else
    let k1 := wsRun s
    let s1 := s.drop k1
    let d1 := digRun s1
    if d1 = 0 then none
    else
      match s1.drop d1 with
      | '.' :: s2 =>
        let d2 := digRun s2
        if d2 = 0 then none
        else
          match dollarWs (s2.drop d2) with
          | some k2 => some (k1 + d1 + 1 + d2 + k2, [])
          | none => none
      | _ => none

/-- Matcher for `^\s*\d+\.\s*$` with `re.MULTILINE`
(line 25: remove standalone numbers). -/
def numDotM (atLS : Bool) (s : List Char) : Option (Nat × List Char) :=
  if !atLS then none
  else
    let k1 := wsRun s
    let s1 := s.drop k1
    let d1 := digRun s1
    if d1 = 0 then none
    else
      match s1.drop d1 with
      | '.' :: s2 =>
        match dollarWs s2 with
        | some k2 => some (k1 + d1 + 1 + k2, [])
        | none => none
      | _ => none

/-- Matcher for `^\s*\.\d+\s*$` with `re.MULTILINE`
(line 26: remove standalone decimals). -/
def dotNumM (atLS : Bool) (s : List Char) : Option (Nat × List Char) :=
  if !atLS then none
  else
    let k1 := wsRun s
    match s.drop k1 with
    | '.' :: s1 =>
      let d := digRun s1
      if d = 0 then none
      else
        match dollarWs (s1.drop d) with
        | some k2 => some (k1 + 1 + d + k2, [])
        | none => none
    | _ => none

/-- Matcher for `^\s*-\s*` with `re.MULTILINE`
(line 27: remove bullet points at line starts). -/
def bulletM (atLS : Bool) (s : List Char) : Option (Nat × List Char) :=
  if !atLS then none
  else
    let k1 := wsRun s
    match s.drop k1 with
    | '-' :: s1 => some (k1 + 1 + wsRun s1, [])
    | _ => none

/-- Matcher for `^\s*#\.\d+\.\d+\s+` with `re.MULTILINE`
(line 28: remove section numbers like `#.4.1`). -/
def secNNM (atLS : Bool) (s : List Char) : Option (Nat × List Char) :=
  if !atLS then none
  else
    let k1 := wsRun s
    match s.drop k1 with
    | '#' :: '.' :: s1 =>
      let d1 := digRun s1
      if d1 = 0 then none
      else
        match s1.drop d1 with
        | '.' :: s2 =>
          let d2 := digRun s2
          if d2 = 0 then none
          else
            let k2 := wsRun (s2.drop d2)
            if k2 = 0 then none
            else some (k1 + 2 + d1 + 1 + d2 + k2, [])
        | _ => none
    | _ => none

/-- Matcher for `^\s*#\.\d+\s+` with `re.MULTILINE`
(line 29: remove section numbers like `#.4`). -/
def secNM (atLS : Bool) (s : List Char) : Option (Nat × List Char) :=
  if !atLS then none
  else
    let k1 := wsRun s
    match s.drop k1 with
    | '#' :: '.' :: s1 =>
      let d1 := digRun s1
      if d1 = 0 then none
      else
        let k2 := wsRun (s1.drop d1)
        if k2 = 0 then none
        else some (k1 + 2 + d1 + k2, [])
    | _ => none

/-- The literal word `Chapter`. -/
def chapterWord : List Char := ['C', 'h', 'a', 'p', 't', 'e', 'r']

/-- `\s*([^\n]+)` starting at `u`: the greedy whitespace run, then the
greedy non-empty run of non-newline characters (backtracking into the
whitespace run for its last non-newline character when the run is
followed by the end of the string).  Returns the characters consumed
from `u` and the captured group. -/
def wsGroupNonNl (u : List Char) : Option (Nat × List Char) :=
  let m := wsRun u
  match u.drop m with
  | _ :: _ =>
    let t := (u.drop m).takeWhile (fun c => !(c == '\n'))
    some (m + t.length, t)
  | [] =>
    let w := u.take m
    match w.reverse.findIdx? (fun c => !(c == '\n')) with
    | some i => some (m - i, [w.getD (m - 1 - i) ' '])
    | none => none

/-- Matcher for `^\s*Chapter\s+(\d+)\s*[:.]\s*([^\n]+)` with
`re.MULTILINE`, replaced by `Chapter \1: \2` (line 32). -/
def chapterM (atLS : Bool) (s : List Char) : Option (Nat × List Char) :=
  if !atLS then none
  else
    let k1 := wsRun s
    let s1 := s.drop k1
    if s1.take 7 = chapterWord then
      let s2 := s1.drop 7
      let w1 := wsRun s2
      if w1 = 0 then none
      else
        let s3 := s2.drop w1
        let d := digRun s3
        if d = 0 then none
        else
          let ds := s3.take d
          let s4 := s3.drop d
          let w2 := wsRun s4
          match s4.drop w2 with
          | c :: s5 =>
            if c = ':' ∨ c = '.' then
              match wsGroupNonNl s5 with
              | some (n, t) =>
                some (k1 + 7 + w1 + d + w2 + 1 + n,
                      chapterWord ++ [' '] ++ ds ++ [':', ' '] ++ t)
              | none => none
            else none
          | [] => none
    else none

/-- Stage 1 of `clean_markdown_text` (source lines 12-32): the ordered
global substitutions. -/
def stage1 (s : List Char) : List Char :=
  let s := reSub hashWsM s
  let s := reSub boldM s
  let s := reSub italicM s
  let s := reSub codeM s
  let s := reSub linkM s
  let s := reSub wikiM s
  let s := reSub imgM s
  let s := reSub blockRefM s
  let s := reSub tagM s
  let s := reSub hruleM s
  let s := reSub numNNM s
  let s := reSub numDotM s
  let s := reSub dotNumM s
  let s := reSub bulletM s
  let s := reSub secNNM s
  let s := reSub secNM s
  let s := reSub chapterM s
  s

/-- Python `text.split('\n')`. -/
def splitNl : List Char → List (List Char)
  | [] => [[]]
  | c :: rest =>
    if c = '\n' then [] :: splitNl rest
    else
      match splitNl rest with
      | l :: ls => (c :: l) :: ls
      | [] => [[c]]

/-- Python `str.strip()` over the ASCII whitespace class. -/
def pystrip (s : List Char) : List Char :=
  ((s.dropWhile isPyWs).reverse.dropWhile isPyWs).reverse

/-- Zero-width substitution `(?<=[a-zA-Z])(?=[A-Z][a-z])` replaced by a
space (line 49: add space between camelCase words). -/
def camelFix : List Char → List Char
  | [] => []
  | a :: rest =>
    match rest with
    | b :: c :: _ =>
      if a.isAlpha ∧ b.isUpper ∧ c.isLower then a :: ' ' :: camelFix rest
      else a :: camelFix rest
    | _ => a :: rest

/-- Matcher for `([a-zA-Z])to([A-Z])` replaced by `\1 to \2`
(line 50: fix "to" stuck between words). -/
def toM (_ : Bool) (s : List Char) : Option (Nat × List Char) :=
  match s with
  | a :: 't' :: 'o' :: b :: _ =>
    if a.isAlpha ∧ b.isUpper then some (4, [a, ' ', 't', 'o', ' ', b])
    else none
  | _ => none

/-- Substitution `([a-zA-Z])to([A-Z])` over a whole line. -/
def toFix (s : List Char) : List Char := reSub toM s

/-- Matcher for `([a-zA-Z])([A-Z])` replaced by `\1 \2`
(line 51: add space between words). -/
def spaceM (_ : Bool) (s : List Char) : Option (Nat × List Char) :=
  match s with
  | a :: b :: _ =>
    if a.isAlpha ∧ b.isUpper then some (2, [a, ' ', b]) else none
  | _ => none

/-- Substitution `([a-zA-Z])([A-Z])` over a whole line. -/
def spaceFix (s : List Char) : List Char := reSub spaceM s

/-- Matcher for `([A-Z])\s+([A-Z])\s+([A-Z])` replaced by `\1\2\3`
(line 52: fix split acronyms like `W S O P`). -/
def acro3M (_ : Bool) (s : List Char) : Option (Nat × List Char) :=
  match s with
  | a :: rest =>
    if a.isUpper then
      let w1 := wsRun rest
      if w1 = 0 then none
      else
        match rest.drop w1 with
        | b :: rest2 =>
          if b.isUpper then
            let w2 := wsRun rest2
            if w2 = 0 then none
            else
              match rest2.drop w2 with
              | c :: _ =>
                if c.isUpper then some (1 + w1 + 1 + w2 + 1, [a, b, c])
                else none
              | [] => none
          else none
        | [] => none
    else none
  | [] => none

/-- Matcher for `([A-Z])\s+([A-Z])` replaced by `\1\2`
(line 53: fix split acronyms like `W S`). -/
def acro2M (_ : Bool) (s : List Char) : Option (Nat × List Char) :=
  match s with
  | a :: rest =>
    if a.isUpper then
      let w1 := wsRun rest
      if w1 = 0 then none
      else
        match rest.drop w1 with
        | b :: _ => if b.isUpper then some (1 + w1 + 1, [a, b]) else none
        | [] => none
    else none
  | [] => none

/-- `re.sub(r'^\s*\d+\.\d+\s+', '', line)` (line 56), anchored at the
start of the line only. -/
def stripNumNN (s : List Char) : List Char :=
  let k1 := wsRun s
  let s1 := s.drop k1
  let d1 := digRun s1
  if d1 = 0 then s
  else
    match s1.drop d1 with
    | '.' :: s2 =>
      let d2 := digRun s2
      if d2 = 0 then s
      else
        let s3 := s2.drop d2
        let k2 := wsRun s3
        if k2 = 0 then s else s3.drop k2
    | _ => s

/-- `re.sub(r'^\s*\d+\.\s+', '', line)` (line 57). -/
def stripNumDot (s : List Char) : List Char :=
  let k1 := wsRun s
  let s1 := s.drop k1
  let d1 := digRun s1
  if d1 = 0 then s
  else
    match s1.drop d1 with
    | '.' :: s2 =>
      let k2 := wsRun s2
      if k2 = 0 then s else s2.drop k2
    | _ => s

/-- `re.sub(r'^\s*\.\d+\s+', '', line)` (line 58). -/
def stripDotNum (s : List Char) : List Char :=
  let k1 := wsRun s
  match s.drop k1 with
  | '.' :: s1 =>
    let d := digRun s1
    if d = 0 then s
    else
      let s2 := s1.drop d
      let k2 := wsRun s2
      if k2 = 0 then s else s2.drop k2
  | _ => s

/-- `re.sub(r'^\s*-\s+', '', line)` (line 59). -/
def stripBullet (s : List Char) : List Char :=
  let k1 := wsRun s
  match s.drop k1 with
  | '-' :: s1 =>
    let k2 := wsRun s1
    if k2 = 0 then s else s1.drop k2
  | _ => s

/-- The word-spacing repairs and residual prefix stripping applied to
each non-blank line (source lines 49-59), in source order. -/
def fixLine (l : List Char) : List Char :=
  stripBullet (stripDotNum (stripNumDot (stripNumNN
    (reSub acro2M (reSub acro3M (spaceFix (toFix (camelFix l))))))))

/-- `re.match(r'^Chapter\s+(\d+):\s*(.+)$', line)` (line 66), on a line
containing no newline: returns the two captured groups. -/
def chapterLineMatch (s : List Char) : Option (List Char × List Char) :=
  if s.take 7 = chapterWord then
    let s2 := s.drop 7
    let w1 := wsRun s2
    if w1 = 0 then none
    else
      let s3 := s2.drop w1
      let d := digRun s3
      if d = 0 then none
      else
        let ds := s3.take d
        match s3.drop d with
        | ':' :: s4 =>
          let m := wsRun s4
          match s4.drop m with
          | _ :: _ => some (ds, s4.drop m)
          | [] =>
            if m = 0 then none
            else
              let w := s4.take m
              if w.getD (m - 1) ' ' = '\n' then none
              else some (ds, [w.getD (m - 1) ' '])
        | _ => none
  else none

/-- One Title-Case word `[A-Z][a-z]+`; returns the consumed length. -/
def titleWord (s : List Char) : Option Nat :=
  match s with
  | c :: rest =>
    if c.isUpper then
      let t := (rest.takeWhile Char.isLower).length
      if t = 0 then none else some (1 + t)
    else none
  | [] => none

/-- The `(?:\s+[A-Z][a-z]+)+\s*$` tail of the section-header pattern,
after the first word; `count` is the number of iterations so far. -/
def headerRest (fuel : Nat) (count : Nat) (s : List Char) : Bool :=
  match fuel with
  | 0 => false
  | fuel + 1 =>
    let w := wsRun s
    let s1 := s.drop w
    if w = 0 then !(count == 0) && s.isEmpty
    else
      match titleWord s1 with
      | some n => headerRest fuel (count + 1) (s1.drop n)
      | none => !(count == 0) && s1.isEmpty

/-- `re.match(r'^[A-Z][a-z]+(?:\s+[A-Z][a-z]+)+\s*$', line)` (line 78):
the section-header heuristic. -/
def isHeaderLine (s : List Char) : Bool :=
  match titleWord s with
  | some n => headerRest s.length 0 (s.drop n)
  | none => false

/-- The literal line `Key Milestones:` (line 89). -/
def kmWord : List Char :=
  ['K', 'e', 'y', ' ', 'M', 'i', 'l', 'e', 's', 't', 'o', 'n', 'e', 's', ':']

/-- `' '.join(current_paragraph)`. -/
def joinSp (para : List (List Char)) : List Char :=
  List.intercalate [' '] para

/-- The canonical chapter line `f"Chapter {g1}: {g2}"` (line 73). -/
def chapterText (ds t : List Char) : List Char :=
  chapterWord ++ [' '] ++ ds ++ [':', ' '] ++ t

/-- Whether the last emitted element exists and is non-empty
(`processed_lines and processed_lines[-1]`, line 82). -/
def lastNonEmpty (acc : List (List Char)) : Bool :=
  match acc.getLast? with
  | some x => !x.isEmpty
  | none => false

/-- Stage 2 of `clean_markdown_text` (source lines 35-104): the
line-by-line reflow loop.  `acc` is `processed_lines`, `para` is
`current_paragraph`. -/
def processLines (acc : List (List Char)) (para : List (List Char)) :
    List (List Char) → List (List Char)
  | [] => acc ++ (if para.isEmpty then [] else [joinSp para])
  | l :: ls =>
    let l1 := pystrip l
    if l1.isEmpty then
      processLines (acc ++ (if para.isEmpty then [] else [joinSp para])) [] ls
    else
      let l2 := fixLine l1
      if l2.isEmpty then processLines acc para ls
      else
        match chapterLineMatch l2 with
        | some (ds, t) =>
          let acc1 := acc ++ (if para.isEmpty then [] else [joinSp para])
          let acc2 := acc1 ++ (if acc1.isEmpty then [] else [[]])
          processLines (acc2 ++ [chapterText ds t] ++ [[]]) [] ls
        | none =>
          if isHeaderLine l2 then
            let acc1 := acc ++ (if para.isEmpty then [] else [joinSp para])
            let acc2 := acc1 ++ (if lastNonEmpty acc1 then [[]] else [])
            processLines (acc2 ++ [l2] ++ [[]]) [] ls
          else if l2 = kmWord then
            let acc1 := acc ++ (if para.isEmpty then [] else [joinSp para])
            let acc2 := acc1 ++ (if lastNonEmpty acc1 then [[]] else [])
            processLines (acc2 ++ [l2] ++ [[]]) [] ls
          else processLines acc (para ++ [l2]) ls

/-- `'\n\n'.join(line for line in processed_lines if line is not None
and line.strip())` (line 107). -/
def joinBlocks (bs : List (List Char)) : List Char :=
  List.intercalate ['\n', '\n'] (bs.filter (fun b => !(pystrip b).isEmpty))

/-- Matcher for `\n{3,}` replaced by `\n\n` (line 110). -/
def nl3M (_ : Bool) (s : List Char) : Option (Nat × List Char) :=
  match s with
  | c :: _ =>
    if c = '\n' then
      let k := (s.takeWhile (fun x => x == '\n')).length
      if k ≥ 3 then some (k, ['\n', '\n']) else none
    else none
  | [] => none

/-- Matcher for ` +` replaced by a single space (line 111). -/
def spM (_ : Bool) (s : List Char) : Option (Nat × List Char) :=
  match s with
  | c :: _ =>
    if c = ' ' then some ((s.takeWhile (fun x => x == ' ')).length, [' '])
    else none
  | [] => none

/-- `re.sub(r'\n{3,}', '\n\n', text)`. -/
def collapseNl (s : List Char) : List Char := reSub nl3M s

/-- `re.sub(r' +', ' ', text)`. -/
def collapseSp (s : List Char) : List Char := reSub spM s

/-- `clean_markdown_text` over `List Char`: stage 1 (syntax stripping),
stage 2 (line reflow), stage 3 (assembly and final cleanup). -/
def cleanList (s : List Char) : List Char :=
  pystrip (collapseSp (collapseNl
    (joinBlocks (processLines [] [] (splitNl (stage1 s))))))

/-- The program's `clean_markdown_text` (source lines 10-114). -/
def clean_markdown_text (s : String) : String :=
  String.mk (cleanList s.data)

/-! ### Scanning predicates for the output-shape claims -/

/-- Every adjacent pair of characters satisfies `p`. -/
def goodPairs (p : Char → Char → Bool) : List Char → Bool
  | a :: b :: rest => p a b && goodPairs p (b :: rest)
  | _ => true

/-- Every adjacent triple of characters satisfies `p`. -/
def goodTriples (p : Char → Char → Char → Bool) : List Char → Bool
  | a :: b :: c :: rest => p a b c && goodTriples p (b :: c :: rest)
  | _ => true

/-- No two consecutive space characters. -/
def noDoubleSpace (s : List Char) : Bool :=
  goodPairs (fun a b => !(a == ' ' && b == ' ')) s

/-- No three consecutive newline characters. -/
def noTripleNl (s : List Char) : Bool :=
  goodTriples (fun a b c => !(a == '\n' && b == '\n' && c == '\n')) s

theorem goodPairs_tail {p : Char → Char → Bool} {a : Char} {t : List Char}
    (h : goodPairs p (a :: t) = true) : goodPairs p t = true := by
  match t with
  | [] => rfl
  | b :: t2 =>
    have := (Bool.and_eq_true _ _).mp h
    exact this.2

theorem goodPairs_cons {p : Char → Char → Bool} {a : Char} {t : List Char}
    (ht : goodPairs p t = true)
    (hh : ∀ b, t.head? = some b → p a b = true) :
    goodPairs p (a :: t) = true := by
  match t with
  | [] => rfl
  | b :: t2 =>
    have hb := hh b rfl
    simp [goodPairs, hb, ht]

theorem goodPairs_append_right {p : Char → Char → Bool} {x y : List Char}
    (h : goodPairs p (x ++ y) = true) : goodPairs p y = true := by
  induction x with
  | nil => exact h
  | cons a x ih => exact ih (goodPairs_tail h)

theorem goodPairs_append_left {p : Char → Char → Bool} {x y : List Char}
    (h : goodPairs p (x ++ y) = true) : goodPairs p x = true := by
  induction x with
  | nil => rfl
  | cons a x ih =>
    match x with
    | [] => rfl
    | b :: x2 =>
      have h2 := (Bool.and_eq_true _ _).mp h
      exact (Bool.and_eq_true _ _).mpr ⟨h2.1, ih h2.2⟩

theorem goodTriples_tail {p : Char → Char → Char → Bool} {a : Char}
    {t : List Char} (h : goodTriples p (a :: t) = true) :
    goodTriples p t = true := by
  match t with
  | [] => rfl
  | [b] => rfl
  | b :: c :: t2 =>
    have := (Bool.and_eq_true _ _).mp h
    exact this.2

theorem goodTriples_cons {p : Char → Char → Char → Bool} {a : Char}
    {t : List Char} (ht : goodTriples p t = true)
    (hh : ∀ b c t2, t = b :: c :: t2 → p a b c = true) :
    goodTriples p (a :: t) = true := by
  match t with
  | [] => rfl
  | [b] => rfl
  | b :: c :: t2 =>
    have hb := hh b c t2 rfl
    simp [goodTriples, hb, ht]

theorem goodTriples_append_right {p : Char → Char → Char → Bool}
    {x y : List Char} (h : goodTriples p (x ++ y) = true) :
    goodTriples p y = true := by
  induction x with
  | nil => exact h
  | cons a x ih => exact ih (goodTriples_tail h)

theorem goodTriples_append_left {p : Char → Char → Char → Bool}
    {x y : List Char} (h : goodTriples p (x ++ y) = true) :
    goodTriples p x = true := by
  induction x with
  | nil => rfl
  | cons a x ih =>
    match x with
    | [] => rfl
    | [b] => rfl
    | b :: c :: x2 =>
      have h2 := (Bool.and_eq_true _ _).mp h
      exact (Bool.and_eq_true _ _).mpr ⟨h2.1, ih h2.2⟩

/-! ### Character-class facts -/

/-- A character of clean prose: a lowercase ASCII letter or a space. -/
def proseChar (c : Char) : Bool := c.isLower || c == ' '

theorem isLower_nat {c : Char} (h : c.isLower = true) :
    97 ≤ c.val.toBitVec.toNat ∧ c.val.toBitVec.toNat ≤ 122 := by
  simpa only [Char.isLower, Bool.and_eq_true, decide_eq_true_eq, ge_iff_le,
    UInt32.le_def, BitVec.le_def,
    show ((97 : UInt32).toBitVec).toNat = 97 from rfl,
    show ((122 : UInt32).toBitVec).toNat = 122 from rfl] using h

theorem isLower_not_upper {c : Char} (h : c.isLower = true) :
    c.isUpper = false := by
  have hn := isLower_nat h
  simp only [Char.isUpper, Bool.and_eq_false_iff, decide_eq_false_iff_not,
    not_le, ge_iff_le, UInt32.le_def, BitVec.le_def,
    show ((65 : UInt32).toBitVec).toNat = 65 from rfl,
    show ((90 : UInt32).toBitVec).toNat = 90 from rfl]
  omega

theorem isLower_not_digit {c : Char} (h : c.isLower = true) :
    c.isDigit = false := by
  have hn := isLower_nat h
  simp only [Char.isDigit, Bool.and_eq_false_iff, decide_eq_false_iff_not,
    not_le, ge_iff_le, UInt32.le_def, BitVec.le_def,
    show ((48 : UInt32).toBitVec).toNat = 48 from rfl,
    show ((57 : UInt32).toBitVec).toNat = 57 from rfl]
  omega

theorem proseChar_ne {c : Char} (h : proseChar c = true) :
    c ≠ '#' ∧ c ≠ '*' ∧ c ≠ backquote ∧ c ≠ '[' ∧ c ≠ '!' ∧ c ≠ '^' ∧
    c ≠ '\n' ∧ c ≠ '-' ∧ c ≠ '.' ∧ c ≠ 'C' ∧ c ≠ ':' := by
  have h2 : c.isLower = true ∨ c = ' ' := by
    simpa [proseChar, Bool.or_eq_true] using h
  rcases h2 with hl | rfl
  · refine ⟨?_, ?_, ?_, ?_, ?_, ?_, ?_, ?_, ?_, ?_, ?_⟩ <;>
      (rintro rfl; exact absurd hl (by decide))
  · refine ⟨?_, ?_, ?_, ?_, ?_, ?_, ?_, ?_, ?_, ?_, ?_⟩ <;> decide

theorem proseChar_not_upper {c : Char} (h : proseChar c = true) :
    c.isUpper = false := by
  have h2 : c.isLower = true ∨ c = ' ' := by
    simpa [proseChar, Bool.or_eq_true] using h
  rcases h2 with hl | rfl
  · exact isLower_not_upper hl
  · decide

theorem proseChar_not_digit {c : Char} (h : proseChar c = true) :
    c.isDigit = false := by
  have h2 : c.isLower = true ∨ c = ' ' := by
    simpa [proseChar, Bool.or_eq_true] using h
  rcases h2 with hl | rfl
  · exact isLower_not_digit hl
  · decide

theorem isLower_not_ws {c : Char} (h : c.isLower = true) :
    isPyWs c = false := by
  simp only [isPyWs, Bool.or_eq_false_iff, beq_eq_false_iff_ne, ne_eq]
  refine ⟨⟨⟨⟨⟨?_, ?_⟩, ?_⟩, ?_⟩, ?_⟩, ?_⟩ <;>
    (rintro rfl; exact absurd h (by decide))

/-! ### Generic facts about the substitution driver -/

theorem reSubFuel_nil (m : Bool → List Char → Option (Nat × List Char))
    (fuel : Nat) (f : Bool) : reSubFuel m fuel f [] = [] := by
  cases fuel <;> rfl

theorem reSubFuel_cons_none {m : Bool → List Char → Option (Nat × List Char)}
    {f : Bool} {c : Char} {rest : List Char} (fuel : Nat)
    (hm : m f (c :: rest) = none) :
    reSubFuel m (fuel + 1) f (c :: rest) =
      c :: reSubFuel m fuel (c == '\n') rest := by
  simp [reSubFuel, hm]

theorem reSubFuel_cons_some {m : Bool → List Char → Option (Nat × List Char)}
    {f : Bool} {c : Char} {rest repl : List Char} {n : Nat} (fuel : Nat)
    (hm : m f (c :: rest) = some (n, repl)) (hn : n ≠ 0) :
    reSubFuel m (fuel + 1) f (c :: rest) =
      repl ++ reSubFuel m fuel (((c :: rest).getD (n - 1) ' ') == '\n')
        (List.drop n (c :: rest)) := by
  simp [reSubFuel, hm, hn]

theorem reSubFuel_stable (m : Bool → List Char → Option (Nat × List Char)) :
    ∀ fuel₁ fuel₂ (f : Bool) (s : List Char),
      s.length ≤ fuel₁ → s.length ≤ fuel₂ →
      reSubFuel m fuel₁ f s = reSubFuel m fuel₂ f s := by
  intro fuel₁
  induction fuel₁ with
  | zero =>
    intro fuel₂ f s h1 _
    have hs : s = [] := List.eq_nil_of_length_eq_zero (Nat.le_zero.mp h1)
    subst hs
    rw [reSubFuel_nil, reSubFuel_nil]
  | succ fuel ih =>
    intro fuel₂ f s h1 h2
    match s, h1, h2 with
    | [], _, _ => rw [reSubFuel_nil, reSubFuel_nil]
    | c :: rest, h1, h2 =>
      match fuel₂, h2 with
      | n + 1, h2 =>
        have hr : rest.length ≤ fuel := by
          simpa using Nat.le_of_succ_le_succ h1
        have hr2 : rest.length ≤ n := by
          simpa using Nat.le_of_succ_le_succ h2
        cases hm : m f (c :: rest) with
        | none =>
          rw [reSubFuel_cons_none fuel hm, reSubFuel_cons_none n hm,
            ih n (c == '\n') rest hr hr2]
        | some p =>
          obtain ⟨nn, repl⟩ := p
          by_cases hn : nn = 0
          · subst hn
            have e1 : reSubFuel m (fuel + 1) f (c :: rest) =
                c :: reSubFuel m fuel (c == '\n') rest := by
              simp [reSubFuel, hm]
            have e2 : reSubFuel m (n + 1) f (c :: rest) =
                c :: reSubFuel m n (c == '\n') rest := by
              simp [reSubFuel, hm]
            rw [e1, e2, ih n (c == '\n') rest hr hr2]
          · rw [reSubFuel_cons_some fuel hm hn, reSubFuel_cons_some n hm hn]
            have hd : (List.drop nn (c :: rest)).length ≤ fuel := by
              have : (List.drop nn (c :: rest)).length ≤ rest.length := by
                simp only [List.length_drop, List.length_cons]
                omega
              omega
            have hd2 : (List.drop nn (c :: rest)).length ≤ n := by
              have : (List.drop nn (c :: rest)).length ≤ rest.length := by
                simp only [List.length_drop, List.length_cons]
                omega
              omega
            rw [ih n _ _ hd hd2]

/-- A matcher for a `^`-anchored pattern: it never matches when the
scan position is not at a line start. -/
def Anchored (m : Bool → List Char → Option (Nat × List Char)) : Prop :=
  ∀ s, m false s = none

theorem reSubFuel_id_of_none
    {m : Bool → List Char → Option (Nat × List Char)} :
    ∀ (fuel : Nat) (f : Bool) (s : List Char),
      (∀ (f2 : Bool) (t : List Char), t <:+ s → m f2 t = none) →
      reSubFuel m fuel f s = s := by
  intro fuel
  induction fuel with
  | zero => intro f s _; rfl
  | succ fuel ih =>
    intro f s hm
    match s with
    | [] => exact reSubFuel_nil m _ _
    | c :: rest =>
      rw [reSubFuel_cons_none fuel (hm f _ List.suffix_rfl)]
      rw [ih _ rest (fun f2 t ht => hm f2 t (ht.trans (List.suffix_cons c rest)))]

theorem reSubFuel_false_id
    {m : Bool → List Char → Option (Nat × List Char)} (hm : Anchored m) :
    ∀ (fuel : Nat) (s : List Char), (∀ c ∈ s, c ≠ '\n') →
      reSubFuel m fuel false s = s := by
  intro fuel
  induction fuel with
  | zero => intro s _; rfl
  | succ fuel ih =>
    intro s hs
    match s with
    | [] => exact reSubFuel_nil m _ _
    | c :: rest =>
      rw [reSubFuel_cons_none fuel (hm _)]
      have hc : (c == '\n') = false :=
        beq_eq_false_iff_ne.mpr (hs c (List.mem_cons_self c rest))
      rw [hc, ih rest (fun d hd => hs d (List.mem_cons_of_mem c hd))]

theorem reSubFuel_false_to_nl
    {m : Bool → List Char → Option (Nat × List Char)} (hm : Anchored m) :
    ∀ (x : List Char), (∀ c ∈ x, c ≠ '\n') →
      ∀ (r : List Char) (fuel : Nat), (x ++ '\n' :: r).length ≤ fuel →
      reSubFuel m fuel false (x ++ '\n' :: r) =
        x ++ '\n' :: reSubFuel m r.length true r := by
  intro x
  induction x with
  | nil =>
    intro _ r fuel hfuel
    match fuel, hfuel with
    | 0, hfuel => exact absurd hfuel (by simp)
    | fuel + 1, hfuel =>
      rw [List.nil_append, reSubFuel_cons_none fuel (hm _)]
      simp only [show ('\n' == '\n') = true from rfl]
      rw [reSubFuel_stable m fuel r.length true r
        (by simpa using Nat.le_of_succ_le_succ hfuel) (Nat.le_refl _)]
      simp
  | cons c x ih =>
    intro hx r fuel hfuel
    match fuel, hfuel with
    | 0, hfuel => exact absurd hfuel (by simp)
    | fuel + 1, hfuel =>
      rw [List.cons_append, reSubFuel_cons_none fuel (hm _)]
      have hc : (c == '\n') = false :=
        beq_eq_false_iff_ne.mpr (hx c (List.mem_cons_self c x))
      rw [hc, ih (fun d hd => hx d (List.mem_cons_of_mem c hd)) r fuel
        (by simpa using Nat.le_of_succ_le_succ hfuel)]
      simp

theorem reSubFuel_true_id
    {m : Bool → List Char → Option (Nat × List Char)} (hm : Anchored m)
    {y : List Char} (hy : ∀ c ∈ y, c ≠ '\n') (hnone : m true y = none)
    (fuel : Nat) : reSubFuel m fuel true y = y := by
  match fuel with
  | 0 => rfl
  | fuel + 1 =>
    match y with
    | [] => exact reSubFuel_nil m _ _
    | c :: rest =>
      rw [reSubFuel_cons_none fuel hnone]
      have hc : (c == '\n') = false :=
        beq_eq_false_iff_ne.mpr (hy c (List.mem_cons_self c rest))
      rw [hc, reSubFuel_false_id hm fuel rest
        (fun d hd => hy d (List.mem_cons_of_mem c hd))]

theorem reSubFuel_true_line_none
    {m : Bool → List Char → Option (Nat × List Char)} (hm : Anchored m)
    {x : List Char} (hx : ∀ c ∈ x, c ≠ '\n') {r : List Char} {fuel : Nat}
    (hnone : m true (x ++ '\n' :: r) = none)
    (hfuel : (x ++ '\n' :: r).length ≤ fuel) :
    reSubFuel m fuel true (x ++ '\n' :: r) =
      x ++ '\n' :: reSubFuel m r.length true r := by
  match x, hx with
  | [], _ =>
    match fuel, hfuel with
    | 0, hfuel => exact absurd hfuel (by simp)
    | fuel + 1, hfuel =>
      rw [List.nil_append, reSubFuel_cons_none fuel (by simpa using hnone)]
      simp only [show ('\n' == '\n') = true from rfl]
      rw [reSubFuel_stable m fuel r.length true r
        (by simpa using Nat.le_of_succ_le_succ hfuel) (Nat.le_refl _)]
      simp
  | c :: x2, hx =>
    match fuel, hfuel with
    | 0, hfuel => exact absurd hfuel (by simp)
    | fuel + 1, hfuel =>
      rw [List.cons_append, reSubFuel_cons_none fuel (by simpa using hnone)]
      have hc : (c == '\n') = false :=
        beq_eq_false_iff_ne.mpr (hx c (List.mem_cons_self c x2))
      rw [hc, reSubFuel_false_to_nl hm x2
        (fun d hd => hx d (List.mem_cons_of_mem c hd)) r fuel
        (by simpa using Nat.le_of_succ_le_succ hfuel)]
      simp

theorem reSubFuel_true_line_match
    {m : Bool → List Char → Option (Nat × List Char)} (hm : Anchored m)
    {M repl r : List Char} {fuel : Nat}
    (hM : ∀ c ∈ M, c ≠ '\n') (hMne : M ≠ [])
    (hmatch : m true (M ++ '\n' :: r) = some (M.length, repl))
    (hfuel : (M ++ '\n' :: r).length ≤ fuel) :
    reSubFuel m fuel true (M ++ '\n' :: r) =
      repl ++ '\n' :: reSubFuel m r.length true r := by
  match M, hMne with
  | c :: M2, _ =>
    match fuel, hfuel with
    | 0, hfuel => exact absurd hfuel (by simp)
    | fuel + 1, hfuel =>
      have hlen : (c :: M2).length ≠ 0 := by simp
      rw [List.cons_append,
        reSubFuel_cons_some fuel (by simpa using hmatch) hlen]
      rw [show (c :: (M2 ++ '\n' :: r)) = (c :: M2) ++ '\n' :: r from rfl]
      rw [List.drop_left]
      have hidx : (c :: M2).length - 1 < (c :: M2).length := by simp
      have hgd : ((c :: M2) ++ '\n' :: r).getD ((c :: M2).length - 1) ' ' =
          (c :: M2).getD ((c :: M2).length - 1) ' ' :=
        List.getD_append _ _ _ _ hidx
      have hmem : (c :: M2).getD ((c :: M2).length - 1) ' ' ∈ c :: M2 := by
        rw [List.getD_eq_getElem?_getD, List.getElem?_eq_getElem hidx]
        exact List.getElem_mem _
      have hflag : (((c :: M2) ++ '\n' :: r).getD ((c :: M2).length - 1) ' '
          == '\n') = false := by
        rw [hgd]
        exact beq_eq_false_iff_ne.mpr (hM _ hmem)
      rw [hflag]
      have h2 : ('\n' :: r).length ≤ fuel := by
        have := hfuel
        simp only [List.length_append, List.length_cons] at this ⊢
        omega
      rw [show ('\n' :: r) = [] ++ '\n' :: r from rfl,
        reSubFuel_false_to_nl hm [] (by simp) r fuel (by simpa using h2)]
      simp

/-! ### Per-matcher no-match lemmas -/

theorem hashWsM_none {f : Bool} {t : List Char} (h : t.head? ≠ some '#') :
    hashWsM f t = none := by
  match t with
  | [] => rfl
  | c :: rest =>
    have : c ≠ '#' := by simpa using h
    simp [hashWsM, this]

theorem boldM_none {f : Bool} {t : List Char} (h : t.head? ≠ some '*') :
    boldM f t = none := by
  match t with
  | [] => rfl
  | [c] => rfl
  | c1 :: c2 :: rest =>
    have : c1 ≠ '*' := by simpa using h
    simp [boldM, this]

theorem italicM_none {f : Bool} {t : List Char} (h : t.head? ≠ some '*') :
    italicM f t = none := by
  match t with
  | [] => rfl
  | c :: rest =>
    have : c ≠ '*' := by simpa using h
    simp [italicM, this]

theorem codeM_none {f : Bool} {t : List Char} (h : t.head? ≠ some backquote) :
    codeM f t = none := by
  match t with
  | [] => rfl
  | c :: rest =>
    have : c ≠ backquote := by simpa using h
    simp [codeM, this]

theorem linkM_none {f : Bool} {t : List Char} (h : t.head? ≠ some '[') :
    linkM f t = none := by
  match t with
  | [] => rfl
  | c :: rest =>
    have : c ≠ '[' := by simpa using h
    simp [linkM, this]

theorem wikiM_none {f : Bool} {t : List Char} (h : t.head? ≠ some '[') :
    wikiM f t = none := by
  match t with
  | [] => rfl
  | [c] => rfl
  | c1 :: c2 :: rest =>
    have : c1 ≠ '[' := by simpa using h
    simp [wikiM, this]

theorem imgM_none {f : Bool} {t : List Char} (h : t.head? ≠ some '!') :
    imgM f t = none := by
  match t with
  | [] => rfl
  | [c] => rfl
  | [c1, c2] => rfl
  | c1 :: c2 :: c3 :: rest =>
    have : c1 ≠ '!' := by simpa using h
    simp [imgM, this]

theorem blockRefM_none {f : Bool} {t : List Char} (h : t.head? ≠ some '^') :
    blockRefM f t = none := by
  match t with
  | [] => rfl
  | c :: rest =>
    have : c ≠ '^' := by simpa using h
    simp [blockRefM, this]

theorem tagM_none {f : Bool} {t : List Char} (h : t.head? ≠ some '#') :
    tagM f t = none := by
  match t with
  | [] => rfl
  | c :: rest =>
    have : c ≠ '#' := by simpa using h
    simp [tagM, this]

theorem nl3M_none {f : Bool} {t : List Char} (h : t.head? ≠ some '\n') :
    nl3M f t = none := by
  match t with
  | [] => rfl
  | c :: rest =>
    have : c ≠ '\n' := by simpa using h
    simp [nl3M, this]

theorem spM_none {f : Bool} {t : List Char} (h : t.head? ≠ some ' ') :
    spM f t = none := by
  match t with
  | [] => rfl
  | c :: rest =>
    have : c ≠ ' ' := by simpa using h
    simp [spM, this]

theorem toM_none {f : Bool} {t : List Char}
    (h : ∀ c ∈ t, c.isUpper = false) : toM f t = none := by
  unfold toM
  split
  · rename_i a b u
    have hb : b.isUpper = false := by
      apply h
      simp
    simp [hb]
  · rfl

theorem spaceM_none {f : Bool} {t : List Char}
    (h : ∀ c ∈ t, c.isUpper = false) : spaceM f t = none := by
  unfold spaceM
  split
  · rename_i a b u
    have hb : b.isUpper = false := by
      apply h
      simp
    simp [hb]
  · rfl

theorem acro3M_none {f : Bool} {t : List Char}
    (h : ∀ c ∈ t, c.isUpper = false) : acro3M f t = none := by
  match t with
  | [] => rfl
  | a :: rest =>
    have ha : a.isUpper = false := h a (List.mem_cons_self a rest)
    simp [acro3M, ha]

theorem acro2M_none {f : Bool} {t : List Char}
    (h : ∀ c ∈ t, c.isUpper = false) : acro2M f t = none := by
  match t with
  | [] => rfl
  | a :: rest =>
    have ha : a.isUpper = false := h a (List.mem_cons_self a rest)
    simp [acro2M, ha]

theorem hruleM_anch : Anchored hruleM := fun s => by simp [hruleM]

theorem numNNM_anch : Anchored numNNM := fun s => by simp [numNNM]

theorem numDotM_anch : Anchored numDotM := fun s => by simp [numDotM]

theorem dotNumM_anch : Anchored dotNumM := fun s => by simp [dotNumM]

theorem bulletM_anch : Anchored bulletM := fun s => by simp [bulletM]

theorem secNNM_anch : Anchored secNNM := fun s => by simp [secNNM]

theorem secNM_anch : Anchored secNM := fun s => by simp [secNM]

theorem chapterM_anch : Anchored chapterM := fun s => by simp [chapterM]

theorem hruleM_none {f : Bool} {s : List Char}
    (h : (s.drop (wsRun s)).head? ≠ some '-') : hruleM f s = none := by
  cases f with
  | false => exact hruleM_anch s
  | true =>
    have hd : (s.drop (wsRun s)).takeWhile (fun c => c == '-') = [] := by
      cases hh : s.drop (wsRun s) with
      | nil => rfl
      | cons c rest =>
        rw [hh] at h
        have : c ≠ '-' := by simpa using h
        simp [List.takeWhile_cons, this]
    simp [hruleM, hd]

theorem numNNM_none {f : Bool} {s : List Char}
    (h : ∀ c, (s.drop (wsRun s)).head? = some c → c.isDigit = false) :
    numNNM f s = none := by
  cases f with
  | false => exact numNNM_anch s
  | true =>
    have hd : (s.drop (wsRun s)).takeWhile Char.isDigit = [] := by
      cases hh : s.drop (wsRun s) with
      | nil => rfl
      | cons c rest =>
        have : c.isDigit = false := h c (by rw [hh]; rfl)
        simp [List.takeWhile_cons, this]
    simp [numNNM, digRun, hd]

theorem numDotM_none {f : Bool} {s : List Char}
    (h : ∀ c, (s.drop (wsRun s)).head? = some c → c.isDigit = false) :
    numDotM f s = none := by
  cases f with
  | false => exact numDotM_anch s
  | true =>
    have hd : (s.drop (wsRun s)).takeWhile Char.isDigit = [] := by
      cases hh : s.drop (wsRun s) with
      | nil => rfl
      | cons c rest =>
        have : c.isDigit = false := h c (by rw [hh]; rfl)
        simp [List.takeWhile_cons, this]
    simp [numDotM, digRun, hd]

theorem dotNumM_none {f : Bool} {s : List Char}
    (h : (s.drop (wsRun s)).head? ≠ some '.') : dotNumM f s = none := by
  cases f with
  | false => exact dotNumM_anch s
  | true =>
    unfold dotNumM
    simp only [Bool.not_true, Bool.false_eq_true, if_false]
    split
    · rename_i s1 heq
      rw [heq] at h
      simp at h
    · rfl

theorem bulletM_none {f : Bool} {s : List Char}
    (h : (s.drop (wsRun s)).head? ≠ some '-') : bulletM f s = none := by
  cases f with
  | false => exact bulletM_anch s
  | true =>
    unfold bulletM
    simp only [Bool.not_true, Bool.false_eq_true, if_false]
    split
    · rename_i s1 heq
      rw [heq] at h
      simp at h
    · rfl

theorem secNNM_none {f : Bool} {s : List Char}
    (h : (s.drop (wsRun s)).head? ≠ some '#') : secNNM f s = none := by
  cases f with
  | false => exact secNNM_anch s
  | true =>
    unfold secNNM
    simp only [Bool.not_true, Bool.false_eq_true, if_false]
    split
    · rename_i s1 heq
      rw [heq] at h
      simp at h
    · rfl

theorem secNM_none {f : Bool} {s : List Char}
    (h : (s.drop (wsRun s)).head? ≠ some '#') : secNM f s = none := by
  cases f with
  | false => exact secNM_anch s
  | true =>
    unfold secNM
    simp only [Bool.not_true, Bool.false_eq_true, if_false]
    split
    · rename_i s1 heq
      rw [heq] at h
      simp at h
    · rfl

theorem chapterM_none {f : Bool} {s : List Char}
    (h : (s.drop (wsRun s)).head? ≠ some 'C') : chapterM f s = none := by
  cases f with
  | false => exact chapterM_anch s
  | true =>
    have ht : ¬((s.drop (wsRun s)).take 7 = chapterWord) := by
      intro he
      cases hh : s.drop (wsRun s) with
      | nil => rw [hh] at he; exact absurd he (by decide)
      | cons c rest =>
        rw [hh] at he
        have hc : c = 'C' := by
          have := congrArg List.head? he
          simpa [chapterWord] using this
        rw [hh, hc] at h
        simp at h
    simp [chapterM, ht]

theorem suffix_append_cases {α : Type} {t x r : List α} (h : t <:+ x ++ r) :
    t <:+ r ∨ ∃ x2, x2 <:+ x ∧ t = x2 ++ r := by
  induction x with
  | nil => left; simpa using h
  | cons a x ih =>
    rw [List.cons_append] at h
    rcases List.suffix_cons_iff.mp h with h1 | h2
    · right
      exact ⟨a :: x, List.suffix_rfl, by simpa using h1⟩
    · rcases ih h2 with h3 | ⟨x2, hx2, ht⟩
      · exact Or.inl h3
      · exact Or.inr ⟨x2, hx2.trans (List.suffix_cons a x), ht⟩

/-! ### Clean prose lines: a class of already-clean inputs -/

/-- A clean prose line: lowercase words separated by single spaces,
no leading or trailing space. -/
def lineIsProse (x : List Char) : Bool :=
  x.all proseChar && noDoubleSpace x &&
  (match x.head? with | some c => !(c == ' ') | none => true) &&
  (match x.getLast? with | some c => !(c == ' ') | none => true)

theorem proseChar_lower {c : Char} (h : proseChar c = true) (hs : c ≠ ' ') :
    c.isLower = true := by
  have h2 : c.isLower = true ∨ c = ' ' := by
    simpa [proseChar, Bool.or_eq_true] using h
  rcases h2 with hl | rfl
  · exact hl
  · exact absurd rfl hs

theorem lineIsProse_facts {x : List Char} (h : lineIsProse x = true) :
    (∀ c ∈ x, proseChar c = true) ∧ noDoubleSpace x = true ∧
    (∀ c, x.head? = some c → c.isLower = true) ∧
    (∀ c, x.getLast? = some c → c.isLower = true) := by
  simp only [lineIsProse, Bool.and_eq_true, List.all_eq_true] at h
  obtain ⟨⟨⟨hall, hnd⟩, hh⟩, hl⟩ := h
  refine ⟨hall, hnd, ?_, ?_⟩
  · intro c hc
    rw [hc] at hh
    have hsp : c ≠ ' ' := by simpa using hh
    exact proseChar_lower (hall c (List.mem_of_mem_head? (by rw [hc]; rfl))) hsp
  · intro c hc
    rw [hc] at hl
    have hsp : c ≠ ' ' := by simpa using hl
    have hmem : c ∈ x := by
      have hrev := List.head?_reverse x
      rw [hc] at hrev
      exact List.mem_reverse.mp (List.mem_of_mem_head? (by rw [hrev]; rfl))
    exact proseChar_lower (hall c hmem) hsp

theorem prose_no_nl {x : List Char} (h : ∀ c ∈ x, proseChar c = true) :
    ∀ c ∈ x, c ≠ '\n' :=
  fun c hc => (proseChar_ne (h c hc)).2.2.2.2.2.2.1

theorem prose_not_upper {x : List Char} (h : ∀ c ∈ x, proseChar c = true) :
    ∀ c ∈ x, c.isUpper = false :=
  fun c hc => proseChar_not_upper (h c hc)

/-- All nine character-level substitutions of stage 1 leave a string
without their trigger characters unchanged. -/
theorem charSubs_prose_id {x : List Char}
    (h : ∀ c ∈ x, proseChar c = true) :
    reSub tagM (reSub blockRefM (reSub imgM (reSub wikiM (reSub linkM
      (reSub codeM (reSub italicM (reSub boldM (reSub hashWsM x))))))))
      = x := by
  have hhead : ∀ (t : List Char), t <:+ x → ∀ c, t.head? = some c →
      proseChar c = true := by
    intro t ht c hc
    exact h c (ht.subset (List.mem_of_mem_head? (by rw [hc]; rfl)))
  have h1 : reSub hashWsM x = x := by
    apply reSubFuel_id_of_none
    intro f t ht
    match t with
    | [] => rfl
    | c :: t2 =>
      exact hashWsM_none (by simpa using (proseChar_ne (hhead _ ht c rfl)).1)
  have h2 : reSub boldM x = x := by
    apply reSubFuel_id_of_none
    intro f t ht
    match t with
    | [] => rfl
    | c :: t2 =>
      exact boldM_none (by simpa using (proseChar_ne (hhead _ ht c rfl)).2.1)
  have h3 : reSub italicM x = x := by
    apply reSubFuel_id_of_none
    intro f t ht
    match t with
    | [] => rfl
    | c :: t2 =>
      exact italicM_none (by simpa using (proseChar_ne (hhead _ ht c rfl)).2.1)
  have h4 : reSub codeM x = x := by
    apply reSubFuel_id_of_none
    intro f t ht
    match t with
    | [] => rfl
    | c :: t2 =>
      exact codeM_none
        (by simpa using (proseChar_ne (hhead _ ht c rfl)).2.2.1)
  have h5 : reSub linkM x = x := by
    apply reSubFuel_id_of_none
    intro f t ht
    match t with
    | [] => rfl
    | c :: t2 =>
      exact linkM_none
        (by simpa using (proseChar_ne (hhead _ ht c rfl)).2.2.2.1)
  have h6 : reSub wikiM x = x := by
    apply reSubFuel_id_of_none
    intro f t ht
    match t with
    | [] => rfl
    | c :: t2 =>
      exact wikiM_none
        (by simpa using (proseChar_ne (hhead _ ht c rfl)).2.2.2.1)
  have h7 : reSub imgM x = x := by
    apply reSubFuel_id_of_none
    intro f t ht
    match t with
    | [] => rfl
    | c :: t2 =>
      exact imgM_none
        (by simpa using (proseChar_ne (hhead _ ht c rfl)).2.2.2.2.1)
  have h8 : reSub blockRefM x = x := by
    apply reSubFuel_id_of_none
    intro f t ht
    match t with
    | [] => rfl
    | c :: t2 =>
      exact blockRefM_none
        (by simpa using (proseChar_ne (hhead _ ht c rfl)).2.2.2.2.2.1)
  have h9 : reSub tagM x = x := by
    apply reSubFuel_id_of_none
    intro f t ht
    match t with
    | [] => rfl
    | c :: t2 =>
      exact tagM_none (by simpa using (proseChar_ne (hhead _ ht c rfl)).1)
  rw [h1, h2, h3, h4, h5, h6, h7, h8, h9]

theorem anchored_id {m : Bool → List Char → Option (Nat × List Char)}
    {x : List Char} (hanch : Anchored m) (hnl : ∀ c ∈ x, c ≠ '\n')
    (hnone : m true x = none) : reSub m x = x :=
  reSubFuel_true_id hanch hnl hnone x.length

theorem drop_wsRun_self {x : List Char}
    (hh : ∀ c, x.head? = some c → isPyWs c = false) :
    x.drop (wsRun x) = x := by
  match x with
  | [] => rfl
  | c :: rest =>
    have := hh c rfl
    simp [wsRun, List.takeWhile_cons, this]

/-- The eight line-anchored substitutions of stage 1 leave a
newline-free string headed by a lowercase letter unchanged. -/
theorem anchSubs_prose_id {x : List Char}
    (hp : ∀ c ∈ x, proseChar c = true)
    (hh : ∀ c, x.head? = some c → c.isLower = true) :
    reSub chapterM (reSub secNM (reSub secNNM (reSub bulletM
      (reSub dotNumM (reSub numDotM (reSub numNNM (reSub hruleM x)))))))
      = x := by
  have hnl : ∀ c ∈ x, c ≠ '\n' := prose_no_nl hp
  have hws : ∀ c, x.head? = some c → isPyWs c = false :=
    fun c hc => isLower_not_ws (hh c hc)
  have hdrop : x.drop (wsRun x) = x := drop_wsRun_self hws
  have e1 : reSub hruleM x = x := by
    apply anchored_id hruleM_anch hnl
    apply hruleM_none
    rw [hdrop]
    intro hcon
    have : ('-').isLower = true := hh _ hcon
    exact absurd this (by decide)
  have e2 : reSub numNNM x = x := by
    apply anchored_id numNNM_anch hnl
    apply numNNM_none
    rw [hdrop]
    intro c hc
    exact isLower_not_digit (hh c hc)
  have e3 : reSub numDotM x = x := by
    apply anchored_id numDotM_anch hnl
    apply numDotM_none
    rw [hdrop]
    intro c hc
    exact isLower_not_digit (hh c hc)
  have e4 : reSub dotNumM x = x := by
    apply anchored_id dotNumM_anch hnl
    apply dotNumM_none
    rw [hdrop]
    intro hcon
    have : ('.').isLower = true := hh _ hcon
    exact absurd this (by decide)
  have e5 : reSub bulletM x = x := by
    apply anchored_id bulletM_anch hnl
    apply bulletM_none
    rw [hdrop]
    intro hcon
    have : ('-').isLower = true := hh _ hcon
    exact absurd this (by decide)
  have e6 : reSub secNNM x = x := by
    apply anchored_id secNNM_anch hnl
    apply secNNM_none
    rw [hdrop]
    intro hcon
    have : ('#').isLower = true := hh _ hcon
    exact absurd this (by decide)
  have e7 : reSub secNM x = x := by
    apply anchored_id secNM_anch hnl
    apply secNM_none
    rw [hdrop]
    intro hcon
    have : ('#').isLower = true := hh _ hcon
    exact absurd this (by decide)
  have e8 : reSub chapterM x = x := by
    apply anchored_id chapterM_anch hnl
    apply chapterM_none
    rw [hdrop]
    intro hcon
    have : ('C').isLower = true := hh _ hcon
    exact absurd this (by decide)
  rw [e1, e2, e3, e4, e5, e6, e7, e8]

theorem stage1_prose_id {x : List Char}
    (hp : ∀ c ∈ x, proseChar c = true)
    (hh : ∀ c, x.head? = some c → c.isLower = true) :
    stage1 x = x := by
  show reSub chapterM (reSub secNM (reSub secNNM (reSub bulletM
    (reSub dotNumM (reSub numDotM (reSub numNNM (reSub hruleM
      (reSub tagM (reSub blockRefM (reSub imgM (reSub wikiM (reSub linkM
        (reSub codeM (reSub italicM (reSub boldM
          (reSub hashWsM x)))))))))))))))) = x
  rw [charSubs_prose_id hp]
  exact anchSubs_prose_id hp hh

theorem camelFix_id {l : List Char} (h : ∀ c ∈ l, c.isUpper = false) :
    camelFix l = l := by
  induction l with
  | nil => rfl
  | cons a tail ih =>
    match tail with
    | [] => rfl
    | [b] => rfl
    | b :: c :: rest =>
      have hb : b.isUpper = false := h b (by simp)
      have hneg : ¬(a.isAlpha = true ∧ b.isUpper = true ∧ c.isLower = true) := by
        simp [hb]
      have heq : camelFix (a :: b :: c :: rest) =
          if a.isAlpha = true ∧ b.isUpper = true ∧ c.isLower = true then
            a :: ' ' :: camelFix (b :: c :: rest)
          else a :: camelFix (b :: c :: rest) := rfl
      rw [heq, if_neg hneg, ih (fun d hd => h d (List.mem_cons_of_mem a hd))]

theorem toFix_id {l : List Char} (h : ∀ c ∈ l, c.isUpper = false) :
    toFix l = l := by
  apply reSubFuel_id_of_none
  intro f t ht
  exact toM_none (fun c hc => h c (ht.subset hc))

theorem spaceFix_id {l : List Char} (h : ∀ c ∈ l, c.isUpper = false) :
    spaceFix l = l := by
  apply reSubFuel_id_of_none
  intro f t ht
  exact spaceM_none (fun c hc => h c (ht.subset hc))

theorem acro3_id {l : List Char} (h : ∀ c ∈ l, c.isUpper = false) :
    reSub acro3M l = l := by
  apply reSubFuel_id_of_none
  intro f t ht
  exact acro3M_none (fun c hc => h c (ht.subset hc))

theorem acro2_id {l : List Char} (h : ∀ c ∈ l, c.isUpper = false) :
    reSub acro2M l = l := by
  apply reSubFuel_id_of_none
  intro f t ht
  exact acro2M_none (fun c hc => h c (ht.subset hc))

theorem stripNumNN_id {x : List Char}
    (h : ∀ c, (x.drop (wsRun x)).head? = some c → c.isDigit = false) :
    stripNumNN x = x := by
  have hd : (x.drop (wsRun x)).takeWhile Char.isDigit = [] := by
    cases hh : x.drop (wsRun x) with
    | nil => rfl
    | cons c rest =>
      have : c.isDigit = false := h c (by rw [hh]; rfl)
      simp [List.takeWhile_cons, this]
  simp [stripNumNN, digRun, hd]

theorem stripNumDot_id {x : List Char}
    (h : ∀ c, (x.drop (wsRun x)).head? = some c → c.isDigit = false) :
    stripNumDot x = x := by
  have hd : (x.drop (wsRun x)).takeWhile Char.isDigit = [] := by
    cases hh : x.drop (wsRun x) with
    | nil => rfl
    | cons c rest =>
      have : c.isDigit = false := h c (by rw [hh]; rfl)
      simp [List.takeWhile_cons, this]
  simp [stripNumDot, digRun, hd]

theorem stripDotNum_id {x : List Char}
    (h : (x.drop (wsRun x)).head? ≠ some '.') : stripDotNum x = x := by
  unfold stripDotNum
  dsimp only
  split
  · rename_i s1 heq
    rw [heq] at h
    simp at h
  · rfl

theorem stripBullet_id {x : List Char}
    (h : (x.drop (wsRun x)).head? ≠ some '-') : stripBullet x = x := by
  unfold stripBullet
  dsimp only
  split
  · rename_i s1 heq
    rw [heq] at h
    simp at h
  · rfl

theorem fixLine_prose_id {x : List Char}
    (hp : ∀ c ∈ x, proseChar c = true)
    (hh : ∀ c, x.head? = some c → c.isLower = true) :
    fixLine x = x := by
  have hup : ∀ c ∈ x, c.isUpper = false := prose_not_upper hp
  have hws : ∀ c, x.head? = some c → isPyWs c = false :=
    fun c hc => isLower_not_ws (hh c hc)
  have hdrop : x.drop (wsRun x) = x := drop_wsRun_self hws
  unfold fixLine
  rw [camelFix_id hup, toFix_id hup, spaceFix_id hup, acro3_id hup,
    acro2_id hup]
  rw [stripNumNN_id (by rw [hdrop]; intro c hc; exact isLower_not_digit (hh c hc))]
  rw [stripNumDot_id (by rw [hdrop]; intro c hc; exact isLower_not_digit (hh c hc))]
  rw [stripDotNum_id (by
    rw [hdrop]
    intro hcon
    have : ('.').isLower = true := hh _ hcon
    exact absurd this (by decide))]
  rw [stripBullet_id (by
    rw [hdrop]
    intro hcon
    have : ('-').isLower = true := hh _ hcon
    exact absurd this (by decide))]

theorem chapterLineMatch_prose {x : List Char}
    (hh : ∀ c, x.head? = some c → c.isLower = true) :
    chapterLineMatch x = none := by
  have ht : ¬(x.take 7 = chapterWord) := by
    intro he
    cases hx : x with
    | nil => rw [hx] at he; exact absurd he (by decide)
    | cons c rest =>
      rw [hx] at he
      have hc : c = 'C' := by
        have := congrArg List.head? he
        simpa [chapterWord] using this
      have : ('C').isLower = true := hh 'C' (by rw [hx, hc]; rfl)
      exact absurd this (by decide)
  simp [chapterLineMatch, ht]

theorem isHeaderLine_prose {x : List Char}
    (hh : ∀ c, x.head? = some c → c.isLower = true) :
    isHeaderLine x = false := by
  have : titleWord x = none := by
    cases hx : x with
    | nil => rfl
    | cons c rest =>
      have hc : c.isUpper = false :=
        isLower_not_upper (hh c (by rw [hx]; rfl))
      simp [titleWord, hc]
  simp [isHeaderLine, this]

theorem prose_ne_km {x : List Char} (hp : ∀ c ∈ x, proseChar c = true) :
    x ≠ kmWord := by
  intro he
  have : proseChar 'K' = true := by
    apply hp
    rw [he]
    decide
  exact absurd this (by decide)

theorem splitNl_single {x : List Char} (h : ∀ c ∈ x, c ≠ '\n') :
    splitNl x = [x] := by
  induction x with
  | nil => rfl
  | cons c rest ih =>
    have hc : c ≠ '\n' := h c (List.mem_cons_self c rest)
    have := ih (fun d hd => h d (List.mem_cons_of_mem c hd))
    simp [splitNl, hc, this]

theorem splitNl_append {x : List Char} (h : ∀ c ∈ x, c ≠ '\n')
    (r : List Char) : splitNl (x ++ '\n' :: r) = x :: splitNl r := by
  induction x with
  | nil => simp [splitNl]
  | cons c rest ih =>
    have hc : c ≠ '\n' := h c (List.mem_cons_self c rest)
    have hr := ih (fun d hd => h d (List.mem_cons_of_mem c hd))
    rw [List.cons_append]
    have heq : splitNl (c :: (rest ++ '\n' :: r)) =
        if c = '\n' then [] :: splitNl (rest ++ '\n' :: r)
        else
          match splitNl (rest ++ '\n' :: r) with
          | l :: ls => (c :: l) :: ls
          | [] => [[c]] := rfl
    rw [heq, if_neg hc, hr]

theorem dropWhile_id {p : Char → Bool} {l : List Char}
    (h : ∀ c, l.head? = some c → p c = false) : l.dropWhile p = l := by
  cases l with
  | nil => rfl
  | cons c rest =>
    have := h c rfl
    simp [List.dropWhile_cons, this]

theorem pystrip_id {x : List Char}
    (hh : ∀ c, x.head? = some c → isPyWs c = false)
    (hl : ∀ c, x.getLast? = some c → isPyWs c = false) : pystrip x = x := by
  unfold pystrip
  rw [dropWhile_id hh]
  rw [dropWhile_id (by
    intro c hc
    rw [List.head?_reverse] at hc
    exact hl c hc)]
  exact List.reverse_reverse x

theorem collapseSp_fuel_id :
    ∀ (fuel : Nat) (f : Bool) (s : List Char), noDoubleSpace s = true →
      reSubFuel spM fuel f s = s := by
  intro fuel
  induction fuel with
  | zero => intro f s _; rfl
  | succ fuel ih =>
    intro f s hnd
    match s with
    | [] => exact reSubFuel_nil _ _ _
    | c :: rest =>
      by_cases hc : c = ' '
      · subst hc
        have hrh : rest.takeWhile (fun x => x == ' ') = [] := by
          cases hr : rest with
          | nil => rfl
          | cons d rest2 =>
            have hd : d ≠ ' ' := by
              intro hde
              subst hde
              rw [hr] at hnd
              simp [noDoubleSpace, goodPairs] at hnd
            simp [List.takeWhile_cons, hd]
        have hm : spM f (' ' :: rest) = some (1, [' ']) := by
          simp [spM, List.takeWhile_cons, hrh]
        rw [reSubFuel_cons_some fuel hm (by decide)]
        have hrw : List.drop 1 (' ' :: rest) = rest := rfl
        have hflag : (((' ' :: rest).getD (1 - 1) ' ') == '\n') = false := rfl
        rw [hrw, hflag, ih false rest (goodPairs_tail hnd)]
        rfl
      · have hm : spM f (c :: rest) = none := spM_none (by simpa using hc)
        rw [reSubFuel_cons_none fuel hm,
          ih (c == '\n') rest (goodPairs_tail hnd)]

theorem collapseSp_id {s : List Char} (h : noDoubleSpace s = true) :
    collapseSp s = s :=
  collapseSp_fuel_id s.length true s h

theorem collapseNl_id_of_no_nl {s : List Char} (h : ∀ c ∈ s, c ≠ '\n') :
    collapseNl s = s := by
  apply reSubFuel_id_of_none
  intro f t ht
  match t with
  | [] => rfl
  | c :: t2 =>
    exact nl3M_none
      (by simpa using h c (ht.subset (List.mem_cons_self c t2)))

theorem intercalate_single (sep x : List Char) :
    List.intercalate sep [x] = x := by
  simp [List.intercalate]

theorem intercalate_pair (sep x y : List Char) :
    List.intercalate sep [x, y] = x ++ sep ++ y := by
  simp [List.intercalate, List.intersperse]

theorem isEmpty_false_of_ne {x : List Char} (h : x ≠ []) :
    x.isEmpty = false := by
  cases x with
  | nil => exact absurd rfl h
  | cons c rest => rfl


/-- Stage 2 on a single clean prose line emits that line as the only
paragraph. -/
theorem processLines_single_prose {x : List Char} (hx : x ≠ [])
    (hstrip : pystrip x = x) (hfix : fixLine x = x)
    (hch : chapterLineMatch x = none) (hhd : isHeaderLine x = false)
    (hkm : x ≠ kmWord) : processLines [] [] [x] = [x] := by
  unfold processLines
  rw [hstrip]
  simp only [isEmpty_false_of_ne hx, Bool.false_eq_true, if_false, hfix,
    hch, hhd, if_neg hkm]
  unfold processLines
  simp only [List.nil_append, List.isEmpty_cons, Bool.false_eq_true, if_false]
  rw [joinSp, intercalate_single]

theorem joinBlocks_single {x : List Char} (hx : x ≠ [])
    (hstrip : pystrip x = x) : joinBlocks [x] = x := by
  unfold joinBlocks
  rw [List.filter_cons]
  rw [hstrip]
  simp only [isEmpty_false_of_ne hx, Bool.not_false, if_true,
    List.filter_nil]
  exact intercalate_single _ _

/-- The Normalizer is the identity on a clean prose line: lowercase
words separated by single spaces with no surrounding whitespace. -/
theorem cleanList_prose_id {x : List Char} (h : lineIsProse x = true) :
    cleanList x = x := by
  obtain ⟨hp, hnd, hh, hl⟩ := lineIsProse_facts h
  by_cases hx0 : x = []
  · subst hx0; rfl
  · have hnl : ∀ c ∈ x, c ≠ '\n' := prose_no_nl hp
    have hwsh : ∀ c, x.head? = some c → isPyWs c = false :=
      fun c hc => isLower_not_ws (hh c hc)
    have hwsl : ∀ c, x.getLast? = some c → isPyWs c = false :=
      fun c hc => isLower_not_ws (hl c hc)
    have hstrip : pystrip x = x := pystrip_id hwsh hwsl
    unfold cleanList
    rw [stage1_prose_id hp hh, splitNl_single hnl,
      processLines_single_prose hx0 hstrip (fixLine_prose_id hp hh)
        (chapterLineMatch_prose hh) (isHeaderLine_prose hh)
        (prose_ne_km hp),
      joinBlocks_single hx0 hstrip, collapseNl_id_of_no_nl hnl,
      collapseSp_id hnd, hstrip]

/-! ### The heading-marker substitution never leaves `#` before
whitespace -/

/-- The pair property violated by a `#` directly followed by
whitespace. -/
def hashOkPair (a b : Char) : Bool := !(a == '#' && isPyWs b)

theorem wsRun_zero_head {rest : List Char} {d : Char} (h : wsRun rest = 0)
    (hd : rest.head? = some d) : isPyWs d = false := by
  match rest with
  | [] => simp at hd
  | c :: r2 =>
    have hc : c = d := by simpa using hd
    subst hc
    by_cases hw : isPyWs c = true
    · rw [wsRun, List.takeWhile_cons, if_pos hw] at h
      simp at h
    · simpa using hw

theorem drop_wsRun_head_not_ws :
    ∀ (rest : List Char) (d : Char),
      (rest.drop (wsRun rest)).head? = some d → isPyWs d = false := by
  intro rest
  induction rest with
  | nil => intro d hd; simp at hd
  | cons c r2 ih =>
    intro d hd
    by_cases hw : isPyWs c = true
    · rw [wsRun, List.takeWhile_cons, if_pos hw] at hd
      simp only [List.length_cons, List.drop_succ_cons] at hd
      exact ih d hd
    · have hw2 : isPyWs c = false := by simpa using hw
      rw [wsRun, List.takeWhile_cons, if_neg (by simp [hw2])] at hd
      simp only [List.length_nil, List.drop_zero] at hd
      have : c = d := by simpa using hd
      subst this
      exact hw2

theorem hashWs_head_not_ws :
    ∀ (fuel : Nat) (f : Bool) (s : List Char),
      (∀ c, s.head? = some c → isPyWs c = false) →
      ∀ c, (reSubFuel hashWsM fuel f s).head? = some c → isPyWs c = false := by
  intro fuel
  induction fuel with
  | zero => intro f s h c hc; exact h c hc
  | succ fuel ih =>
    intro f s h c hc
    match s with
    | [] => rw [reSubFuel_nil] at hc; simp at hc
    | a :: rest =>
      by_cases ha : a = '#'
      · by_cases hk : wsRun rest = 0
        · have hm : hashWsM f (a :: rest) = none := by
            simp [hashWsM, ha, hk]
          rw [reSubFuel_cons_none fuel hm] at hc
          have : a = c := by simpa using hc
          subst this
          exact h a rfl
        · have hm : hashWsM f (a :: rest) = some (1 + wsRun rest, []) := by
            simp [hashWsM, ha, hk]
          rw [reSubFuel_cons_some fuel hm (by omega)] at hc
          rw [List.nil_append] at hc
          have hdrop : List.drop (1 + wsRun rest) (a :: rest) =
              rest.drop (wsRun rest) := by
            rw [Nat.add_comm 1 (wsRun rest)]
            simp [List.drop_succ_cons]
          rw [hdrop] at hc
          exact ih _ _ (fun d hd => drop_wsRun_head_not_ws rest d hd) c hc
      · have hm : hashWsM f (a :: rest) = none := by
          simp [hashWsM, ha]
        rw [reSubFuel_cons_none fuel hm] at hc
        have : a = c := by simpa using hc
        subst this
        exact h a rfl

theorem hashWs_goodPairs :
    ∀ (fuel : Nat) (f : Bool) (s : List Char), s.length ≤ fuel →
      goodPairs hashOkPair (reSubFuel hashWsM fuel f s) = true := by
  intro fuel
  induction fuel with
  | zero =>
    intro f s h
    have : s = [] := List.eq_nil_of_length_eq_zero (Nat.le_zero.mp h)
    subst this
    rfl
  | succ fuel ih =>
    intro f s hlen
    match s with
    | [] => rw [reSubFuel_nil]; rfl
    | a :: rest =>
      have hrest : rest.length ≤ fuel := by
        simpa using Nat.le_of_succ_le_succ hlen
      by_cases ha : a = '#'
      · by_cases hk : wsRun rest = 0
        · have hm : hashWsM f (a :: rest) = none := by
            simp [hashWsM, ha, hk]
          rw [reSubFuel_cons_none fuel hm]
          apply goodPairs_cons (ih _ rest hrest)
          intro b hb
          have hrh : ∀ d, rest.head? = some d → isPyWs d = false :=
            fun d hd => wsRun_zero_head hk hd
          have hbw : isPyWs b = false :=
            hashWs_head_not_ws fuel (a == '\n') rest hrh b hb
          simp [hashOkPair, hbw]
        · have hm : hashWsM f (a :: rest) = some (1 + wsRun rest, []) := by
            simp [hashWsM, ha, hk]
          rw [reSubFuel_cons_some fuel hm (by omega)]
          rw [List.nil_append]
          apply ih
          simp only [List.length_drop, List.length_cons]
          omega
      · have hm : hashWsM f (a :: rest) = none := by
          simp [hashWsM, ha]
        rw [reSubFuel_cons_none fuel hm]
        apply goodPairs_cons (ih _ rest hrest)
        intro b _
        simp [hashOkPair, ha]

theorem takeWhile_all {p : Char → Bool} {w : List Char}
    (h : ∀ c ∈ w, p c = true) : w.takeWhile p = w := by
  induction w with
  | nil => rfl
  | cons c rest ih =>
    rw [List.takeWhile_cons, if_pos (h c (List.mem_cons_self c rest)),
      ih (fun d hd => h d (List.mem_cons_of_mem c hd))]

/-- The tag substitution deletes `#` together with the whole following
alphanumeric/hyphen token. -/
theorem tag_sub_removes_token {w : List Char} (hne : w ≠ [])
    (hw : ∀ c ∈ w, isTagChar c = true) : reSub tagM ('#' :: w) = [] := by
  have ht : w.takeWhile isTagChar = w := takeWhile_all hw
  have hm : tagM true ('#' :: w) = some (1 + w.length, []) := by
    simp [tagM, ht, isEmpty_false_of_ne hne]
  show reSubFuel tagM ('#' :: w).length true ('#' :: w) = []
  rw [show ('#' :: w).length = w.length + 1 from rfl,
    reSubFuel_cons_some w.length hm (by omega)]
  have hdrop : List.drop (1 + w.length) ('#' :: w) = [] := by
    rw [Nat.add_comm 1 w.length]
    simp [List.drop_succ_cons]
  rw [hdrop, reSubFuel_nil, List.nil_append]

/-! ### Claims C1, C2, C3, C6, C7, C9 -/

/-- C1: the claim says `clean_markdown_text "![[image.png]]" = ""`.  In
the code the wiki-link substitution (line 17) fires on the inner
`[[image.png]]` before the image-link substitution (line 18) can see
it, so the function returns `"!image.png"` instead: the image-link
removal of line 18 is dead code and embedded images are not removed.
This theorem evaluates the embedded function at the claim's input. -/
theorem c1_image_link_not_removed :
    clean_markdown_text "![[image.png]]" = "!image.png" := by decide

/-- C2 (counterexample): `clean_markdown_text` is not idempotent.  For
the input `"- 1.2"`, stage 1 first runs the standalone-number
substitutions (which do not match because of the leading bullet) and
only then strips the bullet, so one pass returns `"1.2"`; a second pass
then deletes `"1.2"` as a standalone section number, returning `""`. -/
theorem c2_not_idempotent :
    clean_markdown_text (clean_markdown_text "- 1.2") ≠
      clean_markdown_text "- 1.2" := by decide

/-- C2 (amended): the Normalizer is idempotent on clean prose output
consisting of lowercase words separated by single spaces (no remaining
Markdown syntax); on such text it acts as the identity, so a second
application changes nothing. -/
theorem c2_idempotent_on_clean_prose (s : String)
    (h : lineIsProse s.data = true) :
    clean_markdown_text (clean_markdown_text s) = clean_markdown_text s := by
  have hid : clean_markdown_text s = s := by
    show String.mk (cleanList s.data) = s
    rw [cleanList_prose_id h]
  rw [hid]
  exact hid

theorem c2_idempotent_witness :
    lineIsProse "hello world".data = true ∧
      clean_markdown_text (clean_markdown_text "hello world") =
        clean_markdown_text "hello world" :=
  ⟨by decide, c2_idempotent_on_clean_prose "hello world" (by decide)⟩

/-- C3 (counterexample): a `#` that is neither a leading heading marker
nor an inline-tag marker is not always preserved: in `"a # b"` the `#`
sits mid-line before a space, and the stage-1 substitution
`re.sub(r'#\s+', '', text)` deletes it (with the following
whitespace), giving `"a b"`. -/
theorem c3_hash_mid_text_removed :
    clean_markdown_text "a # b" = "a b" ∧
      ('#' ∈ (clean_markdown_text "a # b").data → False) := by
  constructor
  · decide
  · decide

/-- C3 (amended): the first stage-1 substitution removes every `#`
followed by whitespace, wherever it occurs — not only leading heading
markers.  Its output never contains a `#` directly followed by a
whitespace character, while a `#` followed by anything else (for
example `"a #! b"`) survives it and the rest of the pipeline. -/
theorem c3_hash_stripped_iff_before_ws :
    (∀ s : List Char,
      goodPairs hashOkPair (reSub hashWsM s) = true) ∧
    clean_markdown_text "a #! b" = "a #! b" := by
  constructor
  · intro s
    exact hashWs_goodPairs s.length true s (Nat.le_refl _)
  · decide

/-- C6: `"# Hello World"`: stage 1 strips the `"# "` marker, and stage
2 recognises `"Hello World"` as a Title-Case section header, emitting
it as a standalone block with no trailing paragraph text. -/
theorem c6_hello_world_header :
    clean_markdown_text "# Hello World" = "Hello World" := by decide

/-- C7: `clean_markdown_text` is total — in this embedding it is a
total function on strings, so every input evaluates to a result — and
the empty input produces the empty output. -/
theorem c7_total_empty :
    clean_markdown_text "" = "" ∧
      ∀ s : String, ∃ t : String, clean_markdown_text s = t :=
  ⟨by decide, fun s => ⟨clean_markdown_text s, rfl⟩⟩

/-- C9: a `#` immediately followed by an alphanumeric/hyphen token with
no whitespace is treated as a tag by line 20 and the whole token is
deleted, so `"#Title"` cleans to `""` — the heading text is lost.  The
general statement shows the tag substitution deletes `#` together with
the entire token. -/
theorem c9_tag_removes_whole_token :
    clean_markdown_text "#Title" = "" ∧
      ∀ w : List Char, w ≠ [] → (∀ c ∈ w, isTagChar c = true) →
        reSub tagM ('#' :: w) = [] :=
  ⟨by decide, fun w hne hw => tag_sub_removes_token hne hw⟩

theorem c9_tag_witness :
    "Title".data ≠ [] ∧ (∀ c ∈ "Title".data, isTagChar c = true) ∧
      reSub tagM ('#' :: "Title".data) = [] := by
  refine ⟨by decide, by decide, ?_⟩
  exact c9_tag_removes_whole_token.2 "Title".data (by decide) (by decide)

/-! ### Directory conversion (source lines 148-176) -/

/-- A file discovered under the input root: directory components of its
relative path, its file name, and its content. -/
structure SrcFile where
  dir : List String
  name : String
  content : String
deriving DecidableEq

/-- Position (from the end) of the last `'.'`, applied to a reversed
name: `Path.suffix` is the part after the last dot. -/
def afterLastDot : List Char → Option Nat
  | [] => none
  | c :: rest =>
    if c = '.' then some 0 else (afterLastDot rest).map (fun n => n + 1)

/-- Length of `Path(name).suffix`: the final `'.'`-segment, empty when
the only dot is leading (hidden file) or trailing. -/
def pathSuffixLen (n : List Char) : Nat :=
  match afterLastDot n.reverse with
  | some d => if 1 ≤ d ∧ d + 1 < n.length then d + 1 else 0
  | none => 0

/-- `Path(name).with_suffix('.txt')`. -/
def withSuffixTxt (n : List Char) : List Char :=
  n.take (n.length - pathSuffixLen n) ++ ['.', 't', 'x', 't']

/-- Whether `glob('**/*.md')` discovers this file name. -/
def isMdName (n : List Char) : Bool := n.reverse.take 3 == ['d', 'm', '.']

/-- `convert_directory` (lines 148-176): for every discovered `*.md`
file, mirror its relative directory, replace the extension with
`.txt`, and write the cleaned content.  Directory walking, directory
creation and file I/O are modelled by the association of relative
paths to contents. -/
def convert_directory (files : List SrcFile) : List SrcFile :=
  (files.filter (fun f => isMdName f.name.data)).map
    (fun f =>
      { dir := f.dir, name := String.mk (withSuffixTxt f.name.data),
        content := clean_markdown_text f.content })

theorem data_append_md (b : String) :
    (b ++ ".md").data = b.data ++ ['.', 'm', 'd'] := by
  obtain ⟨bl⟩ := b
  rfl

theorem withSuffixTxt_md {b : List Char} (hb : b ≠ []) :
    withSuffixTxt (b ++ ['.', 'm', 'd']) = b ++ ['.', 't', 'x', 't'] := by
  have hlen : 0 < b.length := List.length_pos.mpr hb
  have ha : afterLastDot ((b ++ ['.', 'm', 'd']).reverse) = some 2 := by
    rw [List.reverse_append]
    show afterLastDot (['d', 'm', '.'] ++ b.reverse) = some 2
    simp [afterLastDot]
  have hp : pathSuffixLen (b ++ ['.', 'm', 'd']) = 3 := by
    unfold pathSuffixLen
    rw [ha]
    show (if 1 ≤ 2 ∧ 2 + 1 < (b ++ ['.', 'm', 'd']).length then 2 + 1
      else 0) = 3
    rw [if_pos]
    constructor
    · omega
    · simp only [List.length_append, List.length_cons, List.length_nil]
      omega
  unfold withSuffixTxt
  rw [hp]
  simp only [List.length_append, List.length_cons, List.length_nil]
  have h3 : b.length + (0 + 1 + 1 + 1) - 3 = b.length := by omega
  rw [h3, List.take_left]

/-- C8: for every Markdown file at relative path `a/b.md` under the
input root, `convert_directory` produces the file at `a/b.txt` under
the output root whose content is `clean_markdown_text` of the input
content. -/
theorem c8_convert_directory (files : List SrcFile) (d : List String)
    (b c : String) (hb : b.data ≠ [])
    (hmem : SrcFile.mk d (b ++ ".md") c ∈ files) :
    SrcFile.mk d (b ++ ".txt") (clean_markdown_text c) ∈
      convert_directory files := by
  have hmd : isMdName (b ++ ".md").data = true := by
    rw [data_append_md, isMdName, List.reverse_append]
    show ((['d', 'm', '.'] ++ b.data.reverse).take 3 == ['d', 'm', '.']) = true
    rw [show (3 : Nat) = (['d', 'm', '.'] : List Char).length from rfl,
      List.take_left]
    simp
  have hsuf : String.mk (withSuffixTxt (b ++ ".md").data) = b ++ ".txt" := by
    rw [data_append_md, withSuffixTxt_md hb]
    obtain ⟨bl⟩ := b
    rfl
  unfold convert_directory
  apply List.mem_map.mpr
  refine ⟨SrcFile.mk d (b ++ ".md") c, ?_, ?_⟩
  · exact List.mem_filter.mpr ⟨hmem, hmd⟩
  · simp only [hsuf]

theorem c8_convert_witness :
    ("note" : String).data ≠ [] ∧
      SrcFile.mk ["a"] ("note" ++ ".md") "x" ∈
        [SrcFile.mk ["a"] ("note" ++ ".md") "x"] ∧
      SrcFile.mk ["a"] ("note" ++ ".txt") (clean_markdown_text "x") ∈
        convert_directory [SrcFile.mk ["a"] ("note" ++ ".md") "x"] := by
  refine ⟨by decide, by simp, ?_⟩
  exact c8_convert_directory _ ["a"] "note" "x" (by decide) (by simp)

/-! ### C4: shape of the final output -/

theorem reSubFuel_nl3M_head :
    ∀ (fuel : Nat) (f : Bool) (s : List Char), s.head? ≠ some '\n' →
      (reSubFuel nl3M fuel f s).head? = s.head? := by
  intro fuel f s h
  match fuel, s with
  | 0, s => rfl
  | fuel + 1, [] => rw [reSubFuel_nil]
  | fuel + 1, c :: rest =>
    have hc : c ≠ '\n' := by simpa using h
    rw [reSubFuel_cons_none fuel (nl3M_none (by simpa using hc))]
    rfl

theorem reSubFuel_spM_head :
    ∀ (fuel : Nat) (f : Bool) (s : List Char),
      (reSubFuel spM fuel f s).head? = s.head? := by
  intro fuel f s
  match fuel, s with
  | 0, s => rfl
  | fuel + 1, [] => rw [reSubFuel_nil]
  | fuel + 1, c :: rest =>
    by_cases hc : c = ' '
    · subst hc
      have hm : spM f (' ' :: rest) =
          some (((' ' :: rest).takeWhile (fun x => x == ' ')).length, [' ']) := by
        simp [spM]
      have hk : ((' ' :: rest).takeWhile (fun x => x == ' ')).length ≠ 0 := by
        simp [List.takeWhile_cons]
      rw [reSubFuel_cons_some fuel hm hk]
      rfl
    · rw [reSubFuel_cons_none fuel (spM_none (by simpa using hc))]
      rfl


theorem goodTriples_cons_of_fst {p : Char → Char → Char → Bool} {a : Char}
    {t : List Char} (ha : ∀ b c, p a b c = true)
    (ht : goodTriples p t = true) : goodTriples p (a :: t) = true :=
  goodTriples_cons ht (fun b c _ _ => ha b c)

theorem nlTriple_of_fst_ne {a b c : Char} (ha : a ≠ '\n') :
    (!(a == '\n' && b == '\n' && c == '\n')) = true := by
  simp [ha]

theorem nlTriple_of_thd_ne {a b c : Char} (hc : c ≠ '\n') :
    (!(a == '\n' && b == '\n' && c == '\n')) = true := by
  simp [hc]

theorem nlTriple_of_snd_ne {a b c : Char} (hb : b ≠ '\n') :
    (!(a == '\n' && b == '\n' && c == '\n')) = true := by
  simp [hb]

theorem drop_takeWhile_head {p : Char → Bool} (s : List Char) :
    ∀ c, (List.drop ((s.takeWhile p).length) s).head? = some c →
      p c = false := by
  have hdw : List.drop ((s.takeWhile p).length) s = s.dropWhile p := by
    have h1 := @List.takeWhile_append_dropWhile _ p s
    have h2 := List.drop_left (s.takeWhile p) (s.dropWhile p)
    rw [h1] at h2
    exact h2
  intro c hc
  rw [hdw] at hc
  have := List.head?_dropWhile_not p s
  rw [hc] at this
  exact this

theorem nl3M_short {f : Bool} {rest : List Char}
    (h : ((('\n' :: rest).takeWhile (fun x => x == '\n')).length) < 3) :
    nl3M f ('\n' :: rest) = none := by
  have h2 : ¬((('\n' :: rest).takeWhile (fun x => x == '\n')).length ≥ 3) := by
    omega
  unfold nl3M
  dsimp only
  rw [if_pos rfl, if_neg h2]

theorem nl3M_long {f : Bool} {rest : List Char}
    (h : ((('\n' :: rest).takeWhile (fun x => x == '\n')).length) ≥ 3) :
    nl3M f ('\n' :: rest) =
      some (((('\n' :: rest).takeWhile (fun x => x == '\n')).length),
        ['\n', '\n']) := by
  unfold nl3M
  dsimp only
  rw [if_pos rfl, if_pos h]

theorem nlrun_cons {rest : List Char} :
    ((('\n' :: rest).takeWhile (fun x => x == '\n')).length) =
      1 + ((rest.takeWhile (fun x => x == '\n')).length) := by
  simp [List.takeWhile_cons, Nat.add_comm]

/-- The `\n{3,}` collapse never leaves three consecutive newlines. -/
theorem collapseNl_noTriple :
    ∀ (fuel : Nat) (f : Bool) (s : List Char), s.length ≤ fuel →
      noTripleNl (reSubFuel nl3M fuel f s) = true := by
  intro fuel
  induction fuel with
  | zero =>
    intro f s h
    have : s = [] := List.eq_nil_of_length_eq_zero (Nat.le_zero.mp h)
    subst this
    rfl
  | succ fuel ih =>
    intro f s hlen
    match s with
    | [] => rw [reSubFuel_nil]; rfl
    | c :: rest =>
      have hrl : rest.length ≤ fuel := by
        simpa using Nat.le_of_succ_le_succ hlen
      by_cases hc : c = '\n'
      swap
      · rw [reSubFuel_cons_none fuel (nl3M_none (by simpa using hc))]
        exact goodTriples_cons_of_fst (fun b c2 => nlTriple_of_fst_ne hc)
          (ih (c == '\n') rest hrl)
      subst hc
      by_cases h3 : ((('\n' :: rest).takeWhile (fun x => x == '\n')).length) ≥ 3
      · -- a run of three or more newlines is replaced by two
        rw [reSubFuel_cons_some fuel (nl3M_long h3) (by omega)]
        have hdh : ∀ d, (List.drop
            ((('\n' :: rest).takeWhile (fun x => x == '\n')).length)
            ('\n' :: rest)).head? = some d → d ≠ '\n' := by
          intro d hd hcon
          subst hcon
          have := @drop_takeWhile_head (fun x => x == '\n')
            ('\n' :: rest) '\n' hd
          simp at this
        have hrec : (reSubFuel nl3M fuel
            ((('\n' :: rest).getD
              ((('\n' :: rest).takeWhile (fun x => x == '\n')).length - 1)
              ' ') == '\n')
            (List.drop ((('\n' :: rest).takeWhile (fun x => x == '\n')).length)
              ('\n' :: rest))).head? =
            (List.drop ((('\n' :: rest).takeWhile (fun x => x == '\n')).length)
              ('\n' :: rest)).head? := by
          apply reSubFuel_nl3M_head
          intro hcon
          exact hdh '\n' hcon rfl
        have htail : goodTriples
            (fun x y z => !(x == '\n' && y == '\n' && z == '\n'))
            (reSubFuel nl3M fuel
              ((('\n' :: rest).getD
                ((('\n' :: rest).takeWhile (fun x => x == '\n')).length - 1)
                ' ') == '\n')
              (List.drop
                ((('\n' :: rest).takeWhile (fun x => x == '\n')).length)
                ('\n' :: rest))) = true := by
          apply ih
          simp only [List.length_drop, List.length_cons]
          omega
        simp only [List.cons_append, List.nil_append]
        apply goodTriples_cons
        · apply goodTriples_cons htail
          intro b c2 t2 hbc
          apply nlTriple_of_snd_ne
          intro hcon
          subst hcon
          apply hdh '\n' _ rfl
          rw [← hrec, hbc]
          rfl
        · intro b c2 t2 hbc
          injection hbc with h1 h2
          apply nlTriple_of_thd_ne
          intro hcon
          subst hcon
          apply hdh '\n' _ rfl
          rw [← hrec, h2]
          rfl
      · -- a run of at most two newlines is kept
        rw [reSubFuel_cons_none fuel (nl3M_short (by omega))]
        apply goodTriples_cons (ih (('\n' : Char) == '\n') rest hrl)
        intro b c2 t2 hbc
        by_cases hr : rest.head? = some '\n'
        swap
        · apply nlTriple_of_snd_ne
          have hh := reSubFuel_nl3M_head fuel (('\n' : Char) == '\n') rest hr
          rw [hbc] at hh
          intro hcon
          subst hcon
          exact hr hh.symm
        · obtain ⟨rest2, hrest⟩ : ∃ rest2, rest = '\n' :: rest2 := by
            cases rest with
            | nil => simp at hr
            | cons r0 rest2 =>
              have hr0 : r0 = '\n' := by simpa using hr
              exact ⟨rest2, by rw [hr0]⟩
          subst hrest
          have hr2 : rest2.head? ≠ some '\n' := by
            intro hcon
            apply h3
            obtain ⟨rest3, hrest3⟩ : ∃ rest3, rest2 = '\n' :: rest3 := by
              cases rest2 with
              | nil => simp at hcon
              | cons r0 rest3 =>
                have hr0 : r0 = '\n' := by simpa using hcon
                exact ⟨rest3, by rw [hr0]⟩
            subst hrest3
            simp [List.takeWhile_cons]
          have hrun2 : ((('\n' :: rest2).takeWhile
              (fun x => x == '\n')).length) < 3 := by
            rw [nlrun_cons]
            have h0 : (rest2.takeWhile (fun x => x == '\n')).length = 0 := by
              cases hx : rest2 with
              | nil => rfl
              | cons d r2 =>
                have hd : d ≠ '\n' := by
                  intro hdc
                  subst hdc
                  exact hr2 (by rw [hx]; rfl)
                rw [List.takeWhile_cons, if_neg (by simpa using hd)]
                rfl
            omega
          cases fuel with
          | zero => simp at hrl
          | succ fuel2 =>
            rw [reSubFuel_cons_none fuel2 (nl3M_short hrun2)] at hbc
            injection hbc with h1 h2
            apply nlTriple_of_thd_ne
            intro hcon
            subst hcon
            have hh := reSubFuel_nl3M_head fuel2
              (('\n' : Char) == '\n') rest2 hr2
            rw [h2] at hh
            exact hr2 hh.symm

theorem spM_run {f : Bool} {rest : List Char} :
    spM f (' ' :: rest) =
      some (((' ' :: rest).takeWhile (fun x => x == ' ')).length, [' ']) := by
  simp [spM]

theorem spM_run_pos {rest : List Char} :
    ((' ' :: rest).takeWhile (fun x => x == ' ')).length ≠ 0 := by
  simp [List.takeWhile_cons]

/-- The space collapse preserves the absence of triple newlines. -/
theorem collapseSp_preserves_noTriple :
    ∀ (fuel : Nat) (f : Bool) (s : List Char), s.length ≤ fuel →
      noTripleNl s = true → noTripleNl (reSubFuel spM fuel f s) = true := by
  intro fuel
  induction fuel with
  | zero =>
    intro f s h _
    have : s = [] := List.eq_nil_of_length_eq_zero (Nat.le_zero.mp h)
    subst this
    rfl
  | succ fuel ih =>
    intro f s hlen hs
    match s with
    | [] => rw [reSubFuel_nil]; rfl
    | c :: rest =>
      have hrl : rest.length ≤ fuel := by
        simpa using Nat.le_of_succ_le_succ hlen
      by_cases hc : c = ' '
      · subst hc
        rw [reSubFuel_cons_some fuel spM_run spM_run_pos]
        simp only [List.cons_append, List.nil_append]
        apply goodTriples_cons_of_fst (fun b c2 => nlTriple_of_fst_ne (by decide))
        apply ih
        · have hk := @spM_run_pos rest
          simp only [List.length_drop, List.length_cons]
          omega
        · have hsplit := List.take_append_drop
            (((' ' :: rest).takeWhile (fun x => x == ' ')).length) (' ' :: rest)
          have := hs
          rw [← hsplit] at this
          exact goodTriples_append_right this
      · rw [reSubFuel_cons_none fuel (spM_none (by simpa using hc))]
        by_cases hcn : c = '\n'
        swap
        · exact goodTriples_cons_of_fst (fun b c2 => nlTriple_of_fst_ne hcn)
            (ih _ rest hrl (goodTriples_tail hs))
        subst hcn
        apply goodTriples_cons (ih _ rest hrl (goodTriples_tail hs))
        intro b c2 t2 hbc
        by_cases hr : rest.head? = some '\n'
        swap
        · apply nlTriple_of_snd_ne
          have hh := reSubFuel_spM_head fuel (('\n' : Char) == '\n') rest
          rw [hbc] at hh
          intro hcon
          subst hcon
          exact hr hh.symm
        · obtain ⟨rest2, hrest⟩ : ∃ rest2, rest = '\n' :: rest2 := by
            cases rest with
            | nil => simp at hr
            | cons r0 rest2 =>
              have hr0 : r0 = '\n' := by simpa using hr
              exact ⟨rest2, by rw [hr0]⟩
          subst hrest
          have hr2 : rest2.head? ≠ some '\n' := by
            intro hcon
            obtain ⟨rest3, hrest3⟩ : ∃ rest3, rest2 = '\n' :: rest3 := by
              cases rest2 with
              | nil => simp at hcon
              | cons r0 rest3 =>
                have hr0 : r0 = '\n' := by simpa using hcon
                exact ⟨rest3, by rw [hr0]⟩
            subst hrest3
            simp [noTripleNl, goodTriples] at hs
          cases fuel with
          | zero => simp at hrl
          | succ fuel2 =>
            rw [reSubFuel_cons_none fuel2 (spM_none
              (show (('\n' :: rest2).head? ≠ some ' ') by simp))] at hbc
            injection hbc with h1 h2
            apply nlTriple_of_thd_ne
            intro hcon
            subst hcon
            have hh := reSubFuel_spM_head fuel2 (('\n' : Char) == '\n') rest2
            rw [h2] at hh
            exact hr2 hh.symm

theorem spPair_of_fst_ne {a b : Char} (ha : a ≠ ' ') :
    (!(a == ' ' && b == ' ')) = true := by
  simp [ha]

/-- The space collapse leaves no two consecutive spaces. -/
theorem collapseSp_noDouble :
    ∀ (fuel : Nat) (f : Bool) (s : List Char), s.length ≤ fuel →
      noDoubleSpace (reSubFuel spM fuel f s) = true := by
  intro fuel
  induction fuel with
  | zero =>
    intro f s h
    have : s = [] := List.eq_nil_of_length_eq_zero (Nat.le_zero.mp h)
    subst this
    rfl
  | succ fuel ih =>
    intro f s hlen
    match s with
    | [] => rw [reSubFuel_nil]; rfl
    | c :: rest =>
      have hrl : rest.length ≤ fuel := by
        simpa using Nat.le_of_succ_le_succ hlen
      by_cases hc : c = ' '
      · subst hc
        rw [reSubFuel_cons_some fuel spM_run spM_run_pos]
        simp only [List.cons_append, List.nil_append]
        apply goodPairs_cons
        · apply ih
          have hk := @spM_run_pos rest
          simp only [List.length_drop, List.length_cons]
          omega
        · intro b hb
          have hh := reSubFuel_spM_head fuel
            (((' ' :: rest).getD
              (((' ' :: rest).takeWhile (fun x => x == ' ')).length - 1)
              ' ') == '\n')
            (List.drop (((' ' :: rest).takeWhile (fun x => x == ' ')).length)
              (' ' :: rest))
          rw [hb] at hh
          have hbne : b ≠ ' ' := by
            intro hcon
            subst hcon
            have := @drop_takeWhile_head (fun x => x == ' ')
              (' ' :: rest) ' ' hh.symm
            simp at this
          simp [hbne]
      · rw [reSubFuel_cons_none fuel (spM_none (by simpa using hc))]
        apply goodPairs_cons (ih _ rest hrl)
        intro b _
        exact spPair_of_fst_ne hc

theorem pystrip_decomp (s : List Char) :
    s = s.takeWhile isPyWs ++ pystrip s ++
      ((s.dropWhile isPyWs).reverse.takeWhile isPyWs).reverse := by
  conv_lhs => rw [← @List.takeWhile_append_dropWhile _ isPyWs s]
  rw [List.append_assoc]
  congr 1
  have h1 : (s.dropWhile isPyWs).reverse =
      (s.dropWhile isPyWs).reverse.takeWhile isPyWs ++
        (s.dropWhile isPyWs).reverse.dropWhile isPyWs :=
    (List.takeWhile_append_dropWhile _ _).symm
  calc s.dropWhile isPyWs
      = (s.dropWhile isPyWs).reverse.reverse := (List.reverse_reverse _).symm
    _ = ((s.dropWhile isPyWs).reverse.takeWhile isPyWs ++
        (s.dropWhile isPyWs).reverse.dropWhile isPyWs).reverse := by
        rw [← h1]
    _ = pystrip s ++
        ((s.dropWhile isPyWs).reverse.takeWhile isPyWs).reverse := by
        rw [List.reverse_append]
        rfl

theorem pystrip_noTriple {s : List Char} (h : noTripleNl s = true) :
    noTripleNl (pystrip s) = true := by
  have hd := pystrip_decomp s
  rw [hd] at h
  exact goodTriples_append_right (goodTriples_append_left h)

theorem pystrip_noDouble {s : List Char} (h : noDoubleSpace s = true) :
    noDoubleSpace (pystrip s) = true := by
  have hd := pystrip_decomp s
  rw [hd] at h
  exact goodPairs_append_right (goodPairs_append_left h)

theorem collapseSp_preserves_noTriple2 {s : List Char}
    (h : noTripleNl s = true) : noTripleNl (collapseSp s) = true :=
  collapseSp_preserves_noTriple s.length true s (Nat.le_refl _) h

theorem collapseSp_noDouble2 (s : List Char) :
    noDoubleSpace (collapseSp s) = true :=
  collapseSp_noDouble s.length true s (Nat.le_refl _)

theorem collapseNl_noTriple2 (s : List Char) :
    noTripleNl (collapseNl s) = true :=
  collapseNl_noTriple s.length true s (Nat.le_refl _)

theorem cleanList_eq (s : List Char) :
    cleanList s = pystrip (collapseSp (collapseNl
      (joinBlocks (processLines [] [] (splitNl (stage1 s)))))) := rfl

theorem data_mk (l : List Char) : (String.mk l).data = l := rfl

theorem clean_markdown_text_data (s : String) :
    (clean_markdown_text s).data = cleanList s.data :=
  data_mk (cleanList s.data)

/-- C4: the output of `clean_markdown_text` never contains three or
more consecutive newlines, nor two or more consecutive spaces: the
final cleanup (lines 110-112) collapses newline runs to two and space
runs to one, and the trailing strip preserves both properties. -/
theorem c4_no_triple_newline_no_double_space (s : String) :
    noTripleNl (clean_markdown_text s).data = true ∧
      noDoubleSpace (clean_markdown_text s).data = true := by
  rw [clean_markdown_text_data, cleanList_eq]
  exact ⟨pystrip_noTriple (collapseSp_preserves_noTriple2
      (collapseNl_noTriple2 _)),
    pystrip_noDouble (collapseSp_noDouble2 _)⟩

/-! ### C10: horizontal rules and standalone numbers as paragraph
boundaries -/

/-- Characters that can trigger one of the nine character-level
substitutions of stage 1. -/
def mdTrigger (c : Char) : Bool :=
  c == '#' || c == '*' || c == backquote || c == '[' || c == '!' || c == '^'

/-- The nine character-level substitutions leave a trigger-free string
unchanged. -/
theorem charSubs_id {x : List Char} (h : ∀ c ∈ x, mdTrigger c = false) :
    reSub tagM (reSub blockRefM (reSub imgM (reSub wikiM (reSub linkM
      (reSub codeM (reSub italicM (reSub boldM (reSub hashWsM x))))))))
      = x := by
  have hne : ∀ (t : List Char), t <:+ x → ∀ c, t.head? = some c →
      (c ≠ '#' ∧ c ≠ '*' ∧ c ≠ backquote ∧ c ≠ '[' ∧ c ≠ '!' ∧ c ≠ '^') := by
    intro t ht c hc
    have hm := h c (ht.subset (List.mem_of_mem_head? (by rw [hc]; rfl)))
    simp only [mdTrigger, Bool.or_eq_false_iff, beq_eq_false_iff_ne,
      ne_eq] at hm
    exact ⟨hm.1.1.1.1.1, hm.1.1.1.1.2, hm.1.1.1.2, hm.1.1.2, hm.1.2, hm.2⟩
  have mk : ∀ (m : Bool → List Char → Option (Nat × List Char)),
      (∀ (f : Bool) (t : List Char), t <:+ x → m f t = none) →
      reSub m x = x := fun m hm => reSubFuel_id_of_none _ _ _ hm
  have h1 := mk hashWsM (fun f t ht => by
    match t with
    | [] => rfl
    | c :: t2 => exact hashWsM_none (by simpa using (hne _ ht c rfl).1))
  have h2 := mk boldM (fun f t ht => by
    match t with
    | [] => rfl
    | c :: t2 => exact boldM_none (by simpa using (hne _ ht c rfl).2.1))
  have h3 := mk italicM (fun f t ht => by
    match t with
    | [] => rfl
    | c :: t2 => exact italicM_none (by simpa using (hne _ ht c rfl).2.1))
  have h4 := mk codeM (fun f t ht => by
    match t with
    | [] => rfl
    | c :: t2 => exact codeM_none (by simpa using (hne _ ht c rfl).2.2.1))
  have h5 := mk linkM (fun f t ht => by
    match t with
    | [] => rfl
    | c :: t2 => exact linkM_none (by simpa using (hne _ ht c rfl).2.2.2.1))
  have h6 := mk wikiM (fun f t ht => by
    match t with
    | [] => rfl
    | c :: t2 => exact wikiM_none (by simpa using (hne _ ht c rfl).2.2.2.1))
  have h7 := mk imgM (fun f t ht => by
    match t with
    | [] => rfl
    | c :: t2 => exact imgM_none (by simpa using (hne _ ht c rfl).2.2.2.2.1))
  have h8 := mk blockRefM (fun f t ht => by
    match t with
    | [] => rfl
    | c :: t2 =>
      exact blockRefM_none (by simpa using (hne _ ht c rfl).2.2.2.2.2))
  have h9 := mk tagM (fun f t ht => by
    match t with
    | [] => rfl
    | c :: t2 => exact tagM_none (by simpa using (hne _ ht c rfl).1))
  rw [h1, h2, h3, h4, h5, h6, h7, h8, h9]

theorem goodPairs_glue {p : Char → Char → Bool} :
    ∀ {x v : List Char}, goodPairs p x = true → goodPairs p v = true →
      (∀ a b, x.getLast? = some a → v.head? = some b → p a b = true) →
      goodPairs p (x ++ v) = true := by
  intro x
  induction x with
  | nil => intro v _ hv _; exact hv
  | cons a x ih =>
    intro v hx hv hb
    match x with
    | [] =>
      apply goodPairs_cons hv
      intro b hbv
      exact hb a b rfl hbv
    | c :: x2 =>
      have hp : p a c = true := ((Bool.and_eq_true _ _).mp hx).1
      have hx2 : goodPairs p (c :: x2) = true :=
        ((Bool.and_eq_true _ _).mp hx).2
      have := ih hx2 hv (fun a2 b2 hl hh => hb a2 b2 (by
        rw [← hl]
        rfl) hh)
      rw [List.cons_append]
      apply goodPairs_cons this
      intro b hbv
      have hcb : c = b := by
        rw [List.cons_append] at hbv
        simpa using hbv
      rw [← hcb]
      exact hp

theorem firstNonWsHead {c : Char} {rest : List Char}
    (hc : isPyWs c = false) :
    ((c :: rest).drop (wsRun (c :: rest))).head? = some c := by
  rw [drop_wsRun_self (by
    intro d hd
    rw [show d = c from (by simpa using hd : c = d).symm]
    exact hc)]
  rfl

theorem firstNonWs_nl {y : List Char} {c : Char} {y2 : List Char}
    (hy : y = c :: y2) (hc : isPyWs c = false) :
    (('\n' :: y).drop (wsRun ('\n' :: y))).head? = some c := by
  subst hy
  have h1 : wsRun ('\n' :: c :: y2) = 1 := by
    rw [wsRun, List.takeWhile_cons, if_pos (by decide),
      List.takeWhile_cons, if_neg (by simp [hc])]
    rfl
  rw [h1]
  rfl

theorem reSub_line_none {m : Bool → List Char → Option (Nat × List Char)}
    (hanch : Anchored m) {x r : List Char} (hxnl : ∀ c ∈ x, c ≠ '\n')
    (h1 : m true (x ++ '\n' :: r) = none) :
    reSub m (x ++ '\n' :: r) = x ++ '\n' :: reSub m r :=
  reSubFuel_true_line_none hanch hxnl h1 (Nat.le_refl _)

theorem reSub_line_match {m : Bool → List Char → Option (Nat × List Char)}
    (hanch : Anchored m) {M r : List Char} (hMnl : ∀ c ∈ M, c ≠ '\n')
    (hM0 : M ≠ []) (hfire : m true (M ++ '\n' :: r) = some (M.length, [])) :
    reSub m (M ++ '\n' :: r) = '\n' :: reSub m r := by
  have h := reSubFuel_true_line_match hanch hMnl hM0 hfire
    (Nat.le_refl (M ++ '\n' :: r).length)
  rw [List.nil_append] at h
  show reSubFuel m (M ++ '\n' :: r).length true (M ++ '\n' :: r) =
    '\n' :: reSubFuel m r.length true r
  exact h

theorem isLower_facts {c : Char} (hc : c.isLower = true) :
    c ≠ '-' ∧ c.isDigit = false ∧ c ≠ '.' ∧ c ≠ '#' ∧ c ≠ 'C' := by
  refine ⟨?_, isLower_not_digit hc, ?_, ?_, ?_⟩ <;>
    (rintro rfl; exact absurd hc (by decide))

/-- All eight line-anchored matchers fail at a line that starts with a
lowercase letter. -/
theorem anchNone_of_lower {s : List Char} {c : Char} {rest : List Char}
    (hs : s = c :: rest) (hc : c.isLower = true) :
    hruleM true s = none ∧ numNNM true s = none ∧ numDotM true s = none ∧
    dotNumM true s = none ∧ bulletM true s = none ∧ secNNM true s = none ∧
    secNM true s = none ∧ chapterM true s = none := by
  subst hs
  have hhead := @firstNonWsHead c rest (isLower_not_ws hc)
  obtain ⟨hd, hdig, hdot, hhash, hC⟩ := isLower_facts hc
  refine ⟨?_, ?_, ?_, ?_, ?_, ?_, ?_, ?_⟩
  · exact hruleM_none (by rw [hhead]; simpa using hd)
  · exact numNNM_none (by
      intro d hd2
      rw [hhead] at hd2
      rw [show d = c from (by simpa using hd2 : c = d).symm]
      exact hdig)
  · exact numDotM_none (by
      intro d hd2
      rw [hhead] at hd2
      rw [show d = c from (by simpa using hd2 : c = d).symm]
      exact hdig)
  · exact dotNumM_none (by rw [hhead]; simpa using hdot)
  · exact bulletM_none (by rw [hhead]; simpa using hd)
  · exact secNNM_none (by rw [hhead]; simpa using hhash)
  · exact secNM_none (by rw [hhead]; simpa using hhash)
  · exact chapterM_none (by rw [hhead]; simpa using hC)

/-- All eight line-anchored matchers fail at an empty line followed by
a line that starts with a lowercase letter. -/
theorem anchNone_of_nl_lower {y : List Char} {c : Char} {y2 : List Char}
    (hy : y = c :: y2) (hc : c.isLower = true) :
    hruleM true ('\n' :: y) = none ∧ numNNM true ('\n' :: y) = none ∧
    numDotM true ('\n' :: y) = none ∧ dotNumM true ('\n' :: y) = none ∧
    bulletM true ('\n' :: y) = none ∧ secNNM true ('\n' :: y) = none ∧
    secNM true ('\n' :: y) = none ∧ chapterM true ('\n' :: y) = none := by
  have hhead := firstNonWs_nl hy (isLower_not_ws hc)
  obtain ⟨hd, hdig, hdot, hhash, hC⟩ := isLower_facts hc
  refine ⟨?_, ?_, ?_, ?_, ?_, ?_, ?_, ?_⟩
  · exact hruleM_none (by rw [hhead]; simpa using hd)
  · exact numNNM_none (by
      intro d hd2
      rw [hhead] at hd2
      rw [show d = c from (by simpa using hd2 : c = d).symm]
      exact hdig)
  · exact numDotM_none (by
      intro d hd2
      rw [hhead] at hd2
      rw [show d = c from (by simpa using hd2 : c = d).symm]
      exact hdig)
  · exact dotNumM_none (by rw [hhead]; simpa using hdot)
  · exact bulletM_none (by rw [hhead]; simpa using hd)
  · exact secNNM_none (by rw [hhead]; simpa using hhash)
  · exact secNM_none (by rw [hhead]; simpa using hhash)
  · exact chapterM_none (by rw [hhead]; simpa using hC)

theorem hruleM_fire {c : Char} {y2 : List Char} (hc : isPyWs c = false) :
    hruleM true (['-', '-', '-'] ++ '\n' :: c :: y2) = some (3, []) := by
  simp [hruleM, wsRun, dollarWs, List.takeWhile_cons, hc,
    show isPyWs '\n' = true from rfl, show isPyWs '-' = false from rfl]

theorem numNNM_fire {c : Char} {y2 : List Char} (hc : isPyWs c = false) :
    numNNM true (['1', '.', '2'] ++ '\n' :: c :: y2) = some (3, []) := by
  simp [numNNM, wsRun, digRun, dollarWs, List.takeWhile_cons, hc,
    show isPyWs '\n' = true from rfl, show isPyWs '1' = false from rfl,
    show Char.isDigit '1' = true from rfl,
    show Char.isDigit '.' = false from rfl,
    show Char.isDigit '2' = true from rfl,
    show Char.isDigit '\n' = false from rfl]

theorem numDotM_fire {c : Char} {y2 : List Char} (hc : isPyWs c = false) :
    numDotM true (['3', '.'] ++ '\n' :: c :: y2) = some (2, []) := by
  simp [numDotM, wsRun, digRun, dollarWs, List.takeWhile_cons, hc,
    show isPyWs '\n' = true from rfl, show isPyWs '3' = false from rfl,
    show Char.isDigit '3' = true from rfl,
    show Char.isDigit '.' = false from rfl]

theorem dotNumM_fire {c : Char} {y2 : List Char} (hc : isPyWs c = false) :
    dotNumM true (['.', '7'] ++ '\n' :: c :: y2) = some (2, []) := by
  simp [dotNumM, wsRun, digRun, dollarWs, List.takeWhile_cons, hc,
    show isPyWs '\n' = true from rfl, show isPyWs '.' = false from rfl,
    show Char.isDigit '7' = true from rfl,
    show Char.isDigit '\n' = false from rfl]

theorem numNNM_none_3dot {y : List Char} :
    numNNM true (['3', '.'] ++ '\n' :: y) = none := by
  simp [numNNM, wsRun, digRun, List.takeWhile_cons,
    show isPyWs '3' = false from rfl,
    show Char.isDigit '3' = true from rfl,
    show Char.isDigit '.' = false from rfl,
    show Char.isDigit '\n' = false from rfl]

/-- A `^`-anchored substitution that matches none of the three lines
leaves `x\nM\ny` unchanged. -/
theorem anchSub_skipA {m : Bool → List Char → Option (Nat × List Char)}
    (hanch : Anchored m) {x M y : List Char}
    (hxnl : ∀ c ∈ x, c ≠ '\n') (hMnl : ∀ c ∈ M, c ≠ '\n')
    (hynl : ∀ c ∈ y, c ≠ '\n')
    (h1 : m true (x ++ '\n' :: (M ++ '\n' :: y)) = none)
    (h2 : m true (M ++ '\n' :: y) = none) (h3 : m true y = none) :
    reSub m (x ++ '\n' :: (M ++ '\n' :: y)) =
      x ++ '\n' :: (M ++ '\n' :: y) := by
  rw [reSub_line_none hanch hxnl h1, reSub_line_none hanch hMnl h2,
    anchored_id hanch hynl h3]

/-- A `^`-anchored substitution that fires exactly on the middle line
of `x\nM\ny`, consuming it entirely, blanks that line. -/
theorem anchSub_fireA {m : Bool → List Char → Option (Nat × List Char)}
    (hanch : Anchored m) {x M y : List Char}
    (hxnl : ∀ c ∈ x, c ≠ '\n') (hMnl : ∀ c ∈ M, c ≠ '\n') (hM0 : M ≠ [])
    (hynl : ∀ c ∈ y, c ≠ '\n')
    (h1 : m true (x ++ '\n' :: (M ++ '\n' :: y)) = none)
    (hfire : m true (M ++ '\n' :: y) = some (M.length, []))
    (h3 : m true y = none) :
    reSub m (x ++ '\n' :: (M ++ '\n' :: y)) = x ++ '\n' :: '\n' :: y := by
  rw [reSub_line_none hanch hxnl h1,
    reSub_line_match hanch hMnl hM0 hfire, anchored_id hanch hynl h3]

/-- A `^`-anchored substitution that matches nowhere in `x\n\ny`
leaves it unchanged. -/
theorem anchSub_skipB {m : Bool → List Char → Option (Nat × List Char)}
    (hanch : Anchored m) {x y : List Char}
    (hxnl : ∀ c ∈ x, c ≠ '\n') (hynl : ∀ c ∈ y, c ≠ '\n')
    (h1 : m true (x ++ '\n' :: '\n' :: y) = none)
    (h2 : m true ('\n' :: y) = none) (h3 : m true y = none) :
    reSub m (x ++ '\n' :: '\n' :: y) = x ++ '\n' :: '\n' :: y := by
  have e1 := @reSub_line_none m hanch x ('\n' :: y) hxnl h1
  have e2 := @reSub_line_none m hanch [] y (by simp)
    (by simpa using h2)
  rw [List.nil_append, List.nil_append] at e2
  rw [e1, e2, anchored_id hanch hynl h3]

theorem prose_head_lower {x : List Char} (hx : lineIsProse x = true)
    (hx0 : x ≠ []) : ∃ c x2, x = c :: x2 ∧ c.isLower = true := by
  obtain ⟨_, _, hh, _⟩ := lineIsProse_facts hx
  match x, hx0 with
  | c :: x2, _ => exact ⟨c, x2, rfl, hh c rfl⟩

theorem prose_not_trigger {c : Char} (h : proseChar c = true) :
    mdTrigger c = false := by
  obtain ⟨h1, h2, h3, h4, h5, h6, _⟩ := proseChar_ne h
  simp [mdTrigger, h1, h2, h3, h4, h5, h6]

theorem sep_no_trigger {x M y : List Char}
    (hx : ∀ c ∈ x, proseChar c = true) (hy : ∀ c ∈ y, proseChar c = true)
    (hM : ∀ c ∈ M, mdTrigger c = false) :
    ∀ c ∈ x ++ '\n' :: (M ++ '\n' :: y), mdTrigger c = false := by
  intro c hc
  rcases List.mem_append.mp hc with h | h
  · exact prose_not_trigger (hx c h)
  · rcases List.mem_cons.mp h with rfl | h2
    · decide
    · rcases List.mem_append.mp h2 with h3 | h4
      · exact hM c h3
      · rcases List.mem_cons.mp h4 with rfl | h5
        · decide
        · exact prose_not_trigger (hy c h5)

/-- Stage 1 on `x\n---\ny` (clean prose lines around a horizontal
rule): the rule line is blanked, the newlines are kept. -/
theorem stage1_sep_hrule {x y : List Char} (hx : lineIsProse x = true)
    (hx0 : x ≠ []) (hy : lineIsProse y = true) (hy0 : y ≠ []) :
    stage1 (x ++ '\n' :: (['-', '-', '-'] ++ '\n' :: y)) =
      x ++ '\n' :: '\n' :: y := by
  obtain ⟨hpx, _, _, _⟩ := lineIsProse_facts hx
  obtain ⟨hpy, _, _, _⟩ := lineIsProse_facts hy
  obtain ⟨cx, x2, hxe, hcx⟩ := prose_head_lower hx hx0
  obtain ⟨cy, y2, hye, hcy⟩ := prose_head_lower hy hy0
  have hxnl := prose_no_nl hpx
  have hynl := prose_no_nl hpy
  have hMnl : ∀ c ∈ (['-', '-', '-'] : List Char), c ≠ '\n' := by decide
  have htrig := @sep_no_trigger x ['-', '-', '-'] y hpx hpy (by decide)
  have hA := anchNone_of_lower
    (show (x ++ '\n' :: (['-', '-', '-'] ++ '\n' :: y)) =
      cx :: (x2 ++ '\n' :: (['-', '-', '-'] ++ '\n' :: y)) from by
      rw [hxe]; rfl) hcx
  have hB := anchNone_of_lower
    (show (x ++ '\n' :: '\n' :: y) =
      cx :: (x2 ++ '\n' :: '\n' :: y) from by rw [hxe]; rfl) hcx
  have hY := anchNone_of_lower hye hcy
  have hNL := anchNone_of_nl_lower hye hcy
  have hfire : hruleM true (['-', '-', '-'] ++ '\n' :: y) =
      some ((['-', '-', '-'] : List Char).length, []) := by
    rw [hye]
    exact hruleM_fire (isLower_not_ws hcy)
  show reSub chapterM (reSub secNM (reSub secNNM (reSub bulletM
    (reSub dotNumM (reSub numDotM (reSub numNNM (reSub hruleM
      (reSub tagM (reSub blockRefM (reSub imgM (reSub wikiM (reSub linkM
        (reSub codeM (reSub italicM (reSub boldM
          (reSub hashWsM (x ++ '\n' :: (['-', '-', '-'] ++ '\n' :: y))))))))))))))))))
    = x ++ '\n' :: '\n' :: y
  rw [charSubs_id htrig]
  rw [anchSub_fireA hruleM_anch hxnl hMnl (by decide) hynl hA.1 hfire hY.1]
  rw [anchSub_skipB numNNM_anch hxnl hynl hB.2.1 hNL.2.1 hY.2.1]
  rw [anchSub_skipB numDotM_anch hxnl hynl hB.2.2.1 hNL.2.2.1 hY.2.2.1]
  rw [anchSub_skipB dotNumM_anch hxnl hynl hB.2.2.2.1 hNL.2.2.2.1
    hY.2.2.2.1]
  rw [anchSub_skipB bulletM_anch hxnl hynl hB.2.2.2.2.1 hNL.2.2.2.2.1
    hY.2.2.2.2.1]
  rw [anchSub_skipB secNNM_anch hxnl hynl hB.2.2.2.2.2.1 hNL.2.2.2.2.2.1
    hY.2.2.2.2.2.1]
  rw [anchSub_skipB secNM_anch hxnl hynl hB.2.2.2.2.2.2.1
    hNL.2.2.2.2.2.2.1 hY.2.2.2.2.2.2.1]
  rw [anchSub_skipB chapterM_anch hxnl hynl hB.2.2.2.2.2.2.2
    hNL.2.2.2.2.2.2.2 hY.2.2.2.2.2.2.2]

/-- Stage 1 on `x\nMID\ny`: the standalone-number line is blanked,
the newlines are kept. -/
theorem stage1_sep_numNN {x y : List Char} (hx : lineIsProse x = true)
    (hx0 : x ≠ []) (hy : lineIsProse y = true) (hy0 : y ≠ []) :
    stage1 (x ++ '\n' :: (['1', '.', '2'] ++ '\n' :: y)) =
      x ++ '\n' :: '\n' :: y := by
  obtain ⟨hpx, _, _, _⟩ := lineIsProse_facts hx
  obtain ⟨hpy, _, _, _⟩ := lineIsProse_facts hy
  obtain ⟨cx, x2, hxe, hcx⟩ := prose_head_lower hx hx0
  obtain ⟨cy, y2, hye, hcy⟩ := prose_head_lower hy hy0
  have hxnl := prose_no_nl hpx
  have hynl := prose_no_nl hpy
  have hMnl : ∀ c ∈ (['1', '.', '2'] : List Char), c ≠ '\n' := by decide
  have htrig := @sep_no_trigger x ['1', '.', '2'] y hpx hpy (by decide)
  have hA := anchNone_of_lower
    (show (x ++ '\n' :: (['1', '.', '2'] ++ '\n' :: y)) =
      cx :: (x2 ++ '\n' :: (['1', '.', '2'] ++ '\n' :: y)) from by
      rw [hxe]; rfl) hcx
  have hB := anchNone_of_lower
    (show (x ++ '\n' :: '\n' :: y) =
      cx :: (x2 ++ '\n' :: '\n' :: y) from by rw [hxe]; rfl) hcx
  have hY := anchNone_of_lower hye hcy
  have hNL := anchNone_of_nl_lower hye hcy
  have hMhead : ((['1', '.', '2'] ++ '\n' :: y).drop
      (wsRun (['1', '.', '2'] ++ '\n' :: y))).head? = some '1' :=
    firstNonWsHead (by decide)
  have hfire : numNNM true (['1', '.', '2'] ++ '\n' :: y) =
      some ((['1', '.', '2'] : List Char).length, []) := by
    rw [hye]
    exact numNNM_fire (isLower_not_ws hcy)
  show reSub chapterM (reSub secNM (reSub secNNM (reSub bulletM
    (reSub dotNumM (reSub numDotM (reSub numNNM (reSub hruleM
      (reSub tagM (reSub blockRefM (reSub imgM (reSub wikiM (reSub linkM
        (reSub codeM (reSub italicM (reSub boldM
          (reSub hashWsM (x ++ '\n' :: (['1', '.', '2'] ++ '\n' :: y))))))))))))))))))
    = x ++ '\n' :: '\n' :: y
  rw [charSubs_id htrig]
  have hhrM : hruleM true (['1', '.', '2'] ++ '\n' :: y) = none :=
    hruleM_none (by rw [hMhead]; simp)
  rw [anchSub_skipA hruleM_anch hxnl hMnl hynl hA.1 hhrM hY.1]
  rw [anchSub_fireA numNNM_anch hxnl hMnl (by decide) hynl hA.2.1 hfire
    hY.2.1]
  rw [anchSub_skipB numDotM_anch hxnl hynl hB.2.2.1 hNL.2.2.1 hY.2.2.1]
  rw [anchSub_skipB dotNumM_anch hxnl hynl hB.2.2.2.1 hNL.2.2.2.1
    hY.2.2.2.1]
  rw [anchSub_skipB bulletM_anch hxnl hynl hB.2.2.2.2.1 hNL.2.2.2.2.1
    hY.2.2.2.2.1]
  rw [anchSub_skipB secNNM_anch hxnl hynl hB.2.2.2.2.2.1 hNL.2.2.2.2.2.1
    hY.2.2.2.2.2.1]
  rw [anchSub_skipB secNM_anch hxnl hynl hB.2.2.2.2.2.2.1
    hNL.2.2.2.2.2.2.1 hY.2.2.2.2.2.2.1]
  rw [anchSub_skipB chapterM_anch hxnl hynl hB.2.2.2.2.2.2.2
    hNL.2.2.2.2.2.2.2 hY.2.2.2.2.2.2.2]

/-- Stage 1 on `x\nMID\ny`: the standalone-number line is blanked,
the newlines are kept. -/
theorem stage1_sep_numDot {x y : List Char} (hx : lineIsProse x = true)
    (hx0 : x ≠ []) (hy : lineIsProse y = true) (hy0 : y ≠ []) :
    stage1 (x ++ '\n' :: (['3', '.'] ++ '\n' :: y)) =
      x ++ '\n' :: '\n' :: y := by
  obtain ⟨hpx, _, _, _⟩ := lineIsProse_facts hx
  obtain ⟨hpy, _, _, _⟩ := lineIsProse_facts hy
  obtain ⟨cx, x2, hxe, hcx⟩ := prose_head_lower hx hx0
  obtain ⟨cy, y2, hye, hcy⟩ := prose_head_lower hy hy0
  have hxnl := prose_no_nl hpx
  have hynl := prose_no_nl hpy
  have hMnl : ∀ c ∈ (['3', '.'] : List Char), c ≠ '\n' := by decide
  have htrig := @sep_no_trigger x ['3', '.'] y hpx hpy (by decide)
  have hA := anchNone_of_lower
    (show (x ++ '\n' :: (['3', '.'] ++ '\n' :: y)) =
      cx :: (x2 ++ '\n' :: (['3', '.'] ++ '\n' :: y)) from by
      rw [hxe]; rfl) hcx
  have hB := anchNone_of_lower
    (show (x ++ '\n' :: '\n' :: y) =
      cx :: (x2 ++ '\n' :: '\n' :: y) from by rw [hxe]; rfl) hcx
  have hY := anchNone_of_lower hye hcy
  have hNL := anchNone_of_nl_lower hye hcy
  have hMhead : ((['3', '.'] ++ '\n' :: y).drop
      (wsRun (['3', '.'] ++ '\n' :: y))).head? = some '3' :=
    firstNonWsHead (by decide)
  have hfire : numDotM true (['3', '.'] ++ '\n' :: y) =
      some ((['3', '.'] : List Char).length, []) := by
    rw [hye]
    exact numDotM_fire (isLower_not_ws hcy)
  show reSub chapterM (reSub secNM (reSub secNNM (reSub bulletM
    (reSub dotNumM (reSub numDotM (reSub numNNM (reSub hruleM
      (reSub tagM (reSub blockRefM (reSub imgM (reSub wikiM (reSub linkM
        (reSub codeM (reSub italicM (reSub boldM
          (reSub hashWsM (x ++ '\n' :: (['3', '.'] ++ '\n' :: y))))))))))))))))))
    = x ++ '\n' :: '\n' :: y
  rw [charSubs_id htrig]
  have hhrM : hruleM true (['3', '.'] ++ '\n' :: y) = none :=
    hruleM_none (by rw [hMhead]; simp)
  rw [anchSub_skipA hruleM_anch hxnl hMnl hynl hA.1 hhrM hY.1]
  rw [anchSub_skipA numNNM_anch hxnl hMnl hynl hA.2.1 numNNM_none_3dot
    hY.2.1]
  rw [anchSub_fireA numDotM_anch hxnl hMnl (by decide) hynl hA.2.2.1 hfire
    hY.2.2.1]
  rw [anchSub_skipB dotNumM_anch hxnl hynl hB.2.2.2.1 hNL.2.2.2.1
    hY.2.2.2.1]
  rw [anchSub_skipB bulletM_anch hxnl hynl hB.2.2.2.2.1 hNL.2.2.2.2.1
    hY.2.2.2.2.1]
  rw [anchSub_skipB secNNM_anch hxnl hynl hB.2.2.2.2.2.1 hNL.2.2.2.2.2.1
    hY.2.2.2.2.2.1]
  rw [anchSub_skipB secNM_anch hxnl hynl hB.2.2.2.2.2.2.1
    hNL.2.2.2.2.2.2.1 hY.2.2.2.2.2.2.1]
  rw [anchSub_skipB chapterM_anch hxnl hynl hB.2.2.2.2.2.2.2
    hNL.2.2.2.2.2.2.2 hY.2.2.2.2.2.2.2]

/-- Stage 1 on `x\nMID\ny`: the standalone-number line is blanked,
the newlines are kept. -/
theorem stage1_sep_dotNum {x y : List Char} (hx : lineIsProse x = true)
    (hx0 : x ≠ []) (hy : lineIsProse y = true) (hy0 : y ≠ []) :
    stage1 (x ++ '\n' :: (['.', '7'] ++ '\n' :: y)) =
      x ++ '\n' :: '\n' :: y := by
  obtain ⟨hpx, _, _, _⟩ := lineIsProse_facts hx
  obtain ⟨hpy, _, _, _⟩ := lineIsProse_facts hy
  obtain ⟨cx, x2, hxe, hcx⟩ := prose_head_lower hx hx0
  obtain ⟨cy, y2, hye, hcy⟩ := prose_head_lower hy hy0
  have hxnl := prose_no_nl hpx
  have hynl := prose_no_nl hpy
  have hMnl : ∀ c ∈ (['.', '7'] : List Char), c ≠ '\n' := by decide
  have htrig := @sep_no_trigger x ['.', '7'] y hpx hpy (by decide)
  have hA := anchNone_of_lower
    (show (x ++ '\n' :: (['.', '7'] ++ '\n' :: y)) =
      cx :: (x2 ++ '\n' :: (['.', '7'] ++ '\n' :: y)) from by
      rw [hxe]; rfl) hcx
  have hB := anchNone_of_lower
    (show (x ++ '\n' :: '\n' :: y) =
      cx :: (x2 ++ '\n' :: '\n' :: y) from by rw [hxe]; rfl) hcx
  have hY := anchNone_of_lower hye hcy
  have hNL := anchNone_of_nl_lower hye hcy
  have hMhead : ((['.', '7'] ++ '\n' :: y).drop
      (wsRun (['.', '7'] ++ '\n' :: y))).head? = some '.' :=
    firstNonWsHead (by decide)
  have hfire : dotNumM true (['.', '7'] ++ '\n' :: y) =
      some ((['.', '7'] : List Char).length, []) := by
    rw [hye]
    exact dotNumM_fire (isLower_not_ws hcy)
  show reSub chapterM (reSub secNM (reSub secNNM (reSub bulletM
    (reSub dotNumM (reSub numDotM (reSub numNNM (reSub hruleM
      (reSub tagM (reSub blockRefM (reSub imgM (reSub wikiM (reSub linkM
        (reSub codeM (reSub italicM (reSub boldM
          (reSub hashWsM (x ++ '\n' :: (['.', '7'] ++ '\n' :: y))))))))))))))))))
    = x ++ '\n' :: '\n' :: y
  rw [charSubs_id htrig]
  have hhrM : hruleM true (['.', '7'] ++ '\n' :: y) = none :=
    hruleM_none (by rw [hMhead]; simp)
  have hnnM : numNNM true (['.', '7'] ++ '\n' :: y) = none :=
    numNNM_none (by
      intro d hd
      rw [hMhead] at hd
      rw [show d = '.' from (by simpa using hd : ('.' : Char) = d).symm]
      rfl)
  have hndM : numDotM true (['.', '7'] ++ '\n' :: y) = none :=
    numDotM_none (by
      intro d hd
      rw [hMhead] at hd
      rw [show d = '.' from (by simpa using hd : ('.' : Char) = d).symm]
      rfl)
  rw [anchSub_skipA hruleM_anch hxnl hMnl hynl hA.1 hhrM hY.1]
  rw [anchSub_skipA numNNM_anch hxnl hMnl hynl hA.2.1 hnnM hY.2.1]
  rw [anchSub_skipA numDotM_anch hxnl hMnl hynl hA.2.2.1 hndM hY.2.2.1]
  rw [anchSub_fireA dotNumM_anch hxnl hMnl (by decide) hynl hA.2.2.2.1
    hfire hY.2.2.2.1]
  rw [anchSub_skipB bulletM_anch hxnl hynl hB.2.2.2.2.1 hNL.2.2.2.2.1
    hY.2.2.2.2.1]
  rw [anchSub_skipB secNNM_anch hxnl hynl hB.2.2.2.2.2.1 hNL.2.2.2.2.2.1
    hY.2.2.2.2.2.1]
  rw [anchSub_skipB secNM_anch hxnl hynl hB.2.2.2.2.2.2.1
    hNL.2.2.2.2.2.2.1 hY.2.2.2.2.2.2.1]
  rw [anchSub_skipB chapterM_anch hxnl hynl hB.2.2.2.2.2.2.2
    hNL.2.2.2.2.2.2.2 hY.2.2.2.2.2.2.2]

theorem processLines_sep {x y : List Char} (hx0 : x ≠ []) (hy0 : y ≠ [])
    (hstx : pystrip x = x) (hfx : fixLine x = x)
    (hchx : chapterLineMatch x = none) (hhdx : isHeaderLine x = false)
    (hkmx : x ≠ kmWord)
    (hsty : pystrip y = y) (hfy : fixLine y = y)
    (hchy : chapterLineMatch y = none) (hhdy : isHeaderLine y = false)
    (hkmy : y ≠ kmWord) :
    processLines [] [] [x, [], y] = [x, y] := by
  unfold processLines
  rw [hstx]
  simp only [isEmpty_false_of_ne hx0, Bool.false_eq_true, if_false, hfx,
    hchx, hhdx, if_neg hkmx]
  unfold processLines
  simp only [pystrip, List.dropWhile_nil, List.reverse_nil,
    List.isEmpty_nil, if_true, List.nil_append, List.isEmpty_cons,
    Bool.false_eq_true, if_false]
  unfold processLines
  rw [hsty]
  simp only [isEmpty_false_of_ne hy0, Bool.false_eq_true, if_false, hfy,
    hchy, hhdy, if_neg hkmy]
  unfold processLines
  simp only [List.nil_append, List.isEmpty_cons, Bool.false_eq_true,
    if_false]
  rw [joinSp, joinSp, intercalate_single, intercalate_single]
  rfl

theorem joinBlocks_pair {x y : List Char} (hx0 : x ≠ []) (hy0 : y ≠ [])
    (hstx : pystrip x = x) (hsty : pystrip y = y) :
    joinBlocks [x, y] = x ++ '\n' :: '\n' :: y := by
  unfold joinBlocks
  rw [List.filter_cons, List.filter_cons, hstx, hsty]
  simp only [isEmpty_false_of_ne hx0, isEmpty_false_of_ne hy0,
    Bool.not_false, if_true, List.filter_nil]
  rw [intercalate_pair]
  simp

theorem nl3M_none_of_short_run {f : Bool} {y : List Char}
    (hy : ∀ c ∈ y, c ≠ '\n') : nl3M f ('\n' :: '\n' :: y) = none := by
  apply nl3M_short
  rw [nlrun_cons, nlrun_cons]
  have h0 : (y.takeWhile (fun x => x == '\n')).length = 0 := by
    cases hx : y with
    | nil => rfl
    | cons d r2 =>
      have hd : d ≠ '\n' := hy d (by rw [hx]; exact List.mem_cons_self d r2)
      rw [List.takeWhile_cons, if_neg (by simpa using hd)]
      rfl
  omega

theorem nl3M_none_one_nl {f : Bool} {y : List Char}
    (hy : ∀ c ∈ y, c ≠ '\n') : nl3M f ('\n' :: y) = none := by
  apply nl3M_short
  rw [nlrun_cons]
  have h0 : (y.takeWhile (fun x => x == '\n')).length = 0 := by
    cases hx : y with
    | nil => rfl
    | cons d r2 =>
      have hd : d ≠ '\n' := hy d (by rw [hx]; exact List.mem_cons_self d r2)
      rw [List.takeWhile_cons, if_neg (by simpa using hd)]
      rfl
  omega

theorem collapseNl_sep_id {x y : List Char} (hxnl : ∀ c ∈ x, c ≠ '\n')
    (hynl : ∀ c ∈ y, c ≠ '\n') :
    collapseNl (x ++ '\n' :: '\n' :: y) = x ++ '\n' :: '\n' :: y := by
  apply reSubFuel_id_of_none
  intro f t ht
  rcases suffix_append_cases ht with h | ⟨x2, hx2, hteq⟩
  · rcases List.suffix_cons_iff.mp h with h1 | h2
    · rw [h1]
      exact nl3M_none_of_short_run hynl
    · rcases List.suffix_cons_iff.mp h2 with h3 | h4
      · rw [h3]
        exact nl3M_none_one_nl hynl
      · match t, h4 with
        | [], _ => rfl
        | c :: t2, h4 =>
          exact nl3M_none (by
            simpa using hynl c
              (h4.subset (List.mem_cons_self c t2)))
  · subst hteq
    match x2, hx2 with
    | [], _ => exact nl3M_none_of_short_run hynl
    | c :: x3, hx2 =>
      exact nl3M_none (by
        simpa using hxnl c (hx2.subset (List.mem_cons_self c x3)))

theorem proseChar_ne_nl {c : Char} (h : proseChar c = true) : c ≠ '\n' := by
  rintro rfl
  exact absurd h (by decide)

theorem post_sep {x y : List Char} (hx : lineIsProse x = true)
    (hx0 : x ≠ []) (hy : lineIsProse y = true) (hy0 : y ≠ []) :
    pystrip (collapseSp (collapseNl (joinBlocks (processLines [] []
      (splitNl (x ++ '\n' :: '\n' :: y)))))) = x ++ '\n' :: '\n' :: y := by
  obtain ⟨hpx, hndx, hhx, hlx⟩ := lineIsProse_facts hx
  obtain ⟨hpy, hndy, hhy, hly⟩ := lineIsProse_facts hy
  have hxnl : ∀ c ∈ x, c ≠ '\n' := fun c hc => proseChar_ne_nl (hpx c hc)
  have hynl : ∀ c ∈ y, c ≠ '\n' := fun c hc => proseChar_ne_nl (hpy c hc)
  have hstx : pystrip x = x :=
    pystrip_id (fun c hc => isLower_not_ws (hhx c hc))
      (fun c hc => isLower_not_ws (hlx c hc))
  have hsty : pystrip y = y :=
    pystrip_id (fun c hc => isLower_not_ws (hhy c hc))
      (fun c hc => isLower_not_ws (hly c hc))
  have hsplit : splitNl (x ++ '\n' :: '\n' :: y) = [x, [], y] := by
    rw [splitNl_append hxnl]
    show x :: splitNl ('\n' :: y) = [x, [], y]
    rw [show splitNl ('\n' :: y) = [] :: splitNl y from by simp [splitNl]]
    rw [splitNl_single hynl]
  rw [hsplit]
  rw [processLines_sep hx0 hy0 hstx
    (fixLine_prose_id hpx hhx) (chapterLineMatch_prose hhx)
    (isHeaderLine_prose hhx) (prose_ne_km hpx)
    hsty (fixLine_prose_id hpy hhy) (chapterLineMatch_prose hhy)
    (isHeaderLine_prose hhy) (prose_ne_km hpy)]
  rw [joinBlocks_pair hx0 hy0 hstx hsty]
  rw [collapseNl_sep_id hxnl hynl]
  have hnd : noDoubleSpace (x ++ '\n' :: '\n' :: y) = true := by
    show goodPairs (fun a b => !(a == ' ' && b == ' '))
      (x ++ '\n' :: '\n' :: y) = true
    apply goodPairs_glue hndx
    · apply goodPairs_cons
      · apply goodPairs_cons hndy
        intro b hb
        simp
      · intro b hb
        simp
    · intro a b ha hb
      simp only [List.head?_cons, Option.some.injEq] at hb
      subst hb
      simp
  rw [collapseSp_id hnd]
  apply pystrip_id
  · intro c hc
    cases hxe : x with
    | nil => exact absurd hxe hx0
    | cons a t =>
      rw [hxe] at hc
      simp only [List.cons_append, List.head?_cons, Option.some.injEq] at hc
      exact hc ▸ isLower_not_ws (hhx a (by rw [hxe]; rfl))
  · intro c hc
    rw [show x ++ '\n' :: '\n' :: y = (x ++ ['\n', '\n']) ++ y from by simp] at hc
    rw [List.getLast?_append_of_ne_nil (x ++ ['\n', '\n']) hy0] at hc
    exact isLower_not_ws (hly c hc)

theorem clean_mk (l : List Char) :
    clean_markdown_text (String.mk l) = String.mk (cleanList l) := rfl

/-- C10: a line consisting solely of a horizontal rule `---` or a
standalone number (forms `N.N`, `N.`, `.N`, represented by `1.2`, `3.`,
`.7`) between two non-blank prose lines acts as a paragraph boundary:
stage 1 blanks that line, stage 2 flushes the paragraph there, and the
surrounding text is emitted as two blocks separated by a blank line,
never joined into one paragraph. -/
theorem c10_separator_line_splits_paragraphs {x y : List Char}
    (hx : lineIsProse x = true) (hx0 : x ≠ [])
    (hy : lineIsProse y = true) (hy0 : y ≠ []) :
    clean_markdown_text
      (String.mk (x ++ '\n' :: (['-', '-', '-'] ++ '\n' :: y))) =
      String.mk (x ++ '\n' :: '\n' :: y) ∧
    clean_markdown_text
      (String.mk (x ++ '\n' :: (['1', '.', '2'] ++ '\n' :: y))) =
      String.mk (x ++ '\n' :: '\n' :: y) ∧
    clean_markdown_text
      (String.mk (x ++ '\n' :: (['3', '.'] ++ '\n' :: y))) =
      String.mk (x ++ '\n' :: '\n' :: y) ∧
    clean_markdown_text
      (String.mk (x ++ '\n' :: (['.', '7'] ++ '\n' :: y))) =
      String.mk (x ++ '\n' :: '\n' :: y) := by
  refine ⟨?_, ?_, ?_, ?_⟩
  · rw [clean_mk, cleanList_eq, stage1_sep_hrule hx hx0 hy hy0,
      post_sep hx hx0 hy hy0]
  · rw [clean_mk, cleanList_eq, stage1_sep_numNN hx hx0 hy hy0,
      post_sep hx hx0 hy hy0]
  · rw [clean_mk, cleanList_eq, stage1_sep_numDot hx hx0 hy hy0,
      post_sep hx hx0 hy hy0]
  · rw [clean_mk, cleanList_eq, stage1_sep_dotNum hx hx0 hy hy0,
      post_sep hx hx0 hy hy0]

theorem c10_separator_witness :
    lineIsProse ['h', 'e', 'l', 'l', 'o'] = true ∧
    ['h', 'e', 'l', 'l', 'o'] ≠ [] ∧
    lineIsProse ['w', 'o', 'r', 'l', 'd'] = true ∧
    ['w', 'o', 'r', 'l', 'd'] ≠ [] ∧
    clean_markdown_text (String.mk (['h', 'e', 'l', 'l', 'o'] ++
      '\n' :: (['-', '-', '-'] ++ '\n' :: ['w', 'o', 'r', 'l', 'd']))) =
      String.mk (['h', 'e', 'l', 'l', 'o'] ++
        '\n' :: '\n' :: ['w', 'o', 'r', 'l', 'd']) :=
  ⟨by decide, by decide, by decide, by decide,
    (@c10_separator_line_splits_paragraphs
      ['h', 'e', 'l', 'l', 'o'] ['w', 'o', 'r', 'l', 'd']
      (by decide) (by decide) (by decide) (by decide)).1⟩

/-! ### C5: blocks of the final output -/

theorem intercalate_cons_two (sep x y : List Char) (l : List (List Char)) :
    List.intercalate sep (x :: y :: l) =
      x ++ sep ++ List.intercalate sep (y :: l) := by
  simp [List.intercalate, List.intersperse]

theorem head_append_ne {l1 : List Char} (l2 : List Char) {c : Char}
    (h : l1.head? = some c) : (l1 ++ l2).head? = some c := by
  cases l1 with
  | nil => simp at h
  | cons a t => simpa using h

theorem dropWhile_append_ne {p : Char → Bool} :
    ∀ {a : List Char} (b : List Char), a.dropWhile p ≠ [] →
    (a ++ b).dropWhile p = a.dropWhile p ++ b := by
  intro a
  induction a with
  | nil => intro b h; exact absurd rfl h
  | cons c a ih =>
    intro b h
    by_cases hc : p c = true
    · rw [List.dropWhile_cons_of_pos hc] at h ⊢
      rw [List.cons_append, List.dropWhile_cons_of_pos hc]
      exact ih b h
    · rw [List.dropWhile_cons_of_neg (by simpa using hc)]
      rw [List.cons_append, List.dropWhile_cons_of_neg (by simpa using hc)]

theorem dropWhile_head_not {p : Char → Bool} :
    ∀ {s t : List Char} {c : Char}, s.dropWhile p = c :: t → p c = false := by
  intro s
  induction s with
  | nil => intro t c h; simp at h
  | cons a s ih =>
    intro t c h
    by_cases ha : p a = true
    · rw [List.dropWhile_cons_of_pos ha] at h
      exact ih h
    · rw [List.dropWhile_cons_of_neg (by simpa using ha)] at h
      injection h with h1 _
      subst h1
      simpa using ha

theorem mem_dropWhile_of_not {p : Char → Bool} {s : List Char} {c : Char}
    (hc : c ∈ s) (hp : p c = false) : c ∈ s.dropWhile p := by
  rw [← @List.takeWhile_append_dropWhile _ p s] at hc
  rcases List.mem_append.mp hc with h | h
  · exact absurd (List.mem_takeWhile_imp h) (by simp [hp])
  · exact h

/-- Python `str.lstrip()`. -/
def lstripWs (s : List Char) : List Char := s.dropWhile isPyWs

/-- Python `str.rstrip()`. -/
def rstripWs (s : List Char) : List Char :=
  (s.reverse.dropWhile isPyWs).reverse

theorem pystrip_eq_lr (s : List Char) :
    pystrip s = rstripWs (lstripWs s) := rfl

theorem lstripWs_subset {s : List Char} {c : Char} (h : c ∈ lstripWs s) :
    c ∈ s := (List.dropWhile_suffix isPyWs).subset h

theorem rstripWs_subset {s : List Char} {c : Char} (h : c ∈ rstripWs s) :
    c ∈ s := by
  rw [rstripWs, List.mem_reverse] at h
  simpa using (List.dropWhile_suffix isPyWs).subset h

theorem pystrip_subset {s : List Char} {c : Char} (h : c ∈ pystrip s) :
    c ∈ s := lstripWs_subset (rstripWs_subset h)

theorem mem_lstripWs {s : List Char} {c : Char} (hc : c ∈ s)
    (hw : isPyWs c = false) : c ∈ lstripWs s :=
  mem_dropWhile_of_not hc hw

theorem mem_rstripWs {s : List Char} {c : Char} (hc : c ∈ s)
    (hw : isPyWs c = false) : c ∈ rstripWs s := by
  rw [rstripWs, List.mem_reverse]
  exact mem_dropWhile_of_not (by simpa using hc) hw

theorem mem_pystrip {s : List Char} {c : Char} (hc : c ∈ s)
    (hw : isPyWs c = false) : c ∈ pystrip s :=
  mem_rstripWs (mem_lstripWs hc hw) hw

theorem pystrip_ne_nil_of_mem {s : List Char} {c : Char} (hc : c ∈ s)
    (hw : isPyWs c = false) : pystrip s ≠ [] :=
  List.ne_nil_of_mem (mem_pystrip hc hw)

theorem pystrip_ne_nil_ex {s : List Char} (h : pystrip s ≠ []) :
    ∃ c ∈ s, isPyWs c = false := by
  cases hd : s.dropWhile isPyWs with
  | nil =>
    exact absurd (by rw [pystrip, hd]; rfl) h
  | cons c t =>
    refine ⟨c, ?_, dropWhile_head_not hd⟩
    exact (List.dropWhile_suffix isPyWs).subset (hd ▸ List.mem_cons_self c t)

/-- Prepend a character to the first block of a block list. -/
def consB (c : Char) : List (List Char) → List (List Char)
  | [] => [[c]]
  | b :: bs => (c :: b) :: bs

/-- Scan a string into its maximal segments delimited by the blank-line
separator `"\n\n"` (leftmost pairing). -/
def split2B : List Char → List (List Char)
  | [] => [[]]
  | [c] => [[c]]
  | c :: d :: rest =>
    if c = '\n' ∧ d = '\n' then [] :: split2B rest
    else consB c (split2B (d :: rest))

/-- The blocks of a string: empty string has no blocks, otherwise the
`"\n\n"`-delimited segments. -/
def split2NL (s : List Char) : List (List Char) :=
  if s.isEmpty then [] else split2B s

theorem split2B_cons_cons (c d : Char) (rest : List Char) :
    split2B (c :: d :: rest) =
      if c = '\n' ∧ d = '\n' then [] :: split2B rest
      else consB c (split2B (d :: rest)) := rfl

theorem split2B_single :
    ∀ {b : List Char}, (∀ c ∈ b, c ≠ '\n') → split2B b = [b] := by
  intro b
  induction b with
  | nil => intro _; rfl
  | cons c rest ih =>
    intro h
    have hc : c ≠ '\n' := h c (List.mem_cons_self c rest)
    match rest with
    | [] => rfl
    | d :: rest2 =>
      rw [split2B_cons_cons, if_neg (by simp [hc]),
        ih (fun e he => h e (List.mem_cons_of_mem c he))]
      rfl

theorem split2B_append {r : List Char} :
    ∀ {b : List Char}, (∀ c ∈ b, c ≠ '\n') →
      split2B (b ++ '\n' :: '\n' :: r) = b :: split2B r := by
  intro b
  induction b with
  | nil => intro _; rw [List.nil_append, split2B, if_pos ⟨rfl, rfl⟩]
  | cons c b2 ih =>
    intro h
    have hc : c ≠ '\n' := h c (List.mem_cons_self c b2)
    have hrec := ih (fun e he => h e (List.mem_cons_of_mem c he))
    match b2 with
    | [] =>
      rw [List.cons_append, List.nil_append, split2B_cons_cons,
        if_neg (by simp [hc])]
      rw [List.nil_append] at hrec
      rw [hrec]
      rfl
    | d :: b3 =>
      simp only [List.cons_append]
      rw [split2B_cons_cons, if_neg (by simp [hc])]
      simp only [List.cons_append] at hrec
      rw [hrec]
      rfl

theorem split2B_intercalate :
    ∀ (cs : List (List Char)), cs ≠ [] →
      (∀ b ∈ cs, ∀ c ∈ b, c ≠ '\n') →
      split2B (List.intercalate ['\n', '\n'] cs) = cs := by
  intro cs
  induction cs with
  | nil => intro h _; exact absurd rfl h
  | cons c1 cs2 ih =>
    intro _ hb
    match cs2 with
    | [] =>
      rw [intercalate_single]
      exact split2B_single (hb c1 (by simp))
    | c2 :: cs3 =>
      rw [intercalate_cons_two, List.append_assoc,
        show (['\n', '\n'] : List Char) ++
          List.intercalate ['\n', '\n'] (c2 :: cs3) =
          '\n' :: '\n' :: List.intercalate ['\n', '\n'] (c2 :: cs3) from rfl,
        split2B_append (hb c1 (by simp)),
        ih (by simp) (fun b hb2 => hb b (List.mem_cons_of_mem c1 hb2))]

theorem reSubFuel_nlFree
    {m : Bool → List Char → Option (Nat × List Char)}
    (hm : ∀ (f : Bool) (t : List Char) (n : Nat) (repl : List Char),
      (∀ c ∈ t, c ≠ '\n') → m f t = some (n, repl) →
      ∀ c ∈ repl, c ≠ '\n') :
    ∀ (fuel : Nat) (f : Bool) (s : List Char), (∀ c ∈ s, c ≠ '\n') →
      ∀ c ∈ reSubFuel m fuel f s, c ≠ '\n' := by
  intro fuel
  induction fuel with
  | zero => intro f s hs; exact hs
  | succ fuel ih =>
    intro f s hs
    match s with
    | [] => rw [reSubFuel_nil]; exact hs
    | a :: rest =>
      have hrest : ∀ c ∈ rest, c ≠ '\n' :=
        fun c hc => hs c (List.mem_cons_of_mem a hc)
      cases hm2 : m f (a :: rest) with
      | none =>
        rw [reSubFuel_cons_none fuel hm2]
        intro c hc
        rcases List.mem_cons.mp hc with h | h
        · exact h ▸ hs a (List.mem_cons_self a rest)
        · exact ih _ rest hrest c h
      | some pr =>
        obtain ⟨n, repl⟩ := pr
        by_cases hn : n = 0
        · subst hn
          rw [show reSubFuel m (fuel + 1) f (a :: rest) =
              a :: reSubFuel m fuel (a == '\n') rest from by
            simp [reSubFuel, hm2]]
          intro c hc
          rcases List.mem_cons.mp hc with h | h
          · exact h ▸ hs a (List.mem_cons_self a rest)
          · exact ih _ rest hrest c h
        · rw [reSubFuel_cons_some fuel hm2 hn]
          intro c hc
          rcases List.mem_append.mp hc with h | h
          · exact hm f (a :: rest) n repl hs hm2 c h
          · exact ih _ _ (fun d hd => hs d (List.mem_of_mem_drop hd)) c h

theorem toM_nlFree {f : Bool} {t : List Char} {n : Nat} {repl : List Char}
    (ht : ∀ c ∈ t, c ≠ '\n') (hm : toM f t = some (n, repl)) :
    ∀ c ∈ repl, c ≠ '\n' := by
  unfold toM at hm
  split at hm
  · split at hm
    · rename_i a b tail h
      simp only [Option.some.injEq, Prod.mk.injEq] at hm
      obtain ⟨_, hrepl⟩ := hm
      subst hrepl
      intro c hc
      simp only [List.mem_cons, List.not_mem_nil, or_false] at hc
      rcases hc with rfl | rfl | rfl | rfl | rfl | rfl
      · exact ht c (by simp)
      · decide
      · decide
      · decide
      · decide
      · exact ht c (by simp)
    · exact absurd hm (by simp)
  · exact absurd hm (by simp)

theorem spaceM_nlFree {f : Bool} {t : List Char} {n : Nat} {repl : List Char}
    (ht : ∀ c ∈ t, c ≠ '\n') (hm : spaceM f t = some (n, repl)) :
    ∀ c ∈ repl, c ≠ '\n' := by
  unfold spaceM at hm
  split at hm
  · split at hm
    · rename_i a b tail h
      simp only [Option.some.injEq, Prod.mk.injEq] at hm
      obtain ⟨_, hrepl⟩ := hm
      subst hrepl
      intro c hc
      simp only [List.mem_cons, List.not_mem_nil, or_false] at hc
      rcases hc with rfl | rfl | rfl
      · exact ht c (by simp)
      · decide
      · exact ht c (by simp)
    · exact absurd hm (by simp)
  · exact absurd hm (by simp)

theorem acro2M_nlFree {f : Bool} {t : List Char} {n : Nat}
    {repl : List Char} (ht : ∀ c ∈ t, c ≠ '\n')
    (hm : acro2M f t = some (n, repl)) : ∀ c ∈ repl, c ≠ '\n' := by
  unfold acro2M at hm
  split at hm
  · rename_i a rest
    split at hm
    · dsimp only at hm
      split at hm
      · exact absurd hm (by simp)
      · split at hm
        · rename_i b tail heq
          split at hm
          · simp only [Option.some.injEq, Prod.mk.injEq] at hm
            obtain ⟨_, hrepl⟩ := hm
            subst hrepl
            intro c hc
            simp only [List.mem_cons, List.not_mem_nil, or_false] at hc
            rcases hc with rfl | rfl
            · exact ht c (by simp)
            · refine ht c (List.mem_cons_of_mem a ?_)
              exact List.mem_of_mem_drop (heq ▸ List.mem_cons_self c tail)
          · exact absurd hm (by simp)
        · exact absurd hm (by simp)
    · exact absurd hm (by simp)
  · exact absurd hm (by simp)

theorem acro3M_nlFree {f : Bool} {t : List Char} {n : Nat}
    {repl : List Char} (ht : ∀ c ∈ t, c ≠ '\n')
    (hm : acro3M f t = some (n, repl)) : ∀ c ∈ repl, c ≠ '\n' := by
  unfold acro3M at hm
  split at hm
  · rename_i a rest
    split at hm
    · dsimp only at hm
      split at hm
      · exact absurd hm (by simp)
      · split at hm
        · rename_i b rest2 heq
          split at hm
          · split at hm
            · exact absurd hm (by simp)
            · split at hm
              · rename_i c2 tail2 heq2
                split at hm
                · simp only [Option.some.injEq, Prod.mk.injEq] at hm
                  obtain ⟨_, hrepl⟩ := hm
                  subst hrepl
                  intro c hc
                  simp only [List.mem_cons, List.not_mem_nil, or_false] at hc
                  rcases hc with rfl | rfl | rfl
                  · exact ht c (by simp)
                  · refine ht c (List.mem_cons_of_mem a ?_)
                    exact List.mem_of_mem_drop
                      (heq ▸ List.mem_cons_self c rest2)
                  · refine ht c (List.mem_cons_of_mem a ?_)
                    refine List.mem_of_mem_drop
                      (heq ▸ List.mem_cons_of_mem b ?_)
                    exact List.mem_of_mem_drop
                      (heq2 ▸ List.mem_cons_self c tail2)
                · exact absurd hm (by simp)
              · exact absurd hm (by simp)
          · exact absurd hm (by simp)
        · exact absurd hm (by simp)
    · exact absurd hm (by simp)
  · exact absurd hm (by simp)

theorem camelFix_nlFree : ∀ (l : List Char), (∀ c ∈ l, c ≠ '\n') →
    ∀ c ∈ camelFix l, c ≠ '\n'
  | [], h => by simp [camelFix]
  | [a], h => by simpa [camelFix] using h
  | [a, b], h => by simpa [camelFix] using h
  | a :: b :: c2 :: rest, h => by
    have hrec := camelFix_nlFree (b :: c2 :: rest)
      (fun d hd => h d (List.mem_cons_of_mem a hd))
    simp only [camelFix]
    split
    · intro d hd
      rcases List.mem_cons.mp hd with rfl | hd2
      · exact h d (by simp)
      · rcases List.mem_cons.mp hd2 with rfl | hd3
        · decide
        · exact hrec d hd3
    · intro d hd
      rcases List.mem_cons.mp hd with rfl | hd2
      · exact h d (by simp)
      · exact hrec d hd2

theorem stripNumNN_subset {s : List Char} {c : Char}
    (hc : c ∈ stripNumNN s) : c ∈ s := by
  unfold stripNumNN at hc
  dsimp only at hc
  split at hc
  · exact hc
  · split at hc
    · rename_i s2 heq
      split at hc
      · exact hc
      · split at hc
        · exact hc
        · have m1 : c ∈ ('.' :: s2) :=
            List.mem_cons_of_mem '.'
              (List.mem_of_mem_drop (List.mem_of_mem_drop hc))
          rw [← heq] at m1
          exact List.mem_of_mem_drop (List.mem_of_mem_drop m1)
    · exact hc

theorem stripNumDot_subset {s : List Char} {c : Char}
    (hc : c ∈ stripNumDot s) : c ∈ s := by
  unfold stripNumDot at hc
  dsimp only at hc
  split at hc
  · exact hc
  · split at hc
    · rename_i s2 heq
      split at hc
      · exact hc
      · have m1 : c ∈ ('.' :: s2) :=
          List.mem_cons_of_mem '.' (List.mem_of_mem_drop hc)
        rw [← heq] at m1
        exact List.mem_of_mem_drop (List.mem_of_mem_drop m1)
    · exact hc

theorem stripDotNum_subset {s : List Char} {c : Char}
    (hc : c ∈ stripDotNum s) : c ∈ s := by
  unfold stripDotNum at hc
  dsimp only at hc
  split at hc
  · rename_i s1 heq
    split at hc
    · exact hc
    · split at hc
      · exact hc
      · have m1 : c ∈ ('.' :: s1) :=
          List.mem_cons_of_mem '.'
            (List.mem_of_mem_drop (List.mem_of_mem_drop hc))
        rw [← heq] at m1
        exact List.mem_of_mem_drop m1
  · exact hc

theorem stripBullet_subset {s : List Char} {c : Char}
    (hc : c ∈ stripBullet s) : c ∈ s := by
  unfold stripBullet at hc
  dsimp only at hc
  split at hc
  · rename_i s1 heq
    split at hc
    · exact hc
    · have m1 : c ∈ ('-' :: s1) :=
        List.mem_cons_of_mem '-' (List.mem_of_mem_drop hc)
      rw [← heq] at m1
      exact List.mem_of_mem_drop m1
  · exact hc

theorem fixLine_nlFree {l : List Char} (h : ∀ c ∈ l, c ≠ '\n') :
    ∀ c ∈ fixLine l, c ≠ '\n' := by
  have h1 := camelFix_nlFree l h
  have h2 : ∀ c ∈ toFix (camelFix l), c ≠ '\n' :=
    reSubFuel_nlFree (fun f t n repl ht hm => toM_nlFree ht hm) _ _ _ h1
  have h3 : ∀ c ∈ spaceFix (toFix (camelFix l)), c ≠ '\n' :=
    reSubFuel_nlFree (fun f t n repl ht hm => spaceM_nlFree ht hm) _ _ _ h2
  have h4 : ∀ c ∈ reSub acro3M (spaceFix (toFix (camelFix l))), c ≠ '\n' :=
    reSubFuel_nlFree (fun f t n repl ht hm => acro3M_nlFree ht hm) _ _ _ h3
  have h5 : ∀ c ∈ reSub acro2M (reSub acro3M (spaceFix (toFix (camelFix l)))),
      c ≠ '\n' :=
    reSubFuel_nlFree (fun f t n repl ht hm => acro2M_nlFree ht hm) _ _ _ h4
  intro c hc
  exact h5 c (stripNumNN_subset (stripNumDot_subset (stripDotNum_subset
    (stripBullet_subset hc))))

theorem splitNl_cons (c : Char) (rest : List Char) :
    splitNl (c :: rest) =
      if c = '\n' then [] :: splitNl rest
      else
        match splitNl rest with
        | l :: ls => (c :: l) :: ls
        | [] => [[c]] := rfl

theorem splitNl_nlFree :
    ∀ (s : List Char), ∀ l ∈ splitNl s, ∀ c ∈ l, c ≠ '\n' := by
  intro s
  induction s with
  | nil =>
    intro l hl
    simp only [splitNl, List.mem_singleton] at hl
    subst hl
    intro c hc
    simp at hc
  | cons a rest ih =>
    intro l hl
    rw [splitNl_cons] at hl
    by_cases ha : a = '\n'
    · rw [if_pos ha] at hl
      rcases List.mem_cons.mp hl with rfl | h2
      · intro c hc; simp at hc
      · exact ih l h2
    · rw [if_neg ha] at hl
      cases hsp : splitNl rest with
      | nil =>
        rw [hsp] at hl
        simp only [List.mem_singleton] at hl
        subst hl
        intro c hc
        simp only [List.mem_singleton] at hc
        subst hc
        exact ha
      | cons l0 ls =>
        rw [hsp] at hl
        rcases List.mem_cons.mp hl with rfl | h2
        · intro c hc
          rcases List.mem_cons.mp hc with rfl | h3
          · exact ha
          · exact ih l0 (hsp ▸ List.mem_cons_self l0 ls) c h3
        · exact ih l (hsp ▸ List.mem_cons_of_mem l0 h2)

theorem joinSp_nlFree :
    ∀ (para : List (List Char)),
      (∀ b ∈ para, ∀ c ∈ b, c ≠ '\n') →
      ∀ c ∈ joinSp para, c ≠ '\n' := by
  intro para
  induction para with
  | nil =>
    intro _ c hc
    simp [joinSp, List.intercalate] at hc
  | cons b1 rest ih =>
    intro h c hc
    match rest with
    | [] =>
      rw [joinSp, intercalate_single] at hc
      exact h b1 (by simp) c hc
    | b2 :: rest2 =>
      rw [joinSp, intercalate_cons_two] at hc
      rcases List.mem_append.mp hc with h1 | h1
      · rcases List.mem_append.mp h1 with h2 | h2
        · exact h b1 (by simp) c h2
        · simp only [List.mem_singleton] at h2
          subst h2
          decide
      · exact ih (fun b hb => h b (List.mem_cons_of_mem b1 hb)) c h1


theorem chapterText_nlFree {l ds t : List Char}
    (hl : ∀ c ∈ l, c ≠ '\n') (hm : chapterLineMatch l = some (ds, t)) :
    ∀ c ∈ chapterText ds t, c ≠ '\n' := by
  have hdst : (∀ c ∈ ds, c ≠ '\n') ∧ (∀ c ∈ t, c ≠ '\n') := by
    unfold chapterLineMatch at hm
    dsimp only at hm
    split at hm
    · split at hm
      · exact absurd hm (by simp)
      · split at hm
        · exact absurd hm (by simp)
        · split at hm
          · rename_i s4 heq4
            split at hm
            · simp only [Option.some.injEq, Prod.mk.injEq] at hm
              obtain ⟨hds, hts⟩ := hm
              constructor
              · intro c hc
                rw [← hds] at hc
                exact hl c (List.mem_of_mem_drop (List.mem_of_mem_drop
                  (List.mem_of_mem_take hc)))
              · intro c hc
                rw [← hts] at hc
                have m1 : c ∈ (':' :: s4) :=
                  List.mem_cons_of_mem ':' (List.mem_of_mem_drop hc)
                rw [← heq4] at m1
                exact hl c (List.mem_of_mem_drop (List.mem_of_mem_drop
                  (List.mem_of_mem_drop m1)))
            · split at hm
              · exact absurd hm (by simp)
              · split at hm
                · exact absurd hm (by simp)
                · rename_i hnl
                  simp only [Option.some.injEq, Prod.mk.injEq] at hm
                  obtain ⟨hds, hts⟩ := hm
                  constructor
                  · intro c hc
                    rw [← hds] at hc
                    exact hl c (List.mem_of_mem_drop (List.mem_of_mem_drop
                      (List.mem_of_mem_take hc)))
                  · intro c hc
                    rw [← hts] at hc
                    simp only [List.mem_singleton] at hc
                    subst hc
                    exact hnl
          · exact absurd hm (by simp)
    · exact absurd hm (by simp)
  obtain ⟨hds, hts⟩ := hdst
  intro c hc
  simp only [chapterText] at hc
  rcases List.mem_append.mp hc with h | h
  swap
  · exact hts c h
  rcases List.mem_append.mp h with h | h
  swap
  · exact (by decide : ∀ x ∈ [':', ' '], x ≠ '\n') c h
  rcases List.mem_append.mp h with h | h
  swap
  · exact hds c h
  rcases List.mem_append.mp h with h | h
  · exact (by decide : ∀ x ∈ chapterWord, x ≠ '\n') c h
  · exact (by decide : ∀ x ∈ [' '], x ≠ '\n') c h

theorem nlFree_append {A B : List (List Char)}
    (hA : ∀ b ∈ A, ∀ c ∈ b, c ≠ '\n')
    (hB : ∀ b ∈ B, ∀ c ∈ b, c ≠ '\n') :
    ∀ b ∈ A ++ B, ∀ c ∈ b, c ≠ '\n' := by
  intro b hb
  rcases List.mem_append.mp hb with h | h
  · exact hA b h
  · exact hB b h

theorem nlFree_single {x : List Char} (hx : ∀ c ∈ x, c ≠ '\n') :
    ∀ b ∈ [x], ∀ c ∈ b, c ≠ '\n' := by
  intro b hb
  simp only [List.mem_singleton] at hb
  subst hb
  exact hx

theorem nlFree_if {cond : Prop} [Decidable cond] {A B : List (List Char)}
    (hA : ∀ b ∈ A, ∀ c ∈ b, c ≠ '\n')
    (hB : ∀ b ∈ B, ∀ c ∈ b, c ≠ '\n') :
    ∀ b ∈ (if cond then A else B), ∀ c ∈ b, c ≠ '\n' := by
  split
  · exact hA
  · exact hB

theorem processLines_nlFree :
    ∀ (ls acc para : List (List Char)),
      (∀ b ∈ acc, ∀ c ∈ b, c ≠ '\n') →
      (∀ b ∈ para, ∀ c ∈ b, c ≠ '\n') →
      (∀ l ∈ ls, ∀ c ∈ l, c ≠ '\n') →
      ∀ b ∈ processLines acc para ls, ∀ c ∈ b, c ≠ '\n' := by
  have hnilL : ∀ b ∈ ([] : List (List Char)), ∀ c ∈ b, c ≠ '\n' := by
    intro b hb
    simp at hb
  have hblankL : ∀ b ∈ [([] : List Char)], ∀ c ∈ b, c ≠ '\n' :=
    nlFree_single (by intro c hc; simp at hc)
  intro ls
  induction ls with
  | nil =>
    intro acc para hacc hpara _
    unfold processLines
    exact nlFree_append hacc (nlFree_if hnilL (nlFree_single
      (joinSp_nlFree para hpara)))
  | cons l ls ih =>
    intro acc para hacc hpara hls
    have hl : ∀ c ∈ l, c ≠ '\n' := hls l (by simp)
    have hls2 : ∀ l2 ∈ ls, ∀ c ∈ l2, c ≠ '\n' :=
      fun l2 h2 => hls l2 (List.mem_cons_of_mem l h2)
    have hl1 : ∀ c ∈ pystrip l, c ≠ '\n' :=
      fun c hc => hl c (pystrip_subset hc)
    have hl2 : ∀ c ∈ fixLine (pystrip l), c ≠ '\n' := fixLine_nlFree hl1
    have hflush : ∀ b ∈ (if para.isEmpty = true then ([] : List (List Char))
        else [joinSp para]), ∀ c ∈ b, c ≠ '\n' :=
      nlFree_if hnilL (nlFree_single (joinSp_nlFree para hpara))
    have hacc1 := nlFree_append hacc hflush
    unfold processLines
    dsimp only
    split
    · exact ih _ _ hacc1 hnilL hls2
    · split
      · exact ih _ _ hacc hpara hls2
      · split
        · rename_i ds t heq
          exact ih _ _ (nlFree_append (nlFree_append
              (nlFree_append hacc1 (nlFree_if hnilL hblankL))
              (nlFree_single (chapterText_nlFree hl2 heq))) hblankL)
            hnilL hls2
        · split
          · exact ih _ _ (nlFree_append (nlFree_append
                (nlFree_append hacc1 (nlFree_if hblankL hnilL))
                (nlFree_single hl2)) hblankL)
              hnilL hls2
          · split
            · exact ih _ _ (nlFree_append (nlFree_append
                  (nlFree_append hacc1 (nlFree_if hblankL hnilL))
                  (nlFree_single hl2)) hblankL)
                hnilL hls2
            · exact ih _ _ hacc (nlFree_append hpara (nlFree_single hl2))
                hls2

theorem nl3M_none_two_head {f : Bool} {y : List Char}
    (hy : y.head? ≠ some '\n') : nl3M f ('\n' :: '\n' :: y) = none := by
  apply nl3M_short
  rw [nlrun_cons, nlrun_cons]
  have h0 : (y.takeWhile (fun x => x == '\n')).length = 0 := by
    cases hx : y with
    | nil => rfl
    | cons d r2 =>
      have hd : d ≠ '\n' := by
        rw [hx] at hy
        simpa using hy
      rw [List.takeWhile_cons, if_neg (by simpa using hd)]
      rfl
  omega

theorem nl3M_none_one_head {f : Bool} {y : List Char}
    (hy : y.head? ≠ some '\n') : nl3M f ('\n' :: y) = none := by
  apply nl3M_short
  rw [nlrun_cons]
  have h0 : (y.takeWhile (fun x => x == '\n')).length = 0 := by
    cases hx : y with
    | nil => rfl
    | cons d r2 =>
      have hd : d ≠ '\n' := by
        rw [hx] at hy
        simpa using hy
      rw [List.takeWhile_cons, if_neg (by simpa using hd)]
      rfl
  omega

theorem intercalate_head_ne_nl {c2 : List Char} {cs : List (List Char)}
    (h2 : c2 ≠ []) (hnl : ∀ c ∈ c2, c ≠ '\n') :
    (List.intercalate ['\n', '\n'] (c2 :: cs)).head? ≠ some '\n' := by
  obtain ⟨a, t, rfl⟩ : ∃ a t, c2 = a :: t := by
    cases c2 with
    | nil => exact absurd rfl h2
    | cons a t => exact ⟨a, t, rfl⟩
  have ha : a ≠ '\n' := hnl a (by simp)
  cases cs with
  | nil =>
    rw [intercalate_single]
    simpa using ha
  | cons c3 cs2 =>
    rw [intercalate_cons_two, List.append_assoc]
    rw [head_append_ne _ (show (a :: t).head? = some a from rfl)]
    simpa using ha

theorem nl3M_none_suffix_intercalate :
    ∀ (cs : List (List Char)),
      (∀ b ∈ cs, b ≠ [] ∧ ∀ c ∈ b, c ≠ '\n') →
      ∀ (f : Bool) (t : List Char),
        t <:+ List.intercalate ['\n', '\n'] cs → nl3M f t = none := by
  intro cs
  induction cs with
  | nil =>
    intro _ f t ht
    have : t = [] := List.eq_nil_of_suffix_nil (by simpa [List.intercalate]
      using ht)
    subst this
    rfl
  | cons c1 cs2 ih =>
    intro hb f t ht
    obtain ⟨h10, h1nl⟩ := hb c1 (by simp)
    match cs2 with
    | [] =>
      rw [intercalate_single] at ht
      match t, ht with
      | [], _ => rfl
      | a :: t2, ht =>
        exact nl3M_none (by
          simpa using h1nl a (ht.subset (List.mem_cons_self a t2)))
    | c2 :: cs3 =>
      rw [intercalate_cons_two, List.append_assoc,
        show (['\n', '\n'] : List Char) ++
            List.intercalate ['\n', '\n'] (c2 :: cs3) =
          '\n' :: '\n' :: List.intercalate ['\n', '\n'] (c2 :: cs3) from
          rfl] at ht
      have hb2 : ∀ b ∈ c2 :: cs3, b ≠ [] ∧ ∀ c ∈ b, c ≠ '\n' :=
        fun b h2 => hb b (List.mem_cons_of_mem c1 h2)
      obtain ⟨h20, h2nl⟩ := hb2 c2 (by simp)
      have hhead : (List.intercalate ['\n', '\n'] (c2 :: cs3)).head? ≠
          some '\n' := intercalate_head_ne_nl h20 h2nl
      rcases suffix_append_cases ht with h | ⟨x2, hx2, hteq⟩
      · rcases List.suffix_cons_iff.mp h with h1 | h2
        · rw [h1]
          exact nl3M_none_two_head hhead
        · rcases List.suffix_cons_iff.mp h2 with h3 | h4
          · rw [h3]
            exact nl3M_none_one_head hhead
          · exact ih hb2 f t h4
      · subst hteq
        match x2, hx2 with
        | [], _ => exact nl3M_none_two_head hhead
        | a :: x3, hx2 =>
          exact nl3M_none (by
            simpa using h1nl a (hx2.subset (List.mem_cons_self a x3)))

theorem collapseNl_intercalate_id {cs : List (List Char)}
    (hb : ∀ b ∈ cs, b ≠ [] ∧ ∀ c ∈ b, c ≠ '\n') :
    collapseNl (List.intercalate ['\n', '\n'] cs) =
      List.intercalate ['\n', '\n'] cs :=
  reSubFuel_id_of_none _ _ _
    (fun f t ht => nl3M_none_suffix_intercalate cs hb f t ht)

theorem reSubFuel_flag
    {m : Bool → List Char → Option (Nat × List Char)}
    (hm : ∀ (f g : Bool) (s : List Char), m f s = m g s) :
    ∀ (fuel : Nat) (f g : Bool) (s : List Char),
      reSubFuel m fuel f s = reSubFuel m fuel g s := by
  intro fuel
  induction fuel with
  | zero => intro f g s; rfl
  | succ fuel ih =>
    intro f g s
    match s with
    | [] => rw [reSubFuel_nil, reSubFuel_nil]
    | c :: rest =>
      cases hmc : m g (c :: rest) with
      | none =>
        rw [reSubFuel_cons_none fuel ((hm f g _).trans hmc),
          reSubFuel_cons_none fuel hmc]
      | some p =>
        obtain ⟨n, repl⟩ := p
        by_cases hn : n = 0
        · subst hn
          have e1 : reSubFuel m (fuel + 1) f (c :: rest) =
              c :: reSubFuel m fuel (c == '\n') rest := by
            simp [reSubFuel, (hm f g _).trans hmc]
          have e2 : reSubFuel m (fuel + 1) g (c :: rest) =
              c :: reSubFuel m fuel (c == '\n') rest := by
            simp [reSubFuel, hmc]
          rw [e1, e2]
        · rw [reSubFuel_cons_some fuel ((hm f g _).trans hmc) hn,
            reSubFuel_cons_some fuel hmc hn]

theorem takeWhile_append_stop {p : Char → Bool} {d : Char}
    (hd : p d = false) :
    ∀ (b r : List Char), ((b ++ d :: r).takeWhile p) = b.takeWhile p := by
  intro b r
  induction b with
  | nil =>
    rw [List.nil_append, List.takeWhile_cons]
    simp [hd]
  | cons c b2 ih =>
    rw [List.cons_append, List.takeWhile_cons, List.takeWhile_cons]
    by_cases hc : p c = true
    · simp [hc, ih]
    · simp [hc]

theorem spM_flag (f g : Bool) (s : List Char) : spM f s = spM g s := rfl

theorem reSubFuel_spM_flag (fuel : Nat) (f g : Bool) (s : List Char) :
    reSubFuel spM fuel f s = reSubFuel spM fuel g s :=
  reSubFuel_flag spM_flag fuel f g s

theorem collapseSp_append_nl_fuel :
    ∀ (fuel : Nat) (f : Bool) (b r : List Char),
      (b ++ '\n' :: r).length ≤ fuel →
      reSubFuel spM fuel f (b ++ '\n' :: r) =
        reSubFuel spM b.length f b ++
          '\n' :: reSubFuel spM r.length true r := by
  intro fuel
  induction fuel with
  | zero =>
    intro f b r h
    rw [List.length_append, List.length_cons] at h
    omega
  | succ fuel ih =>
    intro f b r h
    have hlen : b.length + 1 + r.length ≤ fuel + 1 := by
      rw [List.length_append, List.length_cons] at h
      omega
    match b with
    | [] =>
      rw [List.nil_append,
        reSubFuel_cons_none fuel (spM_none (by simp)),
        show (('\n' : Char) == '\n') = true from rfl,
        reSubFuel_stable spM fuel r.length true r (by omega) (le_refl _)]
      rfl
    | c :: b2 =>
      have hblen : (c :: b2).length = b2.length + 1 := rfl
      by_cases hc : c = ' '
      · subst hc
        have hkeq : ((' ' :: (b2 ++ '\n' :: r)).takeWhile
            (fun x => x == ' ')) = ((' ' :: b2).takeWhile
            (fun x => x == ' ')) := by
          rw [show (' ' :: (b2 ++ '\n' :: r)) =
            ((' ' :: b2) ++ '\n' :: r) from rfl]
          exact takeWhile_append_stop (by decide) (' ' :: b2) r
        have hk1 : ((' ' :: b2).takeWhile (fun x => x == ' ')).length ≠ 0 :=
          spM_run_pos
        have hkle : ((' ' :: b2).takeWhile (fun x => x == ' ')).length ≤
            b2.length + 1 := by
          have h2 : ((' ' :: b2).takeWhile (fun x => x == ' ')) <+:
              (' ' :: b2) := List.takeWhile_prefix _
          simpa using h2.length_le
        have hfire : spM f (' ' :: (b2 ++ '\n' :: r)) =
            some (((' ' :: b2).takeWhile (fun x => x == ' ')).length,
              [' ']) := by
          simp [spM, hkeq]
        have hfire2 : spM f (' ' :: b2) =
            some (((' ' :: b2).takeWhile (fun x => x == ' ')).length,
              [' ']) := by
          simp [spM]
        have hdrop : List.drop
            (((' ' :: b2).takeWhile (fun x => x == ' ')).length)
            (' ' :: (b2 ++ '\n' :: r)) =
            List.drop (((' ' :: b2).takeWhile (fun x => x == ' ')).length)
              (' ' :: b2) ++ '\n' :: r := by
          rw [show (' ' :: (b2 ++ '\n' :: r)) =
            ((' ' :: b2) ++ '\n' :: r) from rfl,
            List.drop_append_eq_append_drop,
            Nat.sub_eq_zero_of_le (by simpa using hkle), List.drop_zero]
        have hbound : ((List.drop
            (((' ' :: b2).takeWhile (fun x => x == ' ')).length)
            (' ' :: b2)) ++ '\n' :: r).length ≤ fuel := by
          simp only [List.length_cons] at hlen
          rw [List.length_append, List.length_cons, List.length_drop,
            List.length_cons]
          omega
        have hrhs : reSubFuel spM (' ' :: b2).length f (' ' :: b2) =
            [' '] ++ reSubFuel spM
              (List.drop (((' ' :: b2).takeWhile
                (fun x => x == ' ')).length) (' ' :: b2)).length true
              (List.drop (((' ' :: b2).takeWhile
                (fun x => x == ' ')).length) (' ' :: b2)) := by
          rw [hblen, reSubFuel_cons_some b2.length hfire2 hk1,
            reSubFuel_spM_flag b2.length _ true,
            reSubFuel_stable spM b2.length
              (List.drop (((' ' :: b2).takeWhile
                (fun x => x == ' ')).length) (' ' :: b2)).length true _
              (by rw [List.length_drop, List.length_cons]; omega)
              (le_refl _)]
        rw [show ((' ' :: b2) ++ '\n' :: r) =
          (' ' :: (b2 ++ '\n' :: r)) from rfl,
          reSubFuel_cons_some fuel hfire hk1, hdrop,
          reSubFuel_spM_flag fuel _ true,
          ih true (List.drop (((' ' :: b2).takeWhile
            (fun x => x == ' ')).length) (' ' :: b2)) r hbound,
          hrhs, List.append_assoc]
      · have hnone : spM f (c :: (b2 ++ '\n' :: r)) = none :=
          spM_none (by simp [hc])
        have hnone2 : spM f (c :: b2) = none :=
          spM_none (by simp [hc])
        have hbound2 : (b2 ++ '\n' :: r).length ≤ fuel := by
          simp only [List.length_cons] at hlen
          rw [List.length_append, List.length_cons]
          omega
        rw [show ((c :: b2) ++ '\n' :: r) =
          (c :: (b2 ++ '\n' :: r)) from rfl,
          reSubFuel_cons_none fuel hnone,
          ih (c == '\n') b2 r hbound2, hblen,
          reSubFuel_cons_none b2.length hnone2]
        rfl

theorem collapseSp_append_nl (b r : List Char) :
    collapseSp (b ++ '\n' :: r) = collapseSp b ++ '\n' :: collapseSp r :=
  collapseSp_append_nl_fuel (b ++ '\n' :: r).length true b r (le_refl _)

theorem collapseSp_intercalate :
    ∀ (cs : List (List Char)),
      collapseSp (List.intercalate ['\n', '\n'] cs) =
        List.intercalate ['\n', '\n'] (cs.map collapseSp) := by
  intro cs
  match cs with
  | [] => rfl
  | [c] =>
    rw [intercalate_single, List.map_singleton, intercalate_single]
  | c1 :: c2 :: cs2 =>
    have ih := collapseSp_intercalate (c2 :: cs2)
    rw [intercalate_cons_two, List.append_assoc,
      show (['\n', '\n'] : List Char) ++
          List.intercalate ['\n', '\n'] (c2 :: cs2) =
        '\n' :: '\n' :: List.intercalate ['\n', '\n'] (c2 :: cs2) from rfl,
      collapseSp_append_nl,
      show ('\n' :: List.intercalate ['\n', '\n'] (c2 :: cs2)) =
        ([] ++ '\n' :: List.intercalate ['\n', '\n'] (c2 :: cs2)) from rfl,
      collapseSp_append_nl, ih]
    rw [show collapseSp [] = [] from rfl, List.nil_append]
    simp only [List.map_cons]
    rw [intercalate_cons_two, List.append_assoc]
    rfl

theorem drop_takeWhile_len {p : Char → Bool} :
    ∀ (l : List Char), List.drop ((l.takeWhile p).length) l =
      l.dropWhile p := by
  intro l
  induction l with
  | nil => rfl
  | cons a t ih =>
    by_cases ha : p a = true
    · rw [List.takeWhile_cons_of_pos ha, List.dropWhile_cons_of_pos ha,
        List.length_cons, List.drop_succ_cons, ih]
    · rw [List.takeWhile_cons_of_neg (by simpa using ha),
        List.dropWhile_cons_of_neg (by simpa using ha)]
      rfl

theorem collapseSp_mem_of_ne_sp :
    ∀ (fuel : Nat) (f : Bool) (s : List Char) (c : Char), c ∈ s → c ≠ ' ' →
      c ∈ reSubFuel spM fuel f s := by
  intro fuel
  induction fuel with
  | zero => intro f s c hc _; exact hc
  | succ fuel ih =>
    intro f s c hc hne
    match s with
    | [] => simp at hc
    | a :: rest =>
      by_cases ha : a = ' '
      · subst ha
        have hfire : spM f (' ' :: rest) =
            some (((' ' :: rest).takeWhile (fun x => x == ' ')).length,
              [' ']) := by
          simp [spM]
        rw [reSubFuel_cons_some fuel hfire spM_run_pos]
        refine List.mem_append_right _ (ih _ _ c ?_ hne)
        rw [drop_takeWhile_len]
        refine mem_dropWhile_of_not hc ?_
        simpa using hne
      · rw [reSubFuel_cons_none fuel (spM_none (by simp [ha]))]
        rcases List.mem_cons.mp hc with rfl | h2
        · exact List.mem_cons_self c _
        · exact List.mem_cons_of_mem a (ih _ _ c h2 hne)

theorem collapseSp_block_props {b : List Char}
    (hex : ∃ c ∈ b, isPyWs c = false) (hnl : ∀ c ∈ b, c ≠ '\n') :
    (∃ c ∈ collapseSp b, isPyWs c = false) ∧
      (∀ c ∈ collapseSp b, c ≠ '\n') := by
  constructor
  · obtain ⟨c, hc, hw⟩ := hex
    refine ⟨c, ?_, hw⟩
    refine collapseSp_mem_of_ne_sp _ _ _ _ hc ?_
    intro he
    subst he
    exact absurd hw (by simp [isPyWs])
  · exact reSubFuel_nlFree (fun f t n repl ht hm => by
      match t, hm with
      | a :: rest, hm =>
        by_cases ha : a = ' '
        · subst ha
          rw [show spM f (' ' :: rest) =
            some (((' ' :: rest).takeWhile (fun x => x == ' ')).length,
              [' ']) from by simp [spM]] at hm
          simp only [Option.some.injEq, Prod.mk.injEq] at hm
          obtain ⟨_, hrepl⟩ := hm
          subst hrepl
          intro c hc
          simp only [List.mem_singleton] at hc
          subst hc
          decide
        · rw [spM_none (by simp [ha])] at hm
          simp at hm) _ _ _ hnl

theorem rstripWs_append {x y : List Char} (hy : rstripWs y ≠ []) :
    rstripWs (x ++ y) = x ++ rstripWs y := by
  have hdw : y.reverse.dropWhile isPyWs ≠ [] := by
    intro h
    apply hy
    rw [rstripWs, h]
    rfl
  rw [rstripWs, List.reverse_append, dropWhile_append_ne _ hdw,
    List.reverse_append, List.reverse_reverse]
  rfl

theorem intercalate_ne_nil {c1 : List Char} {cs : List (List Char)}
    (h1 : c1 ≠ []) : List.intercalate ['\n', '\n'] (c1 :: cs) ≠ [] := by
  cases cs with
  | nil =>
    rw [intercalate_single]
    exact h1
  | cons c2 cs2 =>
    rw [intercalate_cons_two]
    intro h
    have hl := congrArg List.length h
    simp only [List.length_append, List.length_cons, List.length_nil] at hl
    omega

theorem rstripWs_intercalate :
    ∀ (cs : List (List Char)), cs ≠ [] →
      (∀ b ∈ cs, (∃ c ∈ b, isPyWs c = false) ∧ (∀ c ∈ b, c ≠ '\n')) →
      ∃ ds : List (List Char), ds ≠ [] ∧
        rstripWs (List.intercalate ['\n', '\n'] cs) =
          List.intercalate ['\n', '\n'] ds ∧
        ∀ b ∈ ds, (∃ c ∈ b, isPyWs c = false) ∧ (∀ c ∈ b, c ≠ '\n') := by
  intro cs
  induction cs with
  | nil => intro h _; exact absurd rfl h
  | cons c1 cs2 ih =>
    intro _ hb
    obtain ⟨hex1, hnl1⟩ := hb c1 (by simp)
    match cs2 with
    | [] =>
      refine ⟨[rstripWs c1], by simp, ?_, ?_⟩
      · rw [intercalate_single, intercalate_single]
      · intro b hbm
        simp only [List.mem_singleton] at hbm
        subst hbm
        constructor
        · obtain ⟨c, hc, hw⟩ := hex1
          exact ⟨c, mem_rstripWs hc hw, hw⟩
        · intro c hc
          exact hnl1 c (rstripWs_subset hc)
    | c2 :: cs3 =>
      obtain ⟨ds, hds0, hdse, hdsp⟩ := ih (by simp)
        (fun b h2 => hb b (List.mem_cons_of_mem c1 h2))
      have hne : rstripWs (List.intercalate ['\n', '\n'] (c2 :: cs3)) ≠
          [] := by
        rw [hdse]
        match ds, hds0 with
        | d1 :: ds2, _ =>
          obtain ⟨c, hc, _⟩ := (hdsp d1 (by simp)).1
          exact intercalate_ne_nil (List.ne_nil_of_mem hc)
      have hinner : rstripWs (['\n', '\n'] ++
          List.intercalate ['\n', '\n'] (c2 :: cs3)) =
          ['\n', '\n'] ++ rstripWs
            (List.intercalate ['\n', '\n'] (c2 :: cs3)) :=
        rstripWs_append hne
      have hinner0 : rstripWs (['\n', '\n'] ++
          List.intercalate ['\n', '\n'] (c2 :: cs3)) ≠ [] := by
        rw [hinner]
        simp
      refine ⟨c1 :: ds, by simp, ?_, ?_⟩
      · rw [intercalate_cons_two, List.append_assoc,
          rstripWs_append hinner0, hinner, hdse]
        match ds, hds0 with
        | d1 :: ds2, _ =>
          rw [intercalate_cons_two, List.append_assoc]
      · intro b hbm
        rcases List.mem_cons.mp hbm with rfl | h2
        · exact ⟨hex1, hnl1⟩
        · exact hdsp b h2

theorem lstripWs_intercalate_cons {c1 : List Char} {cs : List (List Char)}
    (h1 : lstripWs c1 ≠ []) :
    lstripWs (List.intercalate ['\n', '\n'] (c1 :: cs)) =
      List.intercalate ['\n', '\n'] (lstripWs c1 :: cs) := by
  cases cs with
  | nil => rw [intercalate_single, intercalate_single]
  | cons c2 cs2 =>
    rw [intercalate_cons_two, intercalate_cons_two, List.append_assoc,
      List.append_assoc]
    exact dropWhile_append_ne _ h1

theorem pystrip_intercalate {cs : List (List Char)} (h0 : cs ≠ [])
    (hb : ∀ b ∈ cs, (∃ c ∈ b, isPyWs c = false) ∧ (∀ c ∈ b, c ≠ '\n')) :
    ∃ ds : List (List Char), ds ≠ [] ∧
      pystrip (List.intercalate ['\n', '\n'] cs) =
        List.intercalate ['\n', '\n'] ds ∧
      ∀ b ∈ ds, (∃ c ∈ b, isPyWs c = false) ∧ (∀ c ∈ b, c ≠ '\n') := by
  match cs with
  | c1 :: cs2 =>
    obtain ⟨hex1, hnl1⟩ := hb c1 (by simp)
    have hl1 : lstripWs c1 ≠ [] := by
      obtain ⟨c, hc, hw⟩ := hex1
      exact List.ne_nil_of_mem (mem_lstripWs hc hw)
    rw [pystrip_eq_lr, lstripWs_intercalate_cons hl1]
    refine rstripWs_intercalate (lstripWs c1 :: cs2) (by simp) ?_
    intro b hbm
    rcases List.mem_cons.mp hbm with rfl | h2
    · constructor
      · obtain ⟨c, hc, hw⟩ := hex1
        exact ⟨c, mem_lstripWs hc hw, hw⟩
      · intro c hc
        exact hnl1 c (lstripWs_subset hc)
    · exact hb b (List.mem_cons_of_mem c1 h2)

/-- C5: every block of the output of `clean_markdown_text` — each
maximal segment delimited by the `"\n\n"` separators that line 107 uses
to join blocks — is non-empty and not whitespace-only: the join filters
out blank blocks, the newline collapse is the identity on the joined
string, the space collapse and the final strip act inside blocks, and
none of them can blank a block. -/
theorem c5_output_blocks_not_blank (s : String) :
    ∀ b ∈ split2NL (clean_markdown_text s).data,
      b ≠ [] ∧ pystrip b ≠ [] := by
  rw [clean_markdown_text_data, cleanList_eq]
  have hpl : ∀ b ∈ processLines [] [] (splitNl (stage1 s.data)),
      ∀ c ∈ b, c ≠ '\n' :=
    processLines_nlFree _ [] [] (by intro b hb; simp at hb)
      (by intro b hb; simp at hb) (splitNl_nlFree (stage1 s.data))
  rw [show joinBlocks (processLines [] [] (splitNl (stage1 s.data))) =
      List.intercalate ['\n', '\n']
        ((processLines [] [] (splitNl (stage1 s.data))).filter
          (fun b => !(pystrip b).isEmpty)) from rfl]
  have hfp : ∀ b ∈ (processLines [] [] (splitNl (stage1 s.data))).filter
      (fun b => !(pystrip b).isEmpty),
      b ≠ [] ∧ (∀ c ∈ b, c ≠ '\n') ∧ (∃ c ∈ b, isPyWs c = false) := by
    intro b hbm
    obtain ⟨hmem, hflt⟩ := List.mem_filter.mp hbm
    have hps : pystrip b ≠ [] := by
      intro he
      rw [he] at hflt
      simp at hflt
    obtain ⟨c, hc, hw⟩ := pystrip_ne_nil_ex hps
    exact ⟨List.ne_nil_of_mem hc, hpl b hmem, ⟨c, hc, hw⟩⟩
  rw [collapseNl_intercalate_id
    (fun b hbm => ⟨(hfp b hbm).1, (hfp b hbm).2.1⟩)]
  rw [collapseSp_intercalate]
  have hmp : ∀ b ∈ ((processLines [] [] (splitNl (stage1 s.data))).filter
      (fun b => !(pystrip b).isEmpty)).map collapseSp,
      (∃ c ∈ b, isPyWs c = false) ∧ (∀ c ∈ b, c ≠ '\n') := by
    intro b hbm
    obtain ⟨a, ham, rfl⟩ := List.mem_map.mp hbm
    exact collapseSp_block_props (hfp a ham).2.2 (hfp a ham).2.1
  cases hf : (processLines [] [] (splitNl (stage1 s.data))).filter
      (fun b => !(pystrip b).isEmpty) with
  | nil =>
    intro b hbm
    simp [split2NL, List.intercalate, pystrip] at hbm
  | cons f1 fs =>
    rw [hf] at hmp
    obtain ⟨ds, hds0, hdse, hdsp⟩ := pystrip_intercalate (by simp) hmp
    rw [hdse]
    have hds_ne : ∀ b ∈ ds, b ≠ [] ∧ pystrip b ≠ [] := by
      intro b hbm
      obtain ⟨⟨c, hc, hw⟩, _⟩ := hdsp b hbm
      exact ⟨List.ne_nil_of_mem hc, pystrip_ne_nil_of_mem hc hw⟩
    have hint_ne : List.intercalate ['\n', '\n'] ds ≠ [] := by
      match ds, hds0 with
      | d1 :: ds2, _ => exact intercalate_ne_nil (hds_ne d1 (by simp)).1
    rw [split2NL, if_neg (by simp [isEmpty_false_of_ne hint_ne])]
    rw [split2B_intercalate ds hds0 (fun b hbm => (hdsp b hbm).2)]
    exact hds_ne

theorem c5_witness :
    ['h', 'i'] ∈ split2NL (clean_markdown_text "hi").data ∧
      (['h', 'i'] ≠ [] ∧ pystrip ['h', 'i'] ≠ []) :=
  ⟨by decide, c5_output_blocks_not_blank "hi" ['h', 'i'] (by decide)⟩
